import Mathlib

/-
Verification of the dreamDownloader repository against its specification.

This file contains a shallow embedding, in Lean 4, of the parts of the
repository (src/bot.py, src/database.py, src/downloader.py) that the
frozen claims C1..C10 speak about, together with theorems settling each
claim.

Modelling conventions:
* Python strings are modelled as `List Char` (one entry per Unicode scalar
  value), with `String` wrappers at theorem boundaries where convenient.
* Python floats appearing in arithmetic (ffprobe durations, bitrates) are
  modelled as `ℚ`; the divisions involved are by powers of two, where IEEE
  doubles are exact for all realistic magnitudes, so rational arithmetic
  agrees with the code.
* Fallible operations (subprocess calls, ffprobe, SQL) are modelled as
  `Option`/`Except` values or as explicit outcome parameters.
* CPython standard-library functions used by the code (urllib.parse,
  json, str methods) are translated from their CPython 3.11 sources.
-/

namespace DreamDownloader

/-! ## Transcoder: needs_telegram_optimization (src/downloader.py 902-957)

`needs_telegram_optimization` probes a file with ffprobe and decides
whether it has to be re-encoded before upload.  The ffprobe JSON answer is
modelled by `FfprobeData`: the selected video stream's fields are optional
because the code reads them with `dict.get` defaults.  The whole probe is
`Option`: `none` models the subprocess/JSON failure caught by the inner
`except`.  The file size is `Option Nat`: `none` models `os.path.getsize`
raising (caught by the outer `except`). -/

structure FfprobeStream where
  codec_name : Option String
  width : Option Nat
  height : Option Nat
  /-- field display_aspect_ratio of the ffprobe stream JSON -/
  dar : Option String
  deriving DecidableEq, Repr

structure FfprobeData where
  streams : List FfprobeStream
  deriving DecidableEq, Repr

/-- reasons returned in the second component; the Python code returns
f-strings, modelled here as a tag carrying the interpolated data -/
inductive OptReason where
  | fileTooLarge (bytes : Nat)
  | badCodec (codec : String)
  | verticalNoAspect (w h : Nat)
  | probeError
  | sizeError
  deriving DecidableEq, Repr

/-- Python str.lower restricted to ASCII (the only characters present in
ffprobe codec names and in URL schemes). -/
def lowerAsciiChar (c : Char) : Char :=
  if 'A' ≤ c ∧ c ≤ 'Z' then Char.ofNat (c.toNat + 32) else c

/-- str.lower on a whole string -/
def pyLower (s : String) : String := ⟨s.data.map lowerAsciiChar⟩

/-- Embedding of `Downloader.needs_telegram_optimization`.
`size_mb > 48` on floats is exact for division by 2^20, hence the
integer comparison `48*1024*1024 < sz`. -/
def needs_telegram_optimization (fileSize : Option Nat)
    (probe : Option FfprobeData) : Bool × Option OptReason :=
  match fileSize with
  | none => (true, some .sizeError)
  | some sz =>
    if 48 * 1024 * 1024 < sz then (true, some (.fileTooLarge sz))
    else
      match probe with
      | none => (true, some .probeError)
      | some data =>
        match data.streams.head? with
        | none => (false, none)
        | some st =>
          let codec := pyLower (st.codec_name.getD "")
          if ¬ (codec = "h264" ∨ codec = "libx264") then
            (true, some (.badCodec codec))
          else if st.width.getD 0 < st.height.getD 0 ∧
              (st.dar.getD "" = "" ∨ st.dar.getD "" = "N/A") then
            (true, some (.verticalNoAspect (st.width.getD 0) (st.height.getD 0)))
          else (false, none)

/-! ## Transcoder: generate_thumbnail (src/downloader.py 1221-1291)

The two ffmpeg invocations are modelled by their observable outcomes:
`raised` (subprocess raised, caught by the function's `except` handlers),
`noFile` (the subprocess returned but the expected output file does not
exist), `created size` (output file exists with the given byte size). -/

inductive FfmpegRun where
  | raised
  | noFile
  | created (size : Nat)
  deriving DecidableEq, Repr

/-- argv of the first ffmpeg call of generate_thumbnail (POSIX, so with the
nice prefix added by `if os.name != 'nt'`) -/
def thumb_cmd (videoPath thumbPath timeOffset : String) : List String :=
  ["nice", "-n", "15", "ffmpeg", "-y", "-ss", timeOffset, "-i", videoPath,
   "-vf", "scale=320:320:force_original_aspect_ratio=decrease",
   "-frames:v", "1", "-q:v", "2", thumbPath]

/-- argv of the re-compression ffmpeg call of generate_thumbnail -/
def thumb_recompress_cmd (thumbPath tempPath : String) : List String :=
  ["nice", "-n", "15", "ffmpeg", "-y", "-i", thumbPath,
   "-vf", "scale=320:320:force_original_aspect_ratio=decrease",
   "-q:v", "5", tempPath]

/-- Embedding of `Downloader.generate_thumbnail`, returning the byte size of
the produced thumbnail file (`some size`), or `none` when the function
returns None.  `first` is the outcome of the initial extraction run,
`second` the outcome of the conditional re-compression run (only consulted
when the first thumbnail exceeds 200 KB). -/
def generate_thumbnail (first second : FfmpegRun) : Option Nat :=
  match first with
  | .raised => none
  | .noFile => none
  | .created sz =>
    if 200 * 1024 < sz then
      match second with
      | .raised => none
      | .noFile => some sz
      | .created tsz => if tsz < 200 * 1024 then some tsz else some sz
    else some sz

/-! ## Transcoder: compress_video bitrate computation (src/downloader.py 1102-1185) -/

/-- Embedding of the bitrate computation of `Downloader.compress_video`
(steps 1-2 of the function), in kbit/s, for a measured duration that has
already passed the `duration <= 0` guard.  Floats are modelled as `ℚ`. -/
def compress_bitrate_kbps (target_size_mb duration : ℚ) : ℚ :=
  let target_bits := target_size_mb * 8 * 1024 * 1024
  let audio_bits := 128 * 1024 * duration
  let video_bits := target_bits - audio_bits
  let kbps :=
    if video_bits ≤ 0 then (100 : ℚ)
    else video_bits / duration / 1024
  let kbps' := kbps * (9 / 10)
  if kbps' < 50 then 50 else kbps'

/-- Modelled from the spec: the claimed bitrate formula
`(target_bits - audio_bits)/duration * 0.9` (converted to kbit/s)
"with a floor of 50 kbit/s", applied unconditionally, for comparison
against `compress_bitrate_kbps` translated from the code. -/
def spec_bitrate_kbps (target_size_mb duration : ℚ) : ℚ :=
  let target_bits := target_size_mb * 8 * 1024 * 1024
  let audio_bits := 128 * 1024 * duration
  let kbps := (target_bits - audio_bits) / duration / 1024 * (9 / 10)
  if kbps < 50 then 50 else kbps

/-- argv of the compression ffmpeg call (POSIX nice prefix included);
`int()` on a positive float truncates, i.e. floors. -/
def compress_cmd (input output : String) (duration : ℚ) : List String :=
  let k := compress_bitrate_kbps 49 duration
  ["nice", "-n", "15", "ffmpeg", "-y", "-i", input,
   "-c:v", "libx264",
   "-b:v", toString k.floor ++ "k",
   "-maxrate", toString (k * (3/2)).floor ++ "k",
   "-bufsize", toString (k * 2).floor ++ "k",
   "-preset", "medium", "-pix_fmt", "yuv420p",
   "-c:a", "aac", "-b:a", "128k",
   "-movflags", "+faststart", output]

/-! ## Voice batch aggregation: add_message_to_batch (src/bot.py 3367-3446) -/

def BATCH_TIMEOUT : ℚ := 1 / 2
def BATCH_MAX_SIZE : Nat := 50

inductive BatchAction where
  /-- cancel any pending timer and (re)start a BATCH_TIMEOUT timer -/
  | startTimer
  /-- run process_batch immediately (synchronous flush) -/
  | flushNow
  deriving DecidableEq, Repr

structure BatchMsg where
  message_id : Nat
  content_type : String
  deriving DecidableEq, Repr

/-- Decision taken by `add_message_to_batch` after appending the message:
the voice/video_note branch always (re)starts the timer; only the
`elif is_rapid or len(...) >= BATCH_MAX_SIZE` branch for other content
flushes immediately. `bufferLenAfter` is the buffer length after append. -/
def add_message_action (ct : String) (bufferLenAfter : Nat)
    (is_rapid : Bool) : BatchAction :=
  if ct = "voice" ∨ ct = "video_note" then .startTimer
  else if is_rapid ∨ BATCH_MAX_SIZE ≤ bufferLenAfter then .flushNow
  else .startTimer

structure BatchState where
  buffer : List BatchMsg
  flushed : List (List BatchMsg)
  deriving DecidableEq, Repr

/-- One arrival processed by `add_message_to_batch` (buffer append under
batch_lock, then the branch decision; a synchronous flush drains the
buffer as `process_batch` does). -/
def add_message (s : BatchState) (m : BatchMsg) (is_rapid : Bool) : BatchState :=
  let buf := s.buffer ++ [m]
  match add_message_action m.content_type buf.length is_rapid with
  | .flushNow => { buffer := [], flushed := s.flushed ++ [buf] }
  | .startTimer => { buffer := buf, flushed := s.flushed }

/-- Timer expiry: `process_batch` drains the buffer (and returns without
flushing anything when the buffer is empty). -/
def timer_fire (s : BatchState) : BatchState :=
  if s.buffer = [] then s
  else { buffer := [], flushed := s.flushed ++ [s.buffer] }

/-- n rapidly-arriving voice messages (ids 1..n), no timer expiry in
between (each arrival is within the 0.5 s window, so the pending timer is
cancelled and restarted every time). -/
def run_rapid_voice (n : Nat) : BatchState :=
  (List.range n).foldl
    (fun s i => add_message s ⟨i + 1, "voice"⟩ true)
    ⟨[], []⟩

/-! ## Python str.strip

Python str.strip()/rstrip() with no argument remove whitespace from the
ends.  The modelled whitespace set is the ASCII one (space, \t, \n, \r,
\v, \f); Python additionally strips some rare Unicode space characters,
which none of the claims' inputs contain, and the set is used consistently
throughout the embedding. -/

def isPyWs (c : Char) : Bool :=
  c = ' ' ∨ c = '\t' ∨ c = '\n' ∨ c = '\x0d' ∨
    c = Char.ofNat 11 ∨ c = Char.ofNat 12

def pyLStripL (l : List Char) : List Char := l.dropWhile isPyWs

def pyRStripL (l : List Char) : List Char := (l.reverse.dropWhile isPyWs).reverse

def pyStripL (l : List Char) : List Char := pyRStripL (pyLStripL l)

/-! ## Voice batch processing: process_batch / process_voice_batch
(src/bot.py 3448-3592)

`process_batch` keeps the voice/video_note messages of the drained buffer,
sorts them by message_id ascending (list.sort is stable, modelled by
insertion sort) and hands them to `process_voice_batch`, which transcribes
them on a thread pool of `min(n, 16)` workers.  The pool is modelled by a
completion order `order` (a permutation of the indices): the code
iterates over `future_to_index` and stores each result at its submission
index in `transcribed_texts` (initialised to `[None] * n`), which
`collectResults` reproduces with `List.set` over the completion order.
The transcription oracle `trans` already folds in the
exception-to-empty-string handling of the `except` branch. -/

/-- max_workers of the ThreadPoolExecutor -/
def pool_size (n : Nat) : Nat := min n 16

/-- sorting step of process_batch: keep voice/video_note messages, sort by
message_id ascending -/
def process_batch_sort (msgs : List BatchMsg) : List BatchMsg :=
  (msgs.filter (fun m => m.content_type = "voice" ∨ m.content_type = "video_note")).insertionSort
    (fun a b => a.message_id ≤ b.message_id)

/-- result collection of the transcription pool: `transcribed_texts` is
`[None] * n`; iterating over the futures in completion order `order`
stores result `res i` at index `i` -/
def collectResults (n : Nat) (res : Nat → List Char) (order : List Nat) :
    List (Option (List Char)) :=
  order.foldl (fun acc i => acc.set i (some (res i))) (List.replicate n none)

/-- the transcribed_texts list after the pool has drained -/
def transcribed_texts (trans : BatchMsg → List Char) (sorted : List BatchMsg)
    (order : List Nat) : List (Option (List Char)) :=
  collectResults sorted.length (fun i => trans (sorted.getD i ⟨0, ""⟩)) order

/-- label of one section: "Голосовое" for voice else "Видеосообщение" -/
def contentLabel (ct : String) : List Char :=
  if ct = "voice" then "Голосовое".data else "Видеосообщение".data

/-- one section of the combined transcript, as appended by
`combined_text += f"\n\n--- {message_type} {i+1} ---\n{text}"` -/
def sectionText (ct : String) (i : Nat) (text : List Char) : List Char :=
  "\n\n--- ".data ++ contentLabel ct ++ (' ' :: (Nat.repr (i + 1)).data) ++
    " ---\n".data ++ text

/-- the enumerate-zip loop building combined_text: a section is appended
only when `text and text.strip()` is truthy, i.e. the text is non-empty
after stripping -/
def combineGo (i : Nat) : List (List Char × BatchMsg) → List Char
  | [] => []
  | (text, m) :: tl =>
    (if pyStripL text ≠ [] then sectionText m.content_type i text else []) ++
      combineGo (i + 1) tl

/-- combined_text after the final .strip() -/
def voice_combined (msgs : List BatchMsg) (texts : List (List Char)) : List Char :=
  pyStripL (combineGo 0 (texts.zip msgs))

/-- whole pipeline from the drained buffer (arrival order) and a pool
completion order to the published combined transcript -/
def process_voice_pipeline (trans : BatchMsg → List Char)
    (arrival : List BatchMsg) (order : List Nat) : List Char :=
  let sorted := process_batch_sort arrival
  let texts := (transcribed_texts trans sorted order).map (fun o => o.getD [])
  voice_combined sorted texts

/-! ## json.dumps / json.loads (CPython json, as used by src/database.py)

`save_file_to_cache` stores `json.dumps(file_ids)` (a list of Python str)
and `get_cached_file` recovers it with `json.loads`.  The serializer is
translated from CPython's `json.encoder.py_encode_basestring_ascii`
(`ensure_ascii=True` is the default) and the parser from
`json.decoder.py_scanstring`/`JSONArray`.  The parser is partial: it
covers JSON texts consisting of a string or an array of strings, the only
shapes this code base ever stores in the `file_id` column; on other JSON
texts it returns `none` where CPython may succeed (the theorems below
never evaluate it there).  CPython also accepts lone surrogate `\uXXXX`
escapes, producing str values that have no counterpart in Lean's `Char`;
the parser returns `none` for those, and the serializer never emits
them. -/

def hexDigitLower (n : Nat) : Char :=
  if n < 10 then Char.ofNat (48 + n) else Char.ofNat (87 + n)

/-- 4-digit lowercase hex, as produced by '\u%04x' -/
def u4hex (n : Nat) : List Char :=
  [hexDigitLower (n / 4096 % 16), hexDigitLower (n / 256 % 16),
   hexDigitLower (n / 16 % 16), hexDigitLower (n % 16)]

/-- escaping of one character by py_encode_basestring_ascii: printable
ASCII other than quote and backslash is literal; the ESCAPE_DCT short
escapes, then \uXXXX, with a surrogate pair above U+FFFF -/
def jsonEscapeChar (c : Char) : List Char :=
  if c = '"' then ['\\', '"']
  else if c = '\\' then ['\\', '\\']
  else if c.toNat = 8 then ['\\', 'b']
  else if c.toNat = 9 then ['\\', 't']
  else if c.toNat = 10 then ['\\', 'n']
  else if c.toNat = 12 then ['\\', 'f']
  else if c.toNat = 13 then ['\\', 'r']
  else if 0x20 ≤ c.toNat ∧ c.toNat ≤ 0x7E then [c]
  else if c.toNat < 0x10000 then '\\' :: 'u' :: u4hex c.toNat
  else
    let v := c.toNat - 0x10000
    ('\\' :: 'u' :: u4hex (0xD800 + v / 1024)) ++ ('\\' :: 'u' :: u4hex (0xDC00 + v % 1024))

/-- json.dumps of one str (including the surrounding quotes) -/
def jsonDumpStr (s : List Char) : List Char :=
  '"' :: s.flatMap jsonEscapeChar ++ ['"']

/-- comma-space separated concatenation, json.dumps' default item
separator for a list -/
def jsonJoinItems : List (List Char) → List Char
  | [] => []
  | [x] => x
  | x :: y :: tl => x ++ ',' :: ' ' :: jsonJoinItems (y :: tl)

/-- json.dumps of a list of str -/
def jsonDumpStrList (ids : List (List Char)) : List Char :=
  '[' :: jsonJoinItems (ids.map jsonDumpStr) ++ [']']

inductive PyJson where
  | str (s : List Char)
  | arr (elems : List PyJson)

def isJsonWs (c : Char) : Bool := c = ' ' ∨ c = '\t' ∨ c = '\n' ∨ c = '\r'

def skipJsonWs (l : List Char) : List Char := l.dropWhile isJsonWs

def hexVal? (c : Char) : Option Nat :=
  if '0' ≤ c ∧ c ≤ '9' then some (c.toNat - 48)
  else if 'a' ≤ c ∧ c ≤ 'f' then some (c.toNat - 87)
  else if 'A' ≤ c ∧ c ≤ 'F' then some (c.toNat - 55)
  else none

/-- reads the four hex digits of a \uXXXX escape -/
def readU4 : List Char → Option (Nat × List Char)
  | h1 :: h2 :: h3 :: h4 :: rest =>
    match hexVal? h1, hexVal? h2, hexVal? h3, hexVal? h4 with
    | some a, some b, some c, some d => some (a * 4096 + b * 256 + c * 16 + d, rest)
    | _, _, _, _ => none
  | _ => none

/-- py_scanstring after the opening quote: returns the string contents and
the input following the closing quote.  Strict mode (bare control
characters rejected); surrogate-pair recombination as in CPython; lone
surrogates rejected (see module comment). -/
def parseJsonStr (fuel : Nat) (l : List Char) : Option (List Char × List Char) :=
  match fuel with
  | 0 => none
  | f + 1 =>
    match l with
    | [] => none
    | c :: rest =>
      if c = '"' then some ([], rest)
      else if c = '\\' then
        match rest with
        | [] => none
        | e :: rest2 =>
          if e = 'u' then
            match readU4 rest2 with
            | none => none
            | some (n, rest3) =>
              if 0xD800 ≤ n ∧ n ≤ 0xDBFF then
                match rest3 with
                | '\\' :: 'u' :: rest4 =>
                  match readU4 rest4 with
                  | none => none
                  | some (n2, rest5) =>
                    if 0xDC00 ≤ n2 ∧ n2 ≤ 0xDFFF then
                      (parseJsonStr f rest5).map (fun p =>
                        (Char.ofNat (0x10000 + (n - 0xD800) * 1024 + (n2 - 0xDC00)) :: p.1, p.2))
                    else none
                | _ => none
              else if 0xDC00 ≤ n ∧ n ≤ 0xDFFF then none
              else (parseJsonStr f rest3).map (fun p => (Char.ofNat n :: p.1, p.2))
          else
            let esc? : Option Char :=
              if e = '"' then some '"'
              else if e = '\\' then some '\\'
              else if e = '/' then some '/'
              else if e = 'b' then some (Char.ofNat 8)
              else if e = 'f' then some (Char.ofNat 12)
              else if e = 'n' then some (Char.ofNat 10)
              else if e = 'r' then some (Char.ofNat 13)
              else if e = 't' then some (Char.ofNat 9)
              else none
            match esc? with
            | none => none
            | some ch => (parseJsonStr f rest2).map (fun p => (ch :: p.1, p.2))
      else if c.toNat < 0x20 then none
      else (parseJsonStr f rest).map (fun p => (c :: p.1, p.2))

/-- JSONArray after the opening bracket (partial: string elements only) -/
def parseJsonArrItems (fuel : Nat) (l : List Char) : Option (List PyJson × List Char) :=
  match fuel with
  | 0 => none
  | f + 1 =>
    match skipJsonWs l with
    | ']' :: r => some ([], r)
    | '"' :: r =>
      match parseJsonStr (f + 1) r with
      | none => none
      | some (s, r1) =>
        match skipJsonWs r1 with
        | ',' :: r2 => (parseJsonArrItems f r2).map (fun p => (.str s :: p.1, p.2))
        | ']' :: r2 => some ([.str s], r2)
        | _ => none
    | _ => none

/-- partial model of json.loads: a JSON text that is a string or an array
of strings, with surrounding whitespace; anything else is `none` -/
def jsonLoads (l : List Char) : Option PyJson :=
  let res : Option (PyJson × List Char) :=
    match skipJsonWs l with
    | '"' :: r => (parseJsonStr (r.length + 1) r).map (fun p => (.str p.1, p.2))
    | '[' :: r => (parseJsonArrItems (r.length + 1) r).map (fun p => (.arr p.1, p.2))
    | _ => none
  match res with
  | some (v, rest) => if skipJsonWs rest = [] then some v else none
  | none => none

/-! ## Persistence layer: file_cache (src/database.py 130-183)

The `file_cache` table (schema at src/database.py 64-73: autoincrement
`id`, `url UNIQUE`, `file_id TEXT`, `media_type`, `uploader_id`,
`created_at`) is modelled as a list of rows plus the autoincrement
counter; `created_at` carries no claim-relevant information and is
omitted.  SQL `SELECT ... WHERE url = ?` with `fetchone` is `List.find?`;
`UPDATE ... WHERE id = ?` maps over rows. -/

structure CacheRow where
  id : Nat
  url : String
  file_id : String
  media_type : String
  uploader_id : Int
  deriving DecidableEq, Repr

structure FileCacheDB where
  rows : List CacheRow
  next_id : Nat
  deriving DecidableEq, Repr

/-- Embedding of `Database.save_file_to_cache` for a list argument (the
claims pass lists).  Returns the updated database and the returned row
id. -/
def save_file_to_cache (db : FileCacheDB) (url : String)
    (file_ids : List String) (media_type : String) (user_id : Int) :
    FileCacheDB × Nat :=
  let file_id_str : String := ⟨jsonDumpStrList (file_ids.map String.data)⟩
  let media' := if 1 < file_ids.length then "carousel" else media_type
  match db.rows.find? (fun r => r.url = url) with
  | some r =>
    ({ rows := db.rows.map (fun r0 =>
         if r0.id = r.id then
           { r0 with file_id := file_id_str, media_type := media', uploader_id := user_id }
         else r0),
       next_id := db.next_id }, r.id)
  | none =>
    ({ rows := db.rows ++ [⟨db.next_id, url, file_id_str, media', user_id⟩],
       next_id := db.next_id + 1 }, db.next_id)

/-- Embedding of `Database.get_cached_file`: looks the row up by url,
parses the stored text as JSON (list kept as-is, scalar wrapped in a
singleton), and falls back to the raw stored text on parse failure. -/
def get_cached_file (db : FileCacheDB) (url : String) :
    Option (List PyJson × String) :=
  match db.rows.find? (fun r => r.url = url) with
  | none => none
  | some r =>
    match jsonLoads r.file_id.data with
    | some (.arr vs) => some (vs, r.media_type)
    | some v => some ([v], r.media_type)
    | none => some ([.str r.file_id.data], r.media_type)

/-! ## URL canonicalizer: normalize_url (src/bot.py 451-511)

`normalize_url` is built on CPython's `urllib.parse` (urlparse, parse_qs,
urlencode, urlunparse), translated here from the CPython 3.11 sources.
Two deliberate simplifications of rarely-hit stdlib corners, neither of
which a claim's theorem evaluates:
* `_checknetloc` (an NFKC-normalization check that raises only for exotic
  non-ASCII netlocs) is not modelled;
* a netloc containing `[` or `]` is treated as raising `ValueError` -
  CPython raises for mismatched brackets and for bracketed hosts that are
  not IP literals, and accepts bracketed IP literals, which cannot be a
  platform hostname.
Both the error path and the no-branch path of `normalize_url` return the
stripped input, so these corners do not affect any statement proved
below. -/

/-- first-occurrence split, str.split(sep, 1) -/
def splitFirst (sep : Char) : List Char → Option (List Char × List Char)
  | [] => none
  | c :: tl =>
    if c = sep then some ([], tl)
    else (splitFirst sep tl).map (fun p => (c :: p.1, p.2))

/-- split at the last occurrence: `l = a ++ sep :: b` with sep not in b -/
def splitLast (sep : Char) (l : List Char) : Option (List Char × List Char) :=
  (splitFirst sep l.reverse).map (fun p => (p.2.reverse, p.1.reverse))

/-- str.split(sep) - all pieces (always at least one) -/
def splitAll (sep : Char) : List Char → List (List Char)
  | [] => [[]]
  | c :: tl =>
    if c = sep then [] :: splitAll sep tl
    else
      match splitAll sep tl with
      | [] => [[c]]
      | p :: ps => (c :: p) :: ps

def listIsPrefixOf : List Char → List Char → Bool
  | [], _ => true
  | _ :: _, [] => false
  | a :: as, b :: bs => a = b && listIsPrefixOf as bs

/-- Python `sub in s` substring test -/
def containsSub (needle : List Char) : List Char → Bool
  | [] => needle.isEmpty
  | c :: tl => listIsPrefixOf needle (c :: tl) || containsSub needle tl

/-- scheme_chars of urllib.parse -/
def isSchemeChar (c : Char) : Bool :=
  ('a' ≤ c ∧ c ≤ 'z') ∨ ('A' ≤ c ∧ c ≤ 'Z') ∨ ('0' ≤ c ∧ c ≤ '9') ∨
    c = '+' ∨ c = '-' ∨ c = '.'

def isAsciiAlpha (c : Char) : Bool :=
  ('a' ≤ c ∧ c ≤ 'z') ∨ ('A' ≤ c ∧ c ≤ 'Z')

/-- _UNSAFE_URL_BYTES_TO_REMOVE: tab, CR and LF are removed from the url
before parsing -/
def removeUnsafe (l : List Char) : List Char :=
  l.filter (fun c => ¬ (c = '\t' ∨ c = '\n' ∨ c = '\x0d'))

/-- strip trailing '/' characters, path.rstrip('/') -/
def rstripSlashL (l : List Char) : List Char :=
  (l.reverse.dropWhile (fun c => c = '/')).reverse

/-! ### UTF-8 (used by quote/unquote) -/

def utf8EncodeChar (c : Char) : List Nat :=
  let n := c.toNat
  if n < 0x80 then [n]
  else if n < 0x800 then [0xC0 + n / 64, 0x80 + n % 64]
  else if n < 0x10000 then [0xE0 + n / 4096, 0x80 + n / 64 % 64, 0x80 + n % 64]
  else [0xF0 + n / 262144, 0x80 + n / 4096 % 64, 0x80 + n / 64 % 64, 0x80 + n % 64]

def utf8Bytes (s : List Char) : List Nat := s.flatMap utf8EncodeChar

/-- U+FFFD replacement character -/
def replChar : Char := Char.ofNat 0xFFFD

/-- UTF-8 decoding with errors=replace, written as a byte-at-a-time
state machine: `utf8Go k acc lo hi l` expects `k` more continuation
bytes, the next of which must lie in `[lo, hi]` (this carries the
E0/ED/F0/F4 second-byte restrictions), with `acc` the code point
accumulated so far.  Valid sequences decode to their code points;
invalid bytes become U+FFFD.  On invalid sequences the
resynchronization point can differ from CPython (which re-examines the
offending byte; this decoder consumes it); every theorem below only
decodes valid sequences, where the two agree. -/
def utf8Go : Nat → Nat → Nat → Nat → List Nat → List Char
  | 0, _, _, _, [] => []
  | _ + 1, _, _, _, [] => [replChar]
  | 0, _, _, _, b :: rest =>
    if b < 0x80 then Char.ofNat b :: utf8Go 0 0 0 0 rest
    else if 0xC2 ≤ b ∧ b ≤ 0xDF then utf8Go 1 (b - 0xC0) 0x80 0xBF rest
    else if b = 0xE0 then utf8Go 2 0 0xA0 0xBF rest
    else if 0xE1 ≤ b ∧ b ≤ 0xEC then utf8Go 2 (b - 0xE0) 0x80 0xBF rest
    else if b = 0xED then utf8Go 2 13 0x80 0x9F rest
    else if 0xEE ≤ b ∧ b ≤ 0xEF then utf8Go 2 (b - 0xE0) 0x80 0xBF rest
    else if b = 0xF0 then utf8Go 3 0 0x90 0xBF rest
    else if 0xF1 ≤ b ∧ b ≤ 0xF3 then utf8Go 3 (b - 0xF0) 0x80 0xBF rest
    else if b = 0xF4 then utf8Go 3 4 0x80 0x8F rest
    else replChar :: utf8Go 0 0 0 0 rest
  | k + 1, acc, lo, hi, b :: rest =>
    if lo ≤ b ∧ b ≤ hi then
      match k with
      | 0 => Char.ofNat (acc * 64 + (b - 0x80)) :: utf8Go 0 0 0 0 rest
      | k' + 1 => utf8Go (k' + 1) (acc * 64 + (b - 0x80)) 0x80 0xBF rest
    else replChar :: utf8Go 0 0 0 0 rest

def utf8DecodeReplace (l : List Nat) : List Char := utf8Go 0 0 0 0 l

/-! ### quote / unquote -/

/-- always_safe bytes of urllib.parse: ASCII letters, digits, `_.-~` -/
def alwaysSafeByte (b : Nat) : Bool :=
  (0x41 ≤ b ∧ b ≤ 0x5A) ∨ (0x61 ≤ b ∧ b ≤ 0x7A) ∨ (0x30 ≤ b ∧ b ≤ 0x39) ∨
    b = 0x5F ∨ b = 0x2E ∨ b = 0x2D ∨ b = 0x7E

def hexDigitUpper (n : Nat) : Char :=
  if n < 10 then Char.ofNat (48 + n) else Char.ofNat (55 + n)

def pctEncodeByte (b : Nat) : List Char :=
  ['%', hexDigitUpper (b / 16), hexDigitUpper (b % 16)]

/-- urllib.parse.quote: percent-encode the UTF-8 bytes, keeping
always-safe bytes and ASCII bytes of `safe` literal -/
def pyQuote (s : List Char) (safe : List Char) : List Char :=
  (utf8Bytes s).flatMap (fun b =>
    if alwaysSafeByte b ∨ (b < 0x80 ∧ Char.ofNat b ∈ safe) then [Char.ofNat b]
    else pctEncodeByte b)

/-- urllib.parse.quote_plus with safe='': if the string has a space,
quote with space safe then turn spaces into plus -/
def quotePlus (s : List Char) : List Char :=
  if ' ' ∈ s then (pyQuote s [' ']).map (fun c => if c = ' ' then '+' else c)
  else pyQuote s []

inductive UnqTok where
  | chr (c : Char)
  | byte (b : Nat)
  deriving DecidableEq, Repr

/-- one literal character as a token: ASCII characters are bytes of
their code (they sit in the same ascii chunk that is UTF-8-decoded);
non-ASCII characters pass through -/
def tokChar (c : Char) : UnqTok :=
  if c.toNat < 0x80 then .byte c.toNat else .chr c

/-- tokenization step of urllib.parse.unquote: `%XX` with two hex digits
is a byte; other characters are literal.  After a malformed escape the
two examined characters are treated as literals (CPython would re-examine
a `%` among them; no theorem below unquotes malformed escapes). -/
def unquoteTokens : List Char → List UnqTok
  | [] => []
  | c :: rest =>
    if c = '%' then
      match rest with
      | h1 :: h2 :: tl =>
        match hexVal? h1, hexVal? h2 with
        | some a, some b => .byte (16 * a + b) :: unquoteTokens tl
        | _, _ => .byte 0x25 :: tokChar h1 :: tokChar h2 :: unquoteTokens tl
      | [h1] => [.byte 0x25, tokChar h1]
      | [] => [.byte 0x25]
    else tokChar c :: unquoteTokens rest

/-- collapse maximal byte runs with UTF-8 decoding -/
def collapseTokens (acc : List Nat) : List UnqTok → List Char
  | [] => utf8DecodeReplace acc.reverse
  | .byte b :: tl => collapseTokens (b :: acc) tl
  | .chr c :: tl => utf8DecodeReplace acc.reverse ++ c :: collapseTokens [] tl

def pyUnquote (s : List Char) : List Char := collapseTokens [] (unquoteTokens s)

/-- urllib.parse.unquote_plus: plus to space, then unquote -/
def unquotePlus (s : List Char) : List Char :=
  pyUnquote (s.map (fun c => if c = '+' then ' ' else c))

/-! ### urlsplit / urlparse / urlunparse -/

structure SplitResult where
  scheme : List Char
  netloc : List Char
  path : List Char
  query : List Char
  fragment : List Char
  deriving DecidableEq, Repr

structure ParseResult where
  scheme : List Char
  netloc : List Char
  path : List Char
  params : List Char
  query : List Char
  fragment : List Char
  deriving DecidableEq, Repr

def notNetlocDelim (c : Char) : Bool := ¬ (c = '/' ∨ c = '?' ∨ c = '#')

/-- urllib.parse.urlsplit (CPython 3.11); `.error` models the ValueError
raised for bracketed netlocs (see module comment) -/
def urlsplitE (url0 : List Char) : Except Unit SplitResult :=
  let url1 := removeUnsafe url0
  let sp : List Char × List Char :=
    match splitFirst ':' url1 with
    | some (before, after) =>
      if before ≠ [] ∧ isAsciiAlpha (before.headD ' ') ∧ before.all isSchemeChar then
        (before.map lowerAsciiChar, after)
      else ([], url1)
    | none => ([], url1)
  let scheme := sp.1
  let rest := sp.2
  let np : List Char × List Char :=
    if rest.take 2 = ['/', '/'] then
      ((rest.drop 2).takeWhile notNetlocDelim, (rest.drop 2).dropWhile notNetlocDelim)
    else ([], rest)
  let netloc := np.1
  let rest2 := np.2
  if netloc.contains '[' ∨ netloc.contains ']' then .error ()
  else
    let fp : List Char × List Char :=
      match splitFirst '#' rest2 with
      | some (a, b) => (a, b)
      | none => (rest2, [])
    let qp : List Char × List Char :=
      match splitFirst '?' fp.1 with
      | some (a, b) => (a, b)
      | none => (fp.1, [])
    .ok ⟨scheme, netloc, qp.1, qp.2, fp.2⟩

/-- _splitparams: split at the first ';' at or after the last '/' -/
def splitparams (url : List Char) : List Char × List Char :=
  match splitLast '/' url with
  | some (a, b) =>
    match splitFirst ';' b with
    | some (b1, b2) => (a ++ '/' :: b1, b2)
    | none => (url, [])
  | none =>
    match splitFirst ';' url with
    | some (u1, u2) => (u1, u2)
    | none => (url, [])

/-- uses_params of urllib.parse: the schemes whose urls carry ;-params -/
def uses_params_schemes : List (List Char) :=
  ["".data, "ftp".data, "hdl".data, "prospero".data, "http".data,
   "imap".data, "https".data, "shttp".data, "rtsp".data, "rtsps".data,
   "rtspu".data, "sip".data, "sips".data, "mms".data, "sftp".data,
   "tel".data]

/-- urllib.parse.urlparse -/
def urlparseE (url : List Char) : Except Unit ParseResult :=
  match urlsplitE url with
  | .error e => .error e
  | .ok r =>
    let pp : List Char × List Char :=
      if r.scheme ∈ uses_params_schemes ∧ r.path.contains ';' then
        splitparams r.path
      else (r.path, [])
    .ok ⟨r.scheme, r.netloc, pp.1, pp.2, r.query, r.fragment⟩

/-- urllib.parse.urlunsplit -/
def urlunsplit (scheme netloc url query fragment : List Char) : List Char :=
  let url1 :=
    if netloc ≠ [] ∨ url.take 2 = ['/', '/'] then
      '/' :: '/' :: (netloc ++
        (if url ≠ [] ∧ url.headD ' ' ≠ '/' then '/' :: url else url))
    else url
  let url2 := if scheme ≠ [] then scheme ++ ':' :: url1 else url1
  let url3 := if query ≠ [] then url2 ++ '?' :: query else url2
  if fragment ≠ [] then url3 ++ '#' :: fragment else url3

/-- urllib.parse.urlunparse -/
def urlunparse (scheme netloc path params query fragment : List Char) : List Char :=
  urlunsplit scheme netloc
    (if params ≠ [] then path ++ ';' :: params else path) query fragment

/-! ### parse_qs / urlencode -/

/-- urllib.parse.parse_qsl with the default keep_blank_values=False:
empty fields, fields without '=', and fields with an empty value are
skipped -/
def parse_qsl (qs : List Char) : List (List Char × List Char) :=
  (splitAll '&' qs).filterMap (fun nv =>
    if nv = [] then none
    else
      match splitFirst '=' nv with
      | none => none
      | some (n, v) =>
        if v = [] then none else some (unquotePlus n, unquotePlus v))

/-- dict accumulation of parse_qs: values grouped per key, keys in
first-occurrence order -/
def qsInsert (k v : List Char) :
    List (List Char × List (List Char)) → List (List Char × List (List Char))
  | [] => [(k, [v])]
  | (k0, vs) :: tl =>
    if k0 = k then (k0, vs ++ [v]) :: tl else (k0, vs) :: qsInsert k v tl

def parse_qs (qs : List Char) : List (List Char × List (List Char)) :=
  (parse_qsl qs).foldl (fun acc p => qsInsert p.1 p.2 acc) []

def joinChar (sep : Char) : List (List Char) → List Char
  | [] => []
  | [x] => x
  | x :: y :: tl => x ++ sep :: joinChar sep (y :: tl)

/-- urllib.parse.urlencode with doseq=True on a parse_qs dict -/
def urlencode (d : List (List Char × List (List Char))) : List Char :=
  joinChar '&' (d.flatMap (fun p => p.2.map (fun v => quotePlus p.1 ++ '=' :: quotePlus v)))

/-! ### normalize_url itself -/

/-- Embedding of `normalize_url` (src/bot.py 451-511) on character
lists.  The `except` handler catches exactly the ValueError that
urlparse may raise (parse_qs/urlencode/urlunparse do not raise on str
input), and both it and the unknown-host fall-through return
`url.rstrip()` of the already-stripped input. -/
def normalize_url_list (u : List Char) : List Char :=
  if u = [] then u
  else
    let url := pyStripL u
    match urlparseE url with
    | .error _ => pyRStripL url
    | .ok p =>
      if containsSub "instagram.com".data p.netloc ∨
          containsSub "facebook.com".data p.netloc then
        let query := parse_qs p.query
        let filtered :=
          match query.find? (fun kv => kv.1 = "img_index".data) with
          | some kv => [("img_index".data, kv.2)]
          | none => []
        urlunparse p.scheme p.netloc (rstripSlashL p.path) p.params
          (urlencode filtered) []
      else if containsSub "tiktok.com".data p.netloc then
        urlunparse p.scheme p.netloc (rstripSlashL p.path) p.params [] []
      else if containsSub "youtube.com".data p.netloc ∨
          containsSub "youtu.be".data p.netloc then
        let query := parse_qs p.query
        let filtered := query.filter
          (fun kv => kv.1 = "v".data ∨ kv.1 = "t".data)
        urlunparse p.scheme p.netloc (rstripSlashL p.path) p.params
          (urlencode filtered) []
      else if containsSub "soundcloud.com".data p.netloc then
        urlunparse p.scheme p.netloc (rstripSlashL p.path) p.params [] []
      else pyRStripL url

def normalize_url (s : String) : String := ⟨normalize_url_list s.data⟩

/-- Character class for the amended C1/C2 statements: printable ASCII
other than `;`, `[` and `]`.  Inputs made of such characters contain no
whitespace (so the strips are no-ops), no `;` (so no params split), and
no bracketed netloc (the modelled ValueError corner). -/
def cleanUrlChar (c : Char) : Bool :=
  0x20 < c.toNat ∧ c.toNat ≤ 0x7E ∧ c ≠ ';' ∧ c ≠ '[' ∧ c ≠ ']'

/-- path characters for the amended C1 statement: clean and not a
query/fragment delimiter -/
def cleanPathChar (c : Char) : Bool :=
  cleanUrlChar c ∧ c ≠ '?' ∧ c ≠ '#'

/-- query characters for the amended C1 statement: clean and not a
fragment delimiter -/
def cleanQueryChar (c : Char) : Bool :=
  cleanUrlChar c ∧ c ≠ '#'

/-- keys that survive the whitelists ("img_index", "v", "t") consist of
always-safe bytes, so quote/unquote leave them unchanged -/
def plainKey (k : List Char) : Bool :=
  k ≠ [] ∧ k.all (fun c => alwaysSafeByte c.toNat)

/-! ## In-flight registry: download_and_cache_inline (src/bot.py 1241-1280,
1739-1745)

The single-flight protocol of `download_and_cache_inline` over the
module-level dict `active_downloads` is modelled as a transition system
over the asyncio cooperative-scheduling model: each transition is one
await-free critical section of the code.

* `join`: the `if normalized_url in active_downloads:` branch (line 1256)
  reads the registered future and awaits it.
* `claim`: the fall-through (lines 1268-1269) creates a fresh future and
  installs it; there is no await between the membership check and the
  assignment, so check-and-install is a single transition.
* `resolve`: the leader completes its future, covering
  `future.set_result(...)` on the success and error paths and
  `future.cancel()` on the cancellation path.
* `finallyPop`: the `finally:` block (lines 1739-1744) pops the key when
  the leader's future is done; in every path reaching `finally` the
  future has been completed first, so the transition fires from the
  resolved phase.
* `followerFinish`: a follower stops awaiting (result, error, or the
  8-second inline timeout) without touching the registry.

Futures are identified by creation order (`created` is the counter);
`done` is the set of completed future ids.  The dict is modelled as an
association list, so that "at most one entry per key" is a real invariant
of the protocol rather than a datatype triviality. -/

inductive TaskPhase where
  | leaderWorking
  | leaderResolved
  | follower
  | exited
  deriving DecidableEq, Repr

def TaskPhase.isActiveLeader : TaskPhase → Bool
  | .leaderWorking => true
  | .leaderResolved => true
  | _ => false

structure FlightTask where
  key : String
  fid : Nat
  phase : TaskPhase
  deriving DecidableEq, Repr

structure FlightState where
  reg : List (String × Nat)
  done : List Nat
  created : Nat
  tasks : List FlightTask
  deriving DecidableEq, Repr

/-- dict lookup `active_downloads[k]` -/
def regFind (s : FlightState) (k : String) : Option (String × Nat) :=
  s.reg.find? (fun q => q.1 = k)

inductive FlightStep : FlightState → FlightState → Prop where
  | join (s : FlightState) (k : String) (fid : Nat)
      (hfound : regFind s k = some (k, fid)) :
      FlightStep s { s with tasks := (⟨k, fid, .follower⟩ :: s.tasks) }
  | claim (s : FlightState) (k : String)
      (habsent : regFind s k = none) :
      FlightStep s
        { reg := ((k, s.created) :: s.reg)
          done := s.done
          created := s.created + 1
          tasks := (⟨k, s.created, .leaderWorking⟩ :: s.tasks) }
  | resolve (s : FlightState) (k : String) (fid : Nat)
      (pre post : List FlightTask)
      (htasks : s.tasks = pre ++ ⟨k, fid, .leaderWorking⟩ :: post) :
      FlightStep s
        { s with
          done := (fid :: s.done)
          tasks := (pre ++ ⟨k, fid, .leaderResolved⟩ :: post) }
  | finallyPop (s : FlightState) (k : String) (fid : Nat)
      (pre post : List FlightTask)
      (htasks : s.tasks = pre ++ ⟨k, fid, .leaderResolved⟩ :: post) :
      FlightStep s
        { s with
          reg := s.reg.eraseP (fun q => q.1 = k)
          tasks := (pre ++ ⟨k, fid, .exited⟩ :: post) }
  | followerFinish (s : FlightState) (k : String) (fid : Nat)
      (pre post : List FlightTask)
      (htasks : s.tasks = pre ++ ⟨k, fid, .follower⟩ :: post) :
      FlightStep s { s with tasks := (pre ++ ⟨k, fid, .exited⟩ :: post) }

def FlightState.start : FlightState := ⟨[], [], 0, []⟩

inductive FlightReachable : FlightState → Prop where
  | start : FlightReachable .start
  | step {s s' : FlightState} :
      FlightReachable s → FlightStep s s' → FlightReachable s'

/-- inductive invariant of the protocol: registry keys are distinct,
registered future ids were allocated, every active leader's key maps to
its own future, resolved leaders' futures are done, and each key has at
most one active leader -/
def FlightInv (s : FlightState) : Prop :=
  (s.reg.map Prod.fst).Nodup ∧
  (∀ p ∈ s.reg, p.2 < s.created) ∧
  (∀ t ∈ s.tasks, t.phase.isActiveLeader = true →
      regFind s t.key = some (t.key, t.fid)) ∧
  (∀ t ∈ s.tasks, t.phase = .leaderResolved → t.fid ∈ s.done) ∧
  (∀ k, s.tasks.countP
      (fun t => decide (t.key = k) && t.phase.isActiveLeader) ≤ 1)

/-! # Theorems -/

/-! ## JSON round-trip lemmas -/

theorem hexVal_hexDigitLower (d : Nat) (hd : d < 16) :
    hexVal? (hexDigitLower d) = some d := by
  interval_cases d <;> decide

theorem readU4_u4hex (n : Nat) (hn : n < 65536) (rest : List Char) :
    readU4 (u4hex n ++ rest) = some (n, rest) := by
  have h1 : n / 4096 % 16 < 16 := Nat.mod_lt _ (by norm_num)
  have h2 : n / 256 % 16 < 16 := Nat.mod_lt _ (by norm_num)
  have h3 : n / 16 % 16 < 16 := Nat.mod_lt _ (by norm_num)
  have h4 : n % 16 < 16 := Nat.mod_lt _ (by norm_num)
  simp only [u4hex, List.cons_append, List.nil_append, readU4,
    hexVal_hexDigitLower _ h1, hexVal_hexDigitLower _ h2,
    hexVal_hexDigitLower _ h3, hexVal_hexDigitLower _ h4]
  congr 1
  congr 1
  omega

theorem parseJsonStr_u (f : Nat) (n : Nat) (hn : n < 65536)
    (hns : ¬ (0xD800 ≤ n ∧ n ≤ 0xDBFF)) (hns2 : ¬ (0xDC00 ≤ n ∧ n ≤ 0xDFFF))
    (l : List Char) :
    parseJsonStr (f + 1) ('\\' :: 'u' :: (u4hex n ++ l)) =
      (parseJsonStr f l).map (fun p => (Char.ofNat n :: p.1, p.2)) := by
  simp only [parseJsonStr, readU4_u4hex n hn, if_neg hns, if_neg hns2]
  simp

theorem parseJsonStr_surrogatePair (f : Nat) (hi lo : Nat)
    (hhi : hi < 65536) (hlo : lo < 65536)
    (hhis : 0xD800 ≤ hi ∧ hi ≤ 0xDBFF) (hlos : 0xDC00 ≤ lo ∧ lo ≤ 0xDFFF)
    (l : List Char) :
    parseJsonStr (f + 1) ('\\' :: 'u' :: (u4hex hi ++ ('\\' :: 'u' :: (u4hex lo ++ l)))) =
      (parseJsonStr f l).map (fun p =>
        (Char.ofNat (0x10000 + (hi - 0xD800) * 1024 + (lo - 0xDC00)) :: p.1, p.2)) := by
  simp only [parseJsonStr, readU4_u4hex hi hhi, if_pos hhis, List.cons_append,
    readU4_u4hex lo hlo, if_pos hlos]
  simp

theorem parseJsonStr_roundtrip (s : List Char) :
    ∀ (f : Nat) (rest : List Char), s.length < f →
    parseJsonStr f (s.flatMap jsonEscapeChar ++ '"' :: rest) = some (s, rest) := by
  induction s with
  | nil =>
    intro f rest hf
    match f, hf with
    | f + 1, _ => simp [parseJsonStr]
  | cons c s ih =>
    intro f rest hf
    match f, hf with
    | f + 1, hf =>
      have hfs : s.length < f := by simpa using hf
      have hrec := ih f rest hfs
      have hvalid := c.valid
      have hcv : c.toNat = c.val.toNat := rfl
      rw [List.flatMap_cons, List.append_assoc]
      by_cases hq : c = '"'
      · subst hq
        simp only [jsonEscapeChar, if_pos rfl, List.cons_append, List.nil_append]
        simp [parseJsonStr, hrec]
      · by_cases hb : c = '\\'
        · subst hb
          simp only [jsonEscapeChar]
          norm_num
          simp [parseJsonStr, hrec]
        · have h8 : ¬ ((8 : Nat) = ('"' : Char).toNat) := by decide
          by_cases hc8 : c.toNat = 8
          · have hc : c = Char.ofNat 8 := by
              rw [← Char.ofNat_toNat c, hc8]
            subst hc
            simp only [jsonEscapeChar]
            norm_num
            simp [parseJsonStr, hrec]
          · by_cases hc9 : c.toNat = 9
            · have hc : c = Char.ofNat 9 := by rw [← Char.ofNat_toNat c, hc9]
              subst hc
              simp only [jsonEscapeChar]
              norm_num
              simp [parseJsonStr, hrec]
            · by_cases hc10 : c.toNat = 10
              · have hc : c = Char.ofNat 10 := by rw [← Char.ofNat_toNat c, hc10]
                subst hc
                simp only [jsonEscapeChar]
                norm_num
                simp [parseJsonStr, hrec]
              · by_cases hc12 : c.toNat = 12
                · have hc : c = Char.ofNat 12 := by rw [← Char.ofNat_toNat c, hc12]
                  subst hc
                  simp only [jsonEscapeChar]
                  norm_num
                  simp [parseJsonStr, hrec]
                · by_cases hc13 : c.toNat = 13
                  · have hc : c = Char.ofNat 13 := by rw [← Char.ofNat_toNat c, hc13]
                    subst hc
                    simp only [jsonEscapeChar]
                    norm_num
                    simp [parseJsonStr, hrec]
                  · by_cases hprint : 0x20 ≤ c.toNat ∧ c.toNat ≤ 0x7E
                    · simp only [jsonEscapeChar, if_neg hq, if_neg hb, if_neg hc8,
                        if_neg hc9, if_neg hc10, if_neg hc12, if_neg hc13, if_pos hprint]
                      have hctl : ¬ (c.toNat < 0x20) := by omega
                      simp [parseJsonStr, hq, hb, hctl, hrec]
                    · by_cases hbmp : c.toNat < 0x10000
                      · simp only [jsonEscapeChar, if_neg hq, if_neg hb, if_neg hc8,
                          if_neg hc9, if_neg hc10, if_neg hc12, if_neg hc13,
                          if_neg hprint, if_pos hbmp]
                        have hns : ¬ (0xD800 ≤ c.toNat ∧ c.toNat ≤ 0xDBFF) := by
                          rcases hvalid with h | ⟨h1, h2⟩ <;> omega
                        have hns2 : ¬ (0xDC00 ≤ c.toNat ∧ c.toNat ≤ 0xDFFF) := by
                          rcases hvalid with h | ⟨h1, h2⟩ <;> omega
                        rw [List.cons_append, List.cons_append,
                          parseJsonStr_u f c.toNat hbmp hns hns2, hrec]
                        simp [Char.ofNat_toNat]
                      · simp only [jsonEscapeChar, if_neg hq, if_neg hb, if_neg hc8,
                          if_neg hc9, if_neg hc10, if_neg hc12, if_neg hc13,
                          if_neg hprint, if_neg hbmp]
                        have hmax : c.toNat < 0x110000 := by
                          rcases hvalid with h | ⟨h1, h2⟩ <;> omega
                        have hdivlt : (c.toNat - 0x10000) / 1024 < 1024 := by omega
                        have hmodlt : (c.toNat - 0x10000) % 1024 < 1024 :=
                          Nat.mod_lt _ (by norm_num)
                        have hhi : 0xD800 + (c.toNat - 0x10000) / 1024 < 65536 := by omega
                        have hlo : 0xDC00 + (c.toNat - 0x10000) % 1024 < 65536 := by omega
                        have hhis : 0xD800 ≤ 0xD800 + (c.toNat - 0x10000) / 1024 ∧
                            0xD800 + (c.toNat - 0x10000) / 1024 ≤ 0xDBFF := by omega
                        have hlos : 0xDC00 ≤ 0xDC00 + (c.toNat - 0x10000) % 1024 ∧
                            0xDC00 + (c.toNat - 0x10000) % 1024 ≤ 0xDFFF := by omega
                        have harith : 0x10000 + (0xD800 + (c.toNat - 0x10000) / 1024 - 0xD800) * 1024 +
                            (0xDC00 + (c.toNat - 0x10000) % 1024 - 0xDC00) = c.toNat := by
                          omega
                        rw [List.append_assoc, List.cons_append, List.cons_append,
                          List.cons_append, List.cons_append,
                          parseJsonStr_surrogatePair f _ _ hhi hlo hhis hlos, hrec]
                        simp only [Option.map, harith]
                        rw [Char.ofNat_toNat]


theorem skipJsonWs_cons_space (w : List Char) :
    skipJsonWs (' ' :: w) = skipJsonWs w := by
  simp [skipJsonWs, List.dropWhile, isJsonWs]

theorem parseJsonArrItems_cons_space (f : Nat) (w : List Char) :
    parseJsonArrItems f (' ' :: w) = parseJsonArrItems f w := by
  match f with
  | 0 => rfl
  | f + 1 =>
    simp only [parseJsonArrItems]
    rw [skipJsonWs_cons_space]

theorem jsonEscapeChar_length_pos (c : Char) : 1 ≤ (jsonEscapeChar c).length := by
  unfold jsonEscapeChar
  repeat' split
  all_goals simp [u4hex]

theorem flatMap_escape_length (s : List Char) :
    s.length ≤ (s.flatMap jsonEscapeChar).length := by
  induction s with
  | nil => simp
  | cons c s ih =>
    rw [List.flatMap_cons, List.length_append, List.length_cons]
    have := jsonEscapeChar_length_pos c
    omega

theorem skipJsonWs_cons_neg (c : Char) (w : List Char) (h : isJsonWs c = false) :
    skipJsonWs (c :: w) = c :: w := by
  simp [skipJsonWs, List.dropWhile, h]

theorem parseJsonArrItems_close (f : Nat) (w : List Char) :
    parseJsonArrItems (f + 1) (']' :: w) = some ([], w) := by
  simp only [parseJsonArrItems]
  rw [skipJsonWs_cons_neg _ _ (by decide)]
  rfl

theorem parseJsonArrItems_str_close (f : Nat) (w s r r2 : List Char)
    (h : parseJsonStr (f + 1) w = some (s, r)) (h2 : skipJsonWs r = ']' :: r2) :
    parseJsonArrItems (f + 1) ('"' :: w) = some ([.str s], r2) := by
  simp only [parseJsonArrItems]
  rw [skipJsonWs_cons_neg _ _ (by decide)]
  show (match parseJsonStr (f + 1) w with
      | none => none
      | some (s, r1) =>
        match skipJsonWs r1 with
        | ',' :: r2 => Option.map (fun p => (PyJson.str s :: p.1, p.2)) (parseJsonArrItems f r2)
        | ']' :: r2 => some ([PyJson.str s], r2)
        | _ => none) = some ([PyJson.str s], r2)
  rw [h]
  show (match skipJsonWs r with
      | ',' :: r2 => Option.map (fun p => (PyJson.str s :: p.1, p.2)) (parseJsonArrItems f r2)
      | ']' :: r2 => some ([PyJson.str s], r2)
      | _ => none) = some ([PyJson.str s], r2)
  rw [h2]
  rfl

theorem parseJsonArrItems_str_comma (f : Nat) (w s r r2 : List Char)
    (h : parseJsonStr (f + 1) w = some (s, r)) (h2 : skipJsonWs r = ',' :: r2) :
    parseJsonArrItems (f + 1) ('"' :: w) =
      (parseJsonArrItems f r2).map (fun p => (.str s :: p.1, p.2)) := by
  simp only [parseJsonArrItems]
  rw [skipJsonWs_cons_neg _ _ (by decide)]
  show (match parseJsonStr (f + 1) w with
      | none => none
      | some (s, r1) =>
        match skipJsonWs r1 with
        | ',' :: r2 => Option.map (fun p => (PyJson.str s :: p.1, p.2)) (parseJsonArrItems f r2)
        | ']' :: r2 => some ([PyJson.str s], r2)
        | _ => none) = (parseJsonArrItems f r2).map (fun p => (PyJson.str s :: p.1, p.2))
  rw [h]
  show (match skipJsonWs r with
      | ',' :: r2 => Option.map (fun p => (PyJson.str s :: p.1, p.2)) (parseJsonArrItems f r2)
      | ']' :: r2 => some ([PyJson.str s], r2)
      | _ => none) = (parseJsonArrItems f r2).map (fun p => (PyJson.str s :: p.1, p.2))
  rw [h2]
  rfl

theorem parseJsonArrItems_roundtrip (ids : List (List Char)) :
    ∀ (f : Nat) (rest : List Char),
      (ids.map List.length).sum + ids.length < f →
      parseJsonArrItems f (jsonJoinItems (ids.map jsonDumpStr) ++ ']' :: rest) =
        some (ids.map .str, rest) := by
  induction ids with
  | nil =>
    intro f rest hf
    match f, hf with
    | f + 1, _ =>
      simp only [List.map_nil, jsonJoinItems, List.nil_append]
      exact parseJsonArrItems_close f rest
  | cons x tl ih =>
    intro f rest hf
    match f, hf with
    | f + 1, hf =>
      have hx : x.length < f + 1 := by
        simp only [List.map_cons, List.sum_cons, List.length_cons] at hf
        omega
      match tl with
      | [] =>
        simp only [List.map_cons, List.map_nil, jsonJoinItems, jsonDumpStr,
          List.append_assoc, List.cons_append, List.singleton_append, List.nil_append]
        rw [parseJsonArrItems_str_close f _ x (']' :: rest) rest
          (parseJsonStr_roundtrip x (f + 1) (']' :: rest) hx)
          (skipJsonWs_cons_neg _ _ (by decide))]
      | y :: tl' =>
        have hrest : ((y :: tl').map List.length).sum + (y :: tl').length < f := by
          simp only [List.map_cons, List.sum_cons, List.length_cons] at hf ⊢
          omega
        simp only [List.map_cons, jsonJoinItems, jsonDumpStr, List.append_assoc,
          List.cons_append, List.singleton_append, List.nil_append] at ih ⊢
        rw [parseJsonArrItems_str_comma f _ x _ _
          (parseJsonStr_roundtrip x (f + 1) _ hx)
          (skipJsonWs_cons_neg _ _ (by decide))]
        rw [parseJsonArrItems_cons_space, ih f rest hrest]
        simp

theorem jsonJoinItems_dump_length (ids : List (List Char)) :
    (ids.map List.length).sum + ids.length ≤
      (jsonJoinItems (ids.map jsonDumpStr)).length := by
  induction ids with
  | nil => simp [jsonJoinItems]
  | cons x tl ih =>
    have hx : x.length ≤ (x.flatMap jsonEscapeChar).length := flatMap_escape_length x
    match tl with
    | [] =>
      simp only [List.map_cons, List.map_nil, jsonJoinItems, jsonDumpStr,
        List.sum_cons, List.sum_nil, List.length_cons, List.length_nil,
        List.length_append, List.length_singleton]
      omega
    | y :: tl' =>
      simp only [List.map_cons, jsonJoinItems, jsonDumpStr] at ih ⊢
      simp only [List.sum_cons, List.length_cons, List.length_append,
        List.length_singleton] at ih ⊢
      omega

theorem jsonLoads_dumpStrList (ids : List (List Char)) :
    jsonLoads (jsonDumpStrList ids) = some (.arr (ids.map .str)) := by
  have hlen : (ids.map List.length).sum + ids.length <
      (jsonJoinItems (ids.map jsonDumpStr) ++ [']']).length + 1 := by
    have := jsonJoinItems_dump_length ids
    simp only [List.length_append, List.length_singleton]
    omega
  have harr := parseJsonArrItems_roundtrip ids
    ((jsonJoinItems (ids.map jsonDumpStr) ++ [']']).length + 1) [] hlen
  show (match (parseJsonArrItems ((jsonJoinItems (ids.map jsonDumpStr) ++ [']']).length + 1)
      (jsonJoinItems (ids.map jsonDumpStr) ++ [']'])).map (fun p => (PyJson.arr p.1, p.2)) with
    | some (v, rest) => if skipJsonWs rest = [] then some v else none
    | none => none) = some (.arr (ids.map .str))
  rw [harr]
  rfl

/-! ## Database upsert lemmas -/

theorem find_update_by_id (url : String) (g : CacheRow → CacheRow)
    (hg : ∀ r, (g r).url = r.url) :
    ∀ (rows : List CacheRow) (r0 : CacheRow),
      rows.find? (fun r => r.url = url) = some r0 →
      (rows.map (fun x => if x.id = r0.id then g x else x)).find?
          (fun r => r.url = url) = some (g r0) := by
  intro rows
  induction rows with
  | nil => intro r0 h; simp at h
  | cons h tl ih =>
    intro r0 hfind
    by_cases hp : h.url = url
    · rw [List.find?_cons_of_pos _ (by simpa using hp)] at hfind
      obtain rfl : h = r0 := by simpa using hfind
      simp only [List.map_cons, if_pos rfl]
      exact List.find?_cons_of_pos _ (by simpa [hg] using hp)
    · rw [List.find?_cons_of_neg _ (by simpa using hp)] at hfind
      simp only [List.map_cons]
      have hurl : (if h.id = r0.id then g h else h).url = h.url := by
        split <;> simp [hg]
      rw [List.find?_cons_of_neg _ (by simpa [hurl] using hp)]
      exact ih r0 hfind

theorem save_file_to_cache_find (db : FileCacheDB) (url : String)
    (ids : List String) (kind : String) (uid : Int) :
    ∃ row, (save_file_to_cache db url ids kind uid).1.rows.find?
        (fun r => r.url = url) = some row ∧
      row.url = url ∧
      row.id = (save_file_to_cache db url ids kind uid).2 ∧
      row.file_id = (⟨jsonDumpStrList (ids.map String.data)⟩ : String) ∧
      row.media_type = (if 1 < ids.length then "carousel" else kind) := by
  unfold save_file_to_cache
  cases hfind : db.rows.find? (fun r => r.url = url) with
  | none =>
    refine ⟨⟨db.next_id, url, ⟨jsonDumpStrList (ids.map String.data)⟩,
      (if 1 < ids.length then "carousel" else kind), uid⟩, ?_, rfl, rfl, rfl, rfl⟩
    simp only [hfind]
    rw [List.find?_append, hfind]
    simp [List.find?]
  | some r0 =>
    refine ⟨({ r0 with
        file_id := (⟨jsonDumpStrList (ids.map String.data)⟩ : String),
        media_type := (if 1 < ids.length then "carousel" else kind),
        uploader_id := uid } : CacheRow), ?_, ?_, ?_, rfl, rfl⟩
    · simp only [hfind]
      exact find_update_by_id url
        (fun r => { r with
          file_id := (⟨jsonDumpStrList (ids.map String.data)⟩ : String),
          media_type := (if 1 < ids.length then "carousel" else kind),
          uploader_id := uid })
        (fun r => rfl) db.rows r0 hfind
    · have := List.find?_some hfind
      simpa using this
    · simp [hfind]

/-- C4. Cache write/read round trip: `save_file_to_cache` upserts by url
and returns the id of the row now holding the url, and a subsequent
`get_cached_file` on the same url returns exactly the saved id list
together with the kind, coerced to "carousel" when more than one id was
saved. -/
theorem C4_cache_roundtrip (db : FileCacheDB) (url : String)
    (ids : List String) (kind : String) (uid : Int) (hne : ids ≠ []) :
    get_cached_file (save_file_to_cache db url ids kind uid).1 url =
      some (ids.map (fun s => PyJson.str s.data),
            if 1 < ids.length then "carousel" else kind) ∧
    ∃ row, (save_file_to_cache db url ids kind uid).1.rows.find?
        (fun r => r.url = url) = some row ∧
      row.url = url ∧ row.id = (save_file_to_cache db url ids kind uid).2 := by
  obtain ⟨row, hfind, hurl, hid, hfile, hmedia⟩ :=
    save_file_to_cache_find db url ids kind uid
  refine ⟨?_, row, hfind, hurl, hid⟩
  unfold get_cached_file
  rw [hfind]
  show (match jsonLoads row.file_id.data with
    | some (.arr vs) => some (vs, row.media_type)
    | some v => some ([v], row.media_type)
    | none => some ([.str row.file_id.data], row.media_type)) = _
  rw [hfile]
  show (match jsonLoads (jsonDumpStrList (ids.map String.data)) with
    | some (.arr vs) => some (vs, row.media_type)
    | some v => some ([v], row.media_type)
    | none => some ([.str (jsonDumpStrList (ids.map String.data))], row.media_type)) = _
  rw [jsonLoads_dumpStrList (ids.map String.data)]
  rw [hmedia, List.map_map]
  rfl

/-- C4 witness: the round-trip theorem applied to a two-id carousel save
into the empty database. -/
theorem C4_cache_roundtrip_witness :
    get_cached_file (save_file_to_cache ⟨[], 0⟩ "https://x/p/A" ["id1", "id2"] "video" 7).1
        "https://x/p/A" =
      some ((["id1", "id2"] : List String).map (fun s => PyJson.str s.data),
        if 1 < (["id1", "id2"] : List String).length then "carousel" else "video") :=
  (C4_cache_roundtrip ⟨[], 0⟩ "https://x/p/A" ["id1", "id2"] "video" 7 (by decide)).1

/-- C10. The persistence layer accepts an empty id list:
`save_file_to_cache(url, [], kind, uid)` stores the JSON text "[]" in the
row's file_id column without coercing the kind, and a subsequent
`get_cached_file(url)` returns the empty list with the uncoerced kind. -/
theorem C10_empty_id_list (db : FileCacheDB) (url : String)
    (kind : String) (uid : Int) :
    (∃ row, (save_file_to_cache db url [] kind uid).1.rows.find?
        (fun r => r.url = url) = some row ∧
      row.file_id = "[]" ∧ row.media_type = kind) ∧
    get_cached_file (save_file_to_cache db url [] kind uid).1 url =
      some ([], kind) := by
  obtain ⟨row, hfind, hurl, hid, hfile, hmedia⟩ :=
    save_file_to_cache_find db url [] kind uid
  have hmedia' : row.media_type = kind := by simpa using hmedia
  constructor
  · exact ⟨row, hfind, by rw [hfile]; rfl, hmedia'⟩
  · unfold get_cached_file
    rw [hfind]
    show (match jsonLoads row.file_id.data with
      | some (.arr vs) => some (vs, row.media_type)
      | some v => some ([v], row.media_type)
      | none => some ([.str row.file_id.data], row.media_type)) = _
    rw [hfile]
    show (match jsonLoads (jsonDumpStrList (([] : List String).map String.data)) with
      | some (.arr vs) => some (vs, row.media_type)
      | some v => some ([v], row.media_type)
      | none => some ([.str (jsonDumpStrList (([] : List String).map String.data))],
          row.media_type)) = _
    rw [jsonLoads_dumpStrList]
    rw [hmedia']
    rfl

/-! ## C5: soundness of needs_telegram_optimization -/

/-- C5. Soundness of `needs_telegram_optimization`: whenever it returns
`false`, the file size is at most 48 MB and the probed video stream (when
one is present) has an H.264 codec and, if portrait, display-aspect-ratio
metadata; and whenever the probe fails, it returns `true`. -/
theorem C5_needs_optimization_sound (fs : Option Nat) (pr : Option FfprobeData) :
    ((needs_telegram_optimization fs pr).1 = false →
      (∃ n, fs = some n ∧ n ≤ 48 * 1024 * 1024) ∧
      (∃ d, pr = some d ∧ ∀ st, d.streams.head? = some st →
        (pyLower (st.codec_name.getD "") = "h264" ∨
         pyLower (st.codec_name.getD "") = "libx264") ∧
        (st.width.getD 0 < st.height.getD 0 →
          ¬ (st.dar.getD "" = "" ∨ st.dar.getD "" = "N/A")))) ∧
    (pr = none → (needs_telegram_optimization fs pr).1 = true) := by
  constructor
  · intro hfalse
    match fs with
    | none => simp [needs_telegram_optimization] at hfalse
    | some sz =>
      by_cases hsz : 48 * 1024 * 1024 < sz
      · simp [needs_telegram_optimization, hsz] at hfalse
      · match pr with
        | none => simp [needs_telegram_optimization, hsz] at hfalse
        | some data =>
          refine ⟨⟨sz, rfl, by omega⟩, data, rfl, ?_⟩
          intro st hst
          simp only [needs_telegram_optimization, hsz, if_false, hst] at hfalse
          by_cases hcodec : (pyLower (st.codec_name.getD "") = "h264" ∨
              pyLower (st.codec_name.getD "") = "libx264")
          · refine ⟨hcodec, ?_⟩
            intro hportrait hdar
            simp [hcodec, hportrait, hdar] at hfalse
          · simp [hcodec] at hfalse
  · intro hnone
    subst hnone
    match fs with
    | none => rfl
    | some sz =>
      by_cases hsz : 48 * 1024 * 1024 < sz <;>
        simp [needs_telegram_optimization, hsz]

/-- C5 witness: the theorem applied at a concrete probe result (an
in-bounds H.264 landscape file), with both hypotheses discharged. -/
theorem C5_needs_optimization_sound_witness :
    (∃ n, (some 1000000 : Option Nat) = some n ∧ n ≤ 48 * 1024 * 1024) ∧
    (∃ d, (some ⟨[⟨some "h264", some 1920, some 1080, some "16:9"⟩]⟩ : Option FfprobeData) = some d ∧
      ∀ st, d.streams.head? = some st →
        (pyLower (st.codec_name.getD "") = "h264" ∨
         pyLower (st.codec_name.getD "") = "libx264") ∧
        (st.width.getD 0 < st.height.getD 0 →
          ¬ (st.dar.getD "" = "" ∨ st.dar.getD "" = "N/A"))) :=
  (C5_needs_optimization_sound (some 1000000)
    (some ⟨[⟨some "h264", some 1920, some 1080, some "16:9"⟩]⟩)).1 (by decide)

/-! ## C6: generate_thumbnail oversize handling -/

/-- C6 counterexample: a 256 KB first thumbnail re-encoded to a still
oversized 225 KB file is NOT rejected; the original 256 KB thumbnail is
returned, contradicting the claim that no thumbnail is returned when the
re-encoded result still exceeds 200 KB. -/
theorem C6_thumbnail_counterexample :
    generate_thumbnail (.created 262144) (.created 230400) = some 262144 ∧
    200 * 1024 < 262144 := by
  constructor
  · rfl
  · decide

/-- C6 amended: the first ffmpeg call uses quality 2 and a 320x320
downscale and the re-compression uses quality 5; if the first thumbnail
exceeds 200 KB and the re-encoded file is strictly smaller than 200 KB it
replaces the original, otherwise the re-encoded file is discarded and the
original oversized thumbnail is returned anyway (it is not rejected); only
an ffmpeg failure, a missing output file, or an exception during
re-compression yields no thumbnail. -/
theorem C6_thumbnail_amended (v t off tmp : String) (sz tsz : Nat)
    (hbig : 200 * 1024 < sz) :
    (["-q:v", "2"] <:+: thumb_cmd v t off ∧
     ["-vf", "scale=320:320:force_original_aspect_ratio=decrease"] <:+: thumb_cmd v t off ∧
     ["-q:v", "5"] <:+: thumb_recompress_cmd t tmp) ∧
    generate_thumbnail (.created sz) (.created tsz) =
      (if tsz < 200 * 1024 then some tsz else some sz) ∧
    generate_thumbnail (.created sz) .noFile = some sz ∧
    generate_thumbnail (.created sz) .raised = none ∧
    (∀ r2, generate_thumbnail .raised r2 = none ∧
           generate_thumbnail .noFile r2 = none) ∧
    (∀ sz' r2, sz' ≤ 200 * 1024 → generate_thumbnail (.created sz') r2 = some sz') := by
  refine ⟨⟨⟨["nice", "-n", "15", "ffmpeg", "-y", "-ss", off, "-i", v, "-vf",
      "scale=320:320:force_original_aspect_ratio=decrease", "-frames:v", "1"], [t], rfl⟩,
      ⟨["nice", "-n", "15", "ffmpeg", "-y", "-ss", off, "-i", v], ["-frames:v", "1", "-q:v", "2", t], rfl⟩,
      ⟨["nice", "-n", "15", "ffmpeg", "-y", "-i", t, "-vf",
        "scale=320:320:force_original_aspect_ratio=decrease"], [tmp], rfl⟩⟩, ?_, ?_, ?_, ?_, ?_⟩
  · simp [generate_thumbnail, hbig]
  · simp [generate_thumbnail, hbig]
  · simp [generate_thumbnail, hbig]
  · intro r2; exact ⟨rfl, rfl⟩
  · intro sz' r2 hsmall
    have : ¬ (200 * 1024 < sz') := by omega
    simp [generate_thumbnail, this]

/-- C6 amended witness: the amended theorem applied at a 256 KB first
thumbnail and a 225 KB re-encoded thumbnail. -/
theorem C6_thumbnail_amended_witness :
    generate_thumbnail (.created 262144) (.created 230400) =
      (if 230400 < 200 * 1024 then some 230400 else some 262144) :=
  (C6_thumbnail_amended "v.mp4" "v_thumb.jpg" "1.0" "v_thumb_temp.jpg"
    262144 230400 (by decide)).2.1

/-! ## C7: compress_video bitrate formula -/

/-- C7 counterexample: at duration 4096 s (where `target_bits - audio_bits`
is negative) the code takes the `video_bits <= 0` branch and emits
100 * 0.9 = 90 kbit/s, while the claimed formula, floored at 50 kbit/s,
yields 50 kbit/s. -/
theorem C7_compress_bitrate_counterexample :
    compress_bitrate_kbps 49 4096 = 90 ∧
    spec_bitrate_kbps 49 4096 = 50 ∧
    compress_bitrate_kbps 49 4096 ≠ spec_bitrate_kbps 49 4096 := by
  refine ⟨?_, ?_, ?_⟩ <;> norm_num [compress_bitrate_kbps, spec_bitrate_kbps]

/-- C7 amended: for duration d > 0, when `target_bits - audio_bits` is
positive (d < 3136 s at target 49 MB) the encoded video bitrate equals the
claimed formula `(target_bits - audio_bits)/d * 0.9` (in kbit/s) floored
at 50 kbit/s; when it is non-positive the code instead uses the fixed
fallback 100 kbit/s * 0.9 = 90 kbit/s.  Audio is held at 128 kbit/s and
the maxrate/bufsize argv entries are 1.5x and 2x the (pre-int) video
bitrate, truncated. -/
theorem C7_compress_bitrate_amended (d : ℚ) (hd : 0 < d) :
    (131072 * d < 411041792 →
      compress_bitrate_kbps 49 d = spec_bitrate_kbps 49 d) ∧
    (411041792 ≤ 131072 * d → compress_bitrate_kbps 49 d = 90) ∧
    (∀ i o, ["-b:a", "128k"] <:+: compress_cmd i o d ∧
      ["-maxrate", toString ((compress_bitrate_kbps 49 d) * (3/2)).floor ++ "k"]
        <:+: compress_cmd i o d ∧
      ["-bufsize", toString ((compress_bitrate_kbps 49 d) * 2).floor ++ "k"]
        <:+: compress_cmd i o d) := by
  refine ⟨?_, ?_, ?_⟩
  · intro hlt
    have hpos : ¬ ((49 : ℚ) * 8 * 1024 * 1024 - 128 * 1024 * d ≤ 0) := by
      intro hle
      nlinarith
    simp only [compress_bitrate_kbps, spec_bitrate_kbps, hpos, if_false]
  · intro hge
    have hneg : (49 : ℚ) * 8 * 1024 * 1024 - 128 * 1024 * d ≤ 0 := by nlinarith
    simp only [compress_bitrate_kbps, hneg, if_true]
    norm_num
  · intro i o
    refine ⟨⟨["nice", "-n", "15", "ffmpeg", "-y", "-i", i, "-c:v", "libx264",
        "-b:v", toString (compress_bitrate_kbps 49 d).floor ++ "k",
        "-maxrate", toString ((compress_bitrate_kbps 49 d) * (3/2)).floor ++ "k",
        "-bufsize", toString ((compress_bitrate_kbps 49 d) * 2).floor ++ "k",
        "-preset", "medium", "-pix_fmt", "yuv420p", "-c:a", "aac"],
        ["-movflags", "+faststart", o], rfl⟩,
      ⟨["nice", "-n", "15", "ffmpeg", "-y", "-i", i, "-c:v", "libx264",
        "-b:v", toString (compress_bitrate_kbps 49 d).floor ++ "k"],
        ["-bufsize", toString ((compress_bitrate_kbps 49 d) * 2).floor ++ "k",
         "-preset", "medium", "-pix_fmt", "yuv420p", "-c:a", "aac", "-b:a", "128k",
         "-movflags", "+faststart", o], rfl⟩,
      ⟨["nice", "-n", "15", "ffmpeg", "-y", "-i", i, "-c:v", "libx264",
        "-b:v", toString (compress_bitrate_kbps 49 d).floor ++ "k",
        "-maxrate", toString ((compress_bitrate_kbps 49 d) * (3/2)).floor ++ "k"],
        ["-preset", "medium", "-pix_fmt", "yuv420p", "-c:a", "aac", "-b:a", "128k",
         "-movflags", "+faststart", o], rfl⟩⟩

/-- C7 amended witness: the amended theorem applied at a 100-second video
(inside the positive-video-bits regime). -/
theorem C7_compress_bitrate_amended_witness :
    compress_bitrate_kbps 49 100 = spec_bitrate_kbps 49 100 :=
  (C7_compress_bitrate_amended 100 (by norm_num)).1 (by norm_num)

/-! ## C9: voice batch flush policy -/

/-- C9 counterexample: 51 rapidly-arriving voice messages never trigger an
immediate flush; the buffer simply grows to 51 with no flushed batch (the
50-message cap lives in the branch for non-voice content only), refuting
the claim that such a run flushes a batch of 50 and starts a new batch
with the 51st message. -/
theorem C9_voice_cap_counterexample :
    (run_rapid_voice 51).flushed = [] ∧
    (run_rapid_voice 51).buffer.length = 51 ∧
    add_message_action "voice" BATCH_MAX_SIZE true = .startTimer := by
  refine ⟨?_, ?_, ?_⟩ <;> decide

/-- C9 amended: the debounce timer is 0.5 s and the cap is 50, but a
voice/video_note arrival always (re)starts the timer and never flushes by
size; the immediate flush at the 50-message cap (or on rapid succession)
applies only to other content types.  Consequently n rapid voice arrivals
leave one unflushed buffer of n messages, and the subsequent timer expiry
flushes them as a single batch (so 51 rapid voice messages yield one
timer-flushed batch of 51, not a size-flushed batch of 50 plus one). -/
theorem C9_voice_batch_amended (ct : String) (len : Nat) (rapid : Bool)
    (hvoice : ct = "voice" ∨ ct = "video_note") :
    BATCH_TIMEOUT = 1 / 2 ∧
    BATCH_MAX_SIZE = 50 ∧
    add_message_action ct len rapid = .startTimer ∧
    (∀ ct' len' rapid', ¬ (ct' = "voice" ∨ ct' = "video_note") →
      (add_message_action ct' len' rapid' = .flushNow ↔
        rapid' = true ∨ BATCH_MAX_SIZE ≤ len')) ∧
    (∀ n, (run_rapid_voice n).flushed = [] ∧
          (run_rapid_voice n).buffer.length = n) ∧
    (timer_fire (run_rapid_voice 51)).flushed.map List.length = [51] := by
  have hrun : ∀ n, (run_rapid_voice n).flushed = [] ∧
      (run_rapid_voice n).buffer.length = n := by
    intro n
    have key : ∀ (l : List Nat) (s : BatchState),
        (l.foldl (fun s i => add_message s ⟨i + 1, "voice"⟩ true) s).flushed = s.flushed ∧
        (l.foldl (fun s i => add_message s ⟨i + 1, "voice"⟩ true) s).buffer.length =
          s.buffer.length + l.length := by
      intro l
      induction l with
      | nil => intro s; simp
      | cons a tl ih =>
        intro s
        have step : add_message s ⟨a + 1, "voice"⟩ true =
            { buffer := s.buffer ++ [⟨a + 1, "voice"⟩], flushed := s.flushed } := by
          simp [add_message, add_message_action]
        rw [List.foldl_cons, step]
        have := ih { buffer := s.buffer ++ [⟨a + 1, "voice"⟩], flushed := s.flushed }
        simpa [Nat.add_assoc, Nat.add_comm, Nat.add_left_comm] using this
    have := key (List.range n) ⟨[], []⟩
    simpa [run_rapid_voice] using this
  refine ⟨rfl, rfl, ?_, ?_, hrun, ?_⟩
  · rcases hvoice with h | h <;> simp [add_message_action, h]
  · intro ct' len' rapid' hother
    constructor
    · intro hflush
      by_cases hr : rapid' = true
      · exact Or.inl hr
      · right
        by_cases hcap : BATCH_MAX_SIZE ≤ len'
        · exact hcap
        · exfalso
          have hr' : rapid' = false := by
            cases rapid' <;> simp_all
          simp [add_message_action, hother, hr', hcap] at hflush
    · intro h
      have : (rapid' = true ∨ BATCH_MAX_SIZE ≤ len') := h
      rcases this with hr | hcap
      · simp [add_message_action, hother, hr]
      · cases rapid' <;> simp [add_message_action, hother, hcap]
  · have h51 := hrun 51
    have hne : (run_rapid_voice 51).buffer ≠ [] := by
      intro hnil
      have := h51.2
      rw [hnil] at this
      simp at this
    simp [timer_fire, hne, h51.1, h51.2]

/-- C9 amended witness: the amended theorem applied to a voice arrival at
the 50-message cap. -/
theorem C9_voice_batch_amended_witness :
    add_message_action "voice" 50 true = .startTimer :=
  (C9_voice_batch_amended "voice" 50 true (Or.inl rfl)).2.2.1


/-! ## C8: voice batch ordering -/

theorem collect_foldl_length (res : Nat → List Char) :
    ∀ (order : List Nat) (acc : List (Option (List Char))),
      (order.foldl (fun a i => a.set i (some (res i))) acc).length = acc.length := by
  intro order
  induction order with
  | nil => intro acc; rfl
  | cons i tl ih =>
    intro acc
    rw [List.foldl_cons, ih, List.length_set]

theorem collect_foldl_get (res : Nat → List Char) :
    ∀ (order : List Nat) (acc : List (Option (List Char))) (j : Nat), j < acc.length →
      (order.foldl (fun a i => a.set i (some (res i))) acc)[j]? =
        if j ∈ order then some (some (res j)) else acc[j]? := by
  intro order
  induction order with
  | nil => intro acc j hj; simp
  | cons i tl ih =>
    intro acc j hj
    rw [List.foldl_cons, ih _ j (by rw [List.length_set]; exact hj)]
    by_cases hmem : j ∈ tl
    · simp [hmem]
    · rw [if_neg hmem, List.getElem?_set]
      by_cases hij : i = j
      · subst hij
        simp [hj]
      · have : ¬ j ∈ i :: tl := by
          intro hc
          rcases List.mem_cons.mp hc with h | h
          · exact hij h.symm
          · exact hmem h
        simp [hij, hmem, this]

theorem collectResults_of_perm (n : Nat) (res : Nat → List Char)
    (order : List Nat) (horder : order.Perm (List.range n)) :
    collectResults n res order = (List.range n).map (fun i => some (res i)) := by
  apply List.ext_getElem?
  intro j
  by_cases hj : j < n
  · have hmem : j ∈ order := horder.mem_iff.mpr (List.mem_range.mpr hj)
    rw [collectResults, collect_foldl_get res order _ j (by simpa using hj), if_pos hmem]
    rw [List.getElem?_map, List.getElem?_range hj]
    rfl
  · have h1 : ((List.range n).map (fun i => some (res i)))[j]? = none := by
      apply List.getElem?_eq_none
      simpa using Nat.le_of_not_lt hj
    have h2 : (collectResults n res order)[j]? = none := by
      apply List.getElem?_eq_none
      rw [collectResults, collect_foldl_length]
      simpa using Nat.le_of_not_lt hj
    rw [h1, h2]

theorem range_map_getD {α : Type} (g : BatchMsg → α) (d : BatchMsg) :
    ∀ (msgs : List BatchMsg),
      (List.range msgs.length).map (fun i => g (msgs.getD i d)) = msgs.map g := by
  intro msgs
  induction msgs with
  | nil => rfl
  | cons m tl ih =>
    rw [List.length_cons, List.range_succ_eq_map, List.map_cons, List.map_map]
    have : ((fun i => g ((m :: tl).getD i d)) ∘ (· + 1)) =
        (fun i => g (tl.getD i d)) := by
      funext i
      rfl
    rw [this, ih]
    rfl

theorem transcribed_texts_of_perm (trans : BatchMsg → List Char)
    (sorted : List BatchMsg) (order : List Nat)
    (horder : order.Perm (List.range sorted.length)) :
    transcribed_texts trans sorted order = sorted.map (fun m => some (trans m)) := by
  rw [transcribed_texts, collectResults_of_perm _ _ _ horder]
  exact range_map_getD (fun m => some (trans m)) ⟨0, ""⟩ sorted

theorem insertionSort_eq_of_perm_sorted (arrival msgs : List BatchMsg)
    (hperm : arrival.Perm msgs)
    (hsorted : msgs.Pairwise (fun a b => a.message_id < b.message_id)) :
    arrival.insertionSort (fun a b => a.message_id ≤ b.message_id) = msgs := by
  haveI : IsTotal BatchMsg (fun a b => a.message_id ≤ b.message_id) :=
    ⟨fun a b => Nat.le_total _ _⟩
  haveI : IsTrans BatchMsg (fun a b => a.message_id ≤ b.message_id) :=
    ⟨fun a b c => Nat.le_trans⟩
  haveI : IsAntisymm BatchMsg (fun a b => a.message_id < b.message_id) :=
    ⟨fun a b x y => absurd (Nat.lt_trans x y) (Nat.lt_irrefl _)⟩
  have hps : (arrival.insertionSort (fun a b => a.message_id ≤ b.message_id)).Perm msgs :=
    (List.perm_insertionSort _ arrival).trans hperm
  have hsle := List.sorted_insertionSort (fun a b => a.message_id ≤ b.message_id) arrival
  have hne : msgs.Pairwise (fun a b => a.message_id ≠ b.message_id) :=
    hsorted.imp (fun h => Nat.ne_of_lt h)
  have hne2 : (arrival.insertionSort (fun a b => a.message_id ≤ b.message_id)).Pairwise
      (fun a b => a.message_id ≠ b.message_id) :=
    (hps.pairwise_iff (fun h => Ne.symm h)).mpr hne
  have hlt : (arrival.insertionSort (fun a b => a.message_id ≤ b.message_id)).Pairwise
      (fun a b => a.message_id < b.message_id) :=
    (hsle.and hne2).imp (fun h => Nat.lt_of_le_of_ne h.1 h.2)
  exact List.eq_of_perm_of_sorted hps hlt hsorted

/-- C8. Voice batch ordering: the flushed buffer is sorted by message id
ascending; the transcription results land at their submission indices
regardless of the pool's completion order (modelled as any permutation of
the indices), so transcribed_texts equals the per-message transcriptions
in id order with empty transcripts retained; and the published combined
transcript equals the canonical combination of the id-sorted messages
with their own transcriptions (sections in id order, empty transcripts
excluded by the text-and-text.strip() guard), independent of arrival and
completion order.  The pool has min(n, 16) workers. -/
theorem C8_voice_batch_order (trans : BatchMsg → List Char)
    (arrival msgs : List BatchMsg) (order : List Nat)
    (hsorted : msgs.Pairwise (fun a b => a.message_id < b.message_id))
    (hperm : arrival.Perm msgs)
    (hvoice : ∀ m ∈ msgs, m.content_type = "voice" ∨ m.content_type = "video_note")
    (horder : order.Perm (List.range msgs.length)) :
    process_batch_sort arrival = msgs ∧
    transcribed_texts trans msgs order = msgs.map (fun m => some (trans m)) ∧
    process_voice_pipeline trans arrival order =
      voice_combined msgs (msgs.map trans) ∧
    pool_size msgs.length = min msgs.length 16 := by
  have hfilter : arrival.filter
      (fun m => m.content_type = "voice" ∨ m.content_type = "video_note") = arrival := by
    rw [List.filter_eq_self]
    intro a ha
    have := hvoice a (hperm.mem_iff.mp ha)
    simpa using this
  have hsort : process_batch_sort arrival = msgs := by
    rw [process_batch_sort, hfilter]
    exact insertionSort_eq_of_perm_sorted arrival msgs hperm hsorted
  have htexts := transcribed_texts_of_perm trans msgs order horder
  refine ⟨hsort, htexts, ?_, rfl⟩
  rw [process_voice_pipeline, hsort, htexts, List.map_map]
  rfl

/-- C8 witness: the ordering theorem applied to three voice/video-note
messages arriving as 1003, 1001, 1002 with completion order 1, 0, 2: the
sort step restores id order. -/
theorem C8_voice_batch_order_witness :
    process_batch_sort
        [⟨1003, "voice"⟩, ⟨1001, "voice"⟩, ⟨1002, "video_note"⟩] =
      [⟨1001, "voice"⟩, ⟨1002, "video_note"⟩, ⟨1003, "voice"⟩] :=
  (C8_voice_batch_order (fun m => ('t' :: (Nat.repr m.message_id).data))
    [⟨1003, "voice"⟩, ⟨1001, "voice"⟩, ⟨1002, "video_note"⟩]
    [⟨1001, "voice"⟩, ⟨1002, "video_note"⟩, ⟨1003, "voice"⟩]
    [1, 0, 2]
    (by decide) (by decide) (by decide) (by decide)).1


/-! ## C3: single-flight registry invariant -/

theorem find_eraseP_ne (k kp : String) (hne : kp ≠ k) :
    ∀ (l : List (String × Nat)),
      (l.eraseP (fun q => q.1 = k)).find? (fun q => q.1 = kp) =
        l.find? (fun q => q.1 = kp) := by
  intro l
  induction l with
  | nil => rfl
  | cons a tl ih =>
    by_cases ha : a.1 = k
    · rw [List.eraseP_cons_of_pos (by simpa using ha)]
      rw [List.find?_cons_of_neg _ (by simp [ha, Ne.symm hne])]
    · rw [List.eraseP_cons_of_neg (by simpa using ha)]
      by_cases hap : a.1 = kp
      · rw [List.find?_cons_of_pos _ (by simpa using hap),
          List.find?_cons_of_pos _ (by simpa using hap)]
      · rw [List.find?_cons_of_neg _ (by simpa using hap),
          List.find?_cons_of_neg _ (by simpa using hap), ih]

theorem keys_nodup_unique :
    ∀ (l : List (String × Nat)), (l.map Prod.fst).Nodup →
      ∀ (k : String) (f1 f2 : Nat), (k, f1) ∈ l → (k, f2) ∈ l → f1 = f2 := by
  intro l
  induction l with
  | nil => intro _ k f1 f2 h; simp at h
  | cons a tl ih =>
    intro hnd k f1 f2 h1 h2
    rw [List.map_cons, List.nodup_cons] at hnd
    rcases List.mem_cons.mp h1 with e1 | m1 <;> rcases List.mem_cons.mp h2 with e2 | m2
    · rw [← e1] at e2
      exact (Prod.mk.injEq _ _ _ _ |>.mp e2).2.symm
    · exfalso
      apply hnd.1
      rw [← e1]
      simpa using List.mem_map_of_mem Prod.fst m2
    · exfalso
      apply hnd.1
      rw [← e2]
      simpa using List.mem_map_of_mem Prod.fst m1
    · exact ih hnd.2 k f1 f2 m1 m2

theorem flight_inv_start : FlightInv FlightState.start := by
  refine ⟨List.nodup_nil, ?_, ?_, ?_, ?_⟩
  · intro p hp
    simp [FlightState.start] at hp
  · intro t ht
    simp [FlightState.start] at ht
  · intro t ht
    simp [FlightState.start] at ht
  · intro k
    simp [FlightState.start]

theorem flight_inv_step {s s' : FlightState}
    (hinv : FlightInv s) (hstep : FlightStep s s') : FlightInv s' := by
  obtain ⟨hnd, hlt, hleader, hdone, hcount⟩ := hinv
  cases hstep with
  | join k fid hfound =>
    refine ⟨hnd, hlt, ?_, ?_, ?_⟩
    · intro t ht hact
      rcases List.mem_cons.mp ht with rfl | hmem
      · simp [TaskPhase.isActiveLeader] at hact
      · exact hleader t hmem hact
    · intro t ht hres
      rcases List.mem_cons.mp ht with rfl | hmem
      · simp at hres
      · exact hdone t hmem hres
    · intro kp
      rw [List.countP_cons]
      have hfalse : (decide ((⟨k, fid, .follower⟩ : FlightTask).key = kp) &&
          TaskPhase.follower.isActiveLeader) = false := by
        simp [TaskPhase.isActiveLeader]
      rw [hfalse]
      simpa using hcount kp
  | claim k habsent =>
    have habs : ∀ q ∈ s.reg, ¬ (q.1 = k) := by
      intro q hq hqk
      have := List.find?_eq_none.mp habsent q hq
      simp [hqk] at this
    refine ⟨?_, ?_, ?_, ?_, ?_⟩
    · rw [List.map_cons, List.nodup_cons]
      refine ⟨?_, hnd⟩
      intro hk
      obtain ⟨q, hq, hqk⟩ := List.mem_map.mp hk
      exact habs q hq hqk
    · intro p hp
      rcases List.mem_cons.mp hp with rfl | hmem
      · exact Nat.lt_succ_self _
      · exact Nat.lt_trans (hlt p hmem) (Nat.lt_succ_self _)
    · intro t ht hact
      rcases List.mem_cons.mp ht with rfl | hmem
      · show ((k, s.created) :: s.reg).find? (fun q => q.1 = k) = _
        rw [List.find?_cons_of_pos _ (by simp)]
      · have hold := hleader t hmem hact
        have htk : t.key ≠ k := by
          intro he
          rw [he] at hold
          exact Option.noConfusion (habsent.symm.trans hold)
        show ((k, s.created) :: s.reg).find? (fun q => q.1 = t.key) = _
        rw [List.find?_cons_of_neg _ (by simp [Ne.symm htk])]
        exact hold
    · intro t ht hres
      rcases List.mem_cons.mp ht with rfl | hmem
      · simp at hres
      · exact hdone t hmem hres
    · intro kp
      rw [List.countP_cons]
      by_cases hk : k = kp
      · subst hk
        have hzero : s.tasks.countP
            (fun t => decide (t.key = k) && t.phase.isActiveLeader) = 0 := by
          by_contra hnz
          have hpos : 0 < s.tasks.countP
              (fun t => decide (t.key = k) && t.phase.isActiveLeader) :=
            Nat.pos_of_ne_zero hnz
          obtain ⟨t, hmem, hpred⟩ := List.countP_pos_iff.mp hpos
          have h1 : t.key = k := by
            have := Bool.and_elim_left hpred
            simpa using this
          have h2 : t.phase.isActiveLeader = true := Bool.and_elim_right hpred
          have hsome := hleader t hmem h2
          rw [h1] at hsome
          exact Option.noConfusion (habsent.symm.trans hsome)
        rw [hzero]
        simp [TaskPhase.isActiveLeader]
      · have hfalse : (decide ((⟨k, s.created, .leaderWorking⟩ : FlightTask).key = kp) &&
            TaskPhase.leaderWorking.isActiveLeader) = false := by
          simp [TaskPhase.isActiveLeader, hk]
        rw [hfalse]
        simpa using hcount kp
  | resolve k fid pre post htasks =>
    refine ⟨hnd, hlt, ?_, ?_, ?_⟩
    · intro t ht hact
      rcases List.mem_append.mp ht with hp | hc
      · exact hleader t (by rw [htasks]; exact List.mem_append_left _ hp) hact
      · rcases List.mem_cons.mp hc with rfl | hq
        · have hw : (⟨k, fid, .leaderWorking⟩ : FlightTask) ∈ s.tasks := by
            rw [htasks]
            exact List.mem_append_right _ (List.mem_cons_self _ _)
          exact hleader ⟨k, fid, .leaderWorking⟩ hw rfl
        · exact hleader t (by
            rw [htasks]
            exact List.mem_append_right _ (List.mem_cons_of_mem _ hq)) hact
    · intro t ht hres
      rcases List.mem_append.mp ht with hp | hc
      · exact List.mem_cons_of_mem _
          (hdone t (by rw [htasks]; exact List.mem_append_left _ hp) hres)
      · rcases List.mem_cons.mp hc with rfl | hq
        · exact List.mem_cons_self _ _
        · exact List.mem_cons_of_mem _ (hdone t (by
            rw [htasks]
            exact List.mem_append_right _ (List.mem_cons_of_mem _ hq)) hres)
    · intro kp
      have hc := hcount kp
      rw [htasks] at hc
      rw [List.countP_append, List.countP_cons] at hc ⊢
      have heq : (decide ((⟨k, fid, .leaderResolved⟩ : FlightTask).key = kp) &&
          TaskPhase.leaderResolved.isActiveLeader) =
          (decide ((⟨k, fid, .leaderWorking⟩ : FlightTask).key = kp) &&
          TaskPhase.leaderWorking.isActiveLeader) := by
        simp [TaskPhase.isActiveLeader]
      rw [heq]
      exact hc
  | finallyPop k fid pre post htasks =>
    have hmid : (⟨k, fid, .leaderResolved⟩ : FlightTask) ∈ s.tasks := by
      rw [htasks]
      exact List.mem_append_right _ (List.mem_cons_self _ _)
    refine ⟨?_, ?_, ?_, ?_, ?_⟩
    · exact ((List.eraseP_sublist s.reg).map Prod.fst).nodup hnd
    · intro p hp
      exact hlt p ((List.eraseP_sublist s.reg).subset hp)
    · intro t ht hact
      rcases List.mem_append.mp ht with hp | hc
      · have hmem : t ∈ s.tasks := by
          rw [htasks]; exact List.mem_append_left _ hp
        have hold := hleader t hmem hact
        have htk : t.key ≠ k := by
          intro he
          have hc2 := hcount k
          rw [htasks, List.countP_append, List.countP_cons] at hc2
          have hmidp : (decide ((⟨k, fid, .leaderResolved⟩ : FlightTask).key = k) &&
              TaskPhase.leaderResolved.isActiveLeader) = true := by
            simp [TaskPhase.isActiveLeader]
          rw [hmidp] at hc2
          norm_num at hc2
          have hpos : 0 < pre.countP
              (fun t => decide (t.key = k) && t.phase.isActiveLeader) :=
            List.countP_pos_iff.mpr ⟨t, hp, by simp [he, hact]⟩
          omega
        show (s.reg.eraseP (fun q => q.1 = k)).find? (fun q => q.1 = t.key) = _
        rw [find_eraseP_ne k t.key htk]
        exact hold
      · rcases List.mem_cons.mp hc with rfl | hq
        · simp [TaskPhase.isActiveLeader] at hact
        · have hmem : t ∈ s.tasks := by
            rw [htasks]
            exact List.mem_append_right _ (List.mem_cons_of_mem _ hq)
          have hold := hleader t hmem hact
          have htk : t.key ≠ k := by
            intro he
            have hc2 := hcount k
            rw [htasks, List.countP_append, List.countP_cons] at hc2
            have hmidp : (decide ((⟨k, fid, .leaderResolved⟩ : FlightTask).key = k) &&
                TaskPhase.leaderResolved.isActiveLeader) = true := by
              simp [TaskPhase.isActiveLeader]
            rw [hmidp] at hc2
            norm_num at hc2
            have hpos : 0 < post.countP
                (fun t => decide (t.key = k) && t.phase.isActiveLeader) :=
              List.countP_pos_iff.mpr ⟨t, hq, by simp [he, hact]⟩
            omega
          show (s.reg.eraseP (fun q => q.1 = k)).find? (fun q => q.1 = t.key) = _
          rw [find_eraseP_ne k t.key htk]
          exact hold
    · intro t ht hres
      rcases List.mem_append.mp ht with hp | hc
      · exact hdone t (by rw [htasks]; exact List.mem_append_left _ hp) hres
      · rcases List.mem_cons.mp hc with rfl | hq
        · simp at hres
        · exact hdone t (by
            rw [htasks]
            exact List.mem_append_right _ (List.mem_cons_of_mem _ hq)) hres
    · intro kp
      have hc := hcount kp
      rw [htasks, List.countP_append, List.countP_cons] at hc
      rw [List.countP_append, List.countP_cons]
      have hex : (decide ((⟨k, fid, .exited⟩ : FlightTask).key = kp) &&
          TaskPhase.exited.isActiveLeader) = false := by
        simp [TaskPhase.isActiveLeader]
      rw [hex]
      by_cases hmidp : (decide ((⟨k, fid, .leaderResolved⟩ : FlightTask).key = kp) &&
          TaskPhase.leaderResolved.isActiveLeader) = true
      · rw [hmidp] at hc
        norm_num at hc ⊢
        omega
      · rw [Bool.not_eq_true] at hmidp
        rw [hmidp] at hc
        norm_num at hc ⊢
        omega
  | followerFinish k fid pre post htasks =>
    refine ⟨hnd, hlt, ?_, ?_, ?_⟩
    · intro t ht hact
      rcases List.mem_append.mp ht with hp | hc
      · exact hleader t (by rw [htasks]; exact List.mem_append_left _ hp) hact
      · rcases List.mem_cons.mp hc with rfl | hq
        · simp [TaskPhase.isActiveLeader] at hact
        · exact hleader t (by
            rw [htasks]
            exact List.mem_append_right _ (List.mem_cons_of_mem _ hq)) hact
    · intro t ht hres
      rcases List.mem_append.mp ht with hp | hc
      · exact hdone t (by rw [htasks]; exact List.mem_append_left _ hp) hres
      · rcases List.mem_cons.mp hc with rfl | hq
        · simp at hres
        · exact hdone t (by
            rw [htasks]
            exact List.mem_append_right _ (List.mem_cons_of_mem _ hq)) hres
    · intro kp
      have hc := hcount kp
      rw [htasks, List.countP_append, List.countP_cons] at hc
      rw [List.countP_append, List.countP_cons]
      have h1 : (decide ((⟨k, fid, .exited⟩ : FlightTask).key = kp) &&
          TaskPhase.exited.isActiveLeader) = false := by
        simp [TaskPhase.isActiveLeader]
      have h2 : (decide ((⟨k, fid, .follower⟩ : FlightTask).key = kp) &&
          TaskPhase.follower.isActiveLeader) = false := by
        simp [TaskPhase.isActiveLeader]
      rw [h1]
      rw [h2] at hc
      norm_num at hc ⊢
      omega

theorem flight_inv_reachable {s : FlightState} (h : FlightReachable s) :
    FlightInv s := by
  induction h with
  | start => exact flight_inv_start
  | step _ hstep ih => exact flight_inv_step ih hstep


/-- C3. Single-flight invariant of the active_downloads registry: in every
reachable state the registry holds at most one future per canonical URL;
moreover along every transition, a new entry is installed only when no
entry exists for its key, an entry is removed only when its future is
done (fulfilled or cancelled), and a new follower always receives exactly
the future currently registered for its key. -/
theorem C3_single_flight (s : FlightState) (hreach : FlightReachable s) :
    (∀ (k : String) (f1 f2 : Nat), (k, f1) ∈ s.reg → (k, f2) ∈ s.reg → f1 = f2) ∧
    (∀ s', FlightStep s s' → ∀ p : String × Nat, p ∈ s'.reg → p ∉ s.reg →
        regFind s p.1 = none) ∧
    (∀ s', FlightStep s s' → ∀ p : String × Nat, p ∈ s.reg → p ∉ s'.reg →
        p.2 ∈ s.done) ∧
    (∀ s', FlightStep s s' → ∀ t : FlightTask, t ∈ s'.tasks → t ∉ s.tasks →
        t.phase = .follower → regFind s t.key = some (t.key, t.fid)) := by
  obtain ⟨hnd, hlt, hleader, hdone, hcount⟩ := flight_inv_reachable hreach
  refine ⟨keys_nodup_unique s.reg hnd, ?_, ?_, ?_⟩
  · intro s' hstep p hnew hold
    cases hstep with
    | join k fid hfound => exact absurd hnew hold
    | claim k habsent =>
      rcases List.mem_cons.mp hnew with rfl | hmem
      · exact habsent
      · exact absurd hmem hold
    | resolve k fid pre post htasks => exact absurd hnew hold
    | finallyPop k fid pre post htasks =>
      exact absurd ((List.eraseP_sublist s.reg).subset hnew) hold
    | followerFinish k fid pre post htasks => exact absurd hnew hold
  · intro s' hstep p hold hgone
    cases hstep with
    | join k fid hfound => exact absurd hold hgone
    | claim k habsent => exact absurd (List.mem_cons_of_mem _ hold) hgone
    | resolve k fid pre post htasks => exact absurd hold hgone
    | finallyPop k fid pre post htasks =>
      have hmid : (⟨k, fid, .leaderResolved⟩ : FlightTask) ∈ s.tasks := by
        rw [htasks]
        exact List.mem_append_right _ (List.mem_cons_self _ _)
      have hsome := hleader ⟨k, fid, .leaderResolved⟩ hmid rfl
      have hkmem : (k, fid) ∈ s.reg := List.mem_of_find?_eq_some hsome
      have hpk : p.1 = k := by
        by_contra hne
        exact hgone ((List.mem_eraseP_of_neg (by simpa using hne)).mpr hold)
      have hpair : (k, p.2) ∈ s.reg := by
        have : p = (k, p.2) := by
          rw [← hpk]
        rw [← this]
        exact hold
      have : p.2 = fid := keys_nodup_unique s.reg hnd k p.2 fid hpair hkmem
      rw [this]
      exact hdone ⟨k, fid, .leaderResolved⟩ hmid rfl
    | followerFinish k fid pre post htasks => exact absurd hold hgone
  · intro s' hstep t hnew holdt hfol
    cases hstep with
    | join k fid hfound =>
      rcases List.mem_cons.mp hnew with rfl | hmem
      · exact hfound
      · exact absurd hmem holdt
    | claim k habsent =>
      rcases List.mem_cons.mp hnew with rfl | hmem
      · exact absurd hfol (by simp)
      · exact absurd hmem holdt
    | resolve k fid pre post htasks =>
      rcases List.mem_append.mp hnew with hp | hc
      · exact absurd (by rw [htasks]; exact List.mem_append_left _ hp) holdt
      · rcases List.mem_cons.mp hc with rfl | hq
        · exact absurd hfol (by simp)
        · exact absurd (by
            rw [htasks]
            exact List.mem_append_right _ (List.mem_cons_of_mem _ hq)) holdt
    | finallyPop k fid pre post htasks =>
      rcases List.mem_append.mp hnew with hp | hc
      · exact absurd (by rw [htasks]; exact List.mem_append_left _ hp) holdt
      · rcases List.mem_cons.mp hc with rfl | hq
        · exact absurd hfol (by simp)
        · exact absurd (by
            rw [htasks]
            exact List.mem_append_right _ (List.mem_cons_of_mem _ hq)) holdt
    | followerFinish k fid pre post htasks =>
      rcases List.mem_append.mp hnew with hp | hc
      · exact absurd (by rw [htasks]; exact List.mem_append_left _ hp) holdt
      · rcases List.mem_cons.mp hc with rfl | hq
        · exact absurd hfol (by simp)
        · exact absurd (by
            rw [htasks]
            exact List.mem_append_right _ (List.mem_cons_of_mem _ hq)) holdt

/-- C3 witness: the invariant theorem applied to the state reached by one
claim transition from the empty start state, discharging the reachability
hypothesis. -/
theorem C3_single_flight_witness :
    FlightReachable ⟨[("https://instagram.com/p/A", 0)], [], 1,
      [⟨"https://instagram.com/p/A", 0, .leaderWorking⟩]⟩ ∧ (0 : Nat) = 0 :=
  ⟨FlightReachable.step FlightReachable.start
      (FlightStep.claim FlightState.start "https://instagram.com/p/A" rfl),
    (C3_single_flight
      ⟨[("https://instagram.com/p/A", 0)], [], 1,
        [⟨"https://instagram.com/p/A", 0, .leaderWorking⟩]⟩
      (FlightReachable.step FlightReachable.start
        (FlightStep.claim FlightState.start "https://instagram.com/p/A" rfl))).1
      "https://instagram.com/p/A" 0 0 (List.mem_singleton.mpr rfl)
      (List.mem_singleton.mpr rfl)⟩


/-! ## URL canonicalizer lemmas: splitting and stripping -/

theorem splitFirst_of_not_mem (sep : Char) (l : List Char) (h : sep ∉ l) :
    splitFirst sep l = none := by
  induction l with
  | nil => rfl
  | cons c tl ih =>
    have hc : ¬ c = sep := fun hc => h (hc ▸ List.mem_cons_self c tl)
    rw [splitFirst, if_neg hc, ih (fun hm => h (List.mem_cons_of_mem c hm))]
    rfl

theorem splitFirst_append_cons (sep : Char) (a b : List Char) (h : sep ∉ a) :
    splitFirst sep (a ++ sep :: b) = some (a, b) := by
  induction a with
  | nil => simp [splitFirst]
  | cons c tl ih =>
    have hc : ¬ c = sep := fun hc => h (hc ▸ List.mem_cons_self c tl)
    rw [List.cons_append, splitFirst, if_neg hc,
      ih (fun hm => h (List.mem_cons_of_mem c hm))]
    rfl

theorem splitFirst_some (sep : Char) (l a b : List Char)
    (h : splitFirst sep l = some (a, b)) : l = a ++ sep :: b ∧ sep ∉ a := by
  induction l generalizing a b with
  | nil => simp [splitFirst] at h
  | cons c tl ih =>
    rw [splitFirst] at h
    by_cases hc : c = sep
    · rw [if_pos hc] at h
      have h2 : a = [] ∧ tl = b := by simpa using h
      obtain ⟨rfl, rfl⟩ := h2
      simp [hc]
    · rw [if_neg hc] at h
      cases hsf : splitFirst sep tl with
      | none => rw [hsf] at h; simp at h
      | some p =>
        rw [hsf] at h
        have h2 : c :: p.1 = a ∧ p.2 = b := by simpa using h
        obtain ⟨rfl, rfl⟩ := h2
        obtain ⟨htl, hns⟩ := ih p.1 p.2 (by rw [hsf])
        constructor
        · rw [List.cons_append, ← htl]
        · intro hm
          rcases List.mem_cons.mp hm with h3 | h3
          · exact hc h3.symm
          · exact hns h3

theorem splitAll_of_not_mem (sep : Char) (l : List Char) (h : sep ∉ l) :
    splitAll sep l = [l] := by
  induction l with
  | nil => rfl
  | cons c tl ih =>
    have hc : ¬ c = sep := fun hc => h (hc ▸ List.mem_cons_self c tl)
    rw [splitAll, if_neg hc, ih (fun hm => h (List.mem_cons_of_mem c hm))]

theorem splitAll_append_cons (sep : Char) (x r : List Char) (h : sep ∉ x) :
    splitAll sep (x ++ sep :: r) = x :: splitAll sep r := by
  induction x with
  | nil => simp [splitAll]
  | cons c tl ih =>
    have hc : ¬ c = sep := fun hc => h (hc ▸ List.mem_cons_self c tl)
    rw [List.cons_append, splitAll, if_neg hc,
      ih (fun hm => h (List.mem_cons_of_mem c hm))]

theorem splitAll_joinChar (sep : Char) (parts : List (List Char))
    (hne : parts ≠ []) (h : ∀ p ∈ parts, sep ∉ p) :
    splitAll sep (joinChar sep parts) = parts := by
  induction parts with
  | nil => exact absurd rfl hne
  | cons x tl ih =>
    cases tl with
    | nil =>
      rw [joinChar]
      exact splitAll_of_not_mem sep x (h x (List.mem_cons_self x []))
    | cons y ts =>
      rw [joinChar, splitAll_append_cons sep x _ (h x (List.mem_cons_self x _)),
        ih (by simp) (fun p hp => h p (List.mem_cons_of_mem x hp))]

theorem dropWhile_eq_self_of (p : Char → Bool) (l : List Char)
    (h : ∀ c ∈ l, p c = false) : l.dropWhile p = l := by
  cases l with
  | nil => rfl
  | cons c tl =>
    rw [List.dropWhile_cons, if_neg]
    simp [h c (List.mem_cons_self c tl)]

theorem pyRStripL_eq_self (l : List Char) (h : ∀ c ∈ l, isPyWs c = false) :
    pyRStripL l = l := by
  rw [pyRStripL, dropWhile_eq_self_of _ _
    (fun c hc => h c (List.mem_reverse.mp hc)), List.reverse_reverse]

theorem pyStripL_eq_self (l : List Char) (h : ∀ c ∈ l, isPyWs c = false) :
    pyStripL l = l := by
  rw [pyStripL, pyLStripL, dropWhile_eq_self_of _ _ h, pyRStripL_eq_self l h]

theorem rstripSlashL_append_slash (l : List Char) :
    rstripSlashL (l ++ ['/']) = rstripSlashL l := by
  simp [rstripSlashL, List.reverse_append]

theorem dropWhile_idem (p : Char → Bool) (l : List Char) :
    (l.dropWhile p).dropWhile p = l.dropWhile p := by
  induction l with
  | nil => rfl
  | cons c tl ih =>
    rw [List.dropWhile_cons]
    by_cases hc : p c = true
    · rw [if_pos hc]; exact ih
    · rw [if_neg hc, List.dropWhile_cons, if_neg hc]

theorem rstripSlashL_idem (l : List Char) :
    rstripSlashL (rstripSlashL l) = rstripSlashL l := by
  rw [rstripSlashL, rstripSlashL, List.reverse_reverse, dropWhile_idem]

theorem mem_rstripSlashL (c : Char) (l : List Char)
    (h : c ∈ rstripSlashL l) : c ∈ l := by
  rw [rstripSlashL] at h
  rw [List.mem_reverse] at h
  have := (List.dropWhile_sublist (l := l.reverse)
    (p := fun c => c = '/')).subset h
  exact List.mem_reverse.mp this

theorem rstripSlashL_head (c : Char) (tl : List Char) :
    rstripSlashL (c :: tl) = [] ∨ (rstripSlashL (c :: tl)).headD ' ' = c := by
  have hrev : (c :: tl).reverse = tl.reverse ++ [c] := by simp
  rw [rstripSlashL, hrev, List.dropWhile_append]
  by_cases he : (tl.reverse.dropWhile (fun c => c = '/')).isEmpty = true
  · rw [if_pos he, List.dropWhile]
    rcases Bool.eq_false_or_eq_true (decide (c = '/')) with hb | hb <;> rw [hb]
    · left; rfl
    · right; rfl
  · rw [if_neg he, List.reverse_append]
    right; rfl

/-! ## URL canonicalizer lemmas: character classes -/

theorem cleanUrlChar_spec (c : Char) (h : cleanUrlChar c = true) :
    0x20 < c.toNat ∧ c.toNat ≤ 0x7E ∧ c ≠ ';' ∧ c ≠ '[' ∧ c ≠ ']' := by
  simpa [cleanUrlChar] using h

theorem cleanUrlChar_not_ws (c : Char) (h : cleanUrlChar c = true) :
    isPyWs c = false := by
  obtain ⟨h1, -⟩ := cleanUrlChar_spec c h
  simp only [isPyWs, decide_eq_false_iff_not]
  rintro (rfl | rfl | rfl | rfl | rfl | rfl) <;> exact absurd h1 (by decide)

theorem removeUnsafe_eq_self (l : List Char)
    (h : ∀ c ∈ l, isPyWs c = false) : removeUnsafe l = l := by
  rw [removeUnsafe]
  apply List.filter_eq_self.mpr
  intro c hc
  have hw := h c hc
  simp only [decide_eq_true_eq]
  rintro (rfl | rfl | rfl) <;> simp [isPyWs] at hw

theorem contains_eq_false_of_not_mem (l : List Char) (c : Char)
    (h : c ∉ l) : l.contains c = false := by
  simpa using h

/-! ## URL canonicalizer lemmas: UTF-8 round trip -/

theorem go_ascii (b : Nat) (bs : List Nat) (h : b < 0x80) :
    utf8Go 0 0 0 0 (b :: bs) = Char.ofNat b :: utf8Go 0 0 0 0 bs := by
  rw [utf8Go, if_pos h]

theorem go_lead2 (b : Nat) (bs : List Nat) (h1 : 0xC2 ≤ b) (h2 : b ≤ 0xDF) :
    utf8Go 0 0 0 0 (b :: bs) = utf8Go 1 (b - 0xC0) 0x80 0xBF bs := by
  rw [utf8Go, if_neg (by omega), if_pos ⟨h1, h2⟩]

theorem go_lead3 (b : Nat) (bs : List Nat) (h1 : 0xE0 ≤ b) (h2 : b ≤ 0xEF) :
    utf8Go 0 0 0 0 (b :: bs) =
      utf8Go 2 (b - 0xE0) (if b = 0xE0 then 0xA0 else 0x80)
        (if b = 0xED then 0x9F else 0xBF) bs := by
  by_cases hE0 : b = 0xE0
  · subst hE0; rw [utf8Go]; norm_num
  by_cases hED : b = 0xED
  · subst hED; rw [utf8Go]; norm_num
  rw [if_neg hE0, if_neg hED, utf8Go, if_neg (by omega), if_neg (by omega),
    if_neg hE0]
  by_cases hEC : b ≤ 0xEC
  · rw [if_pos ⟨by omega, hEC⟩]
  · rw [if_neg (by omega), if_neg hED, if_pos ⟨by omega, h2⟩]

theorem go_lead4 (b : Nat) (bs : List Nat) (h1 : 0xF0 ≤ b) (h2 : b ≤ 0xF4) :
    utf8Go 0 0 0 0 (b :: bs) =
      utf8Go 3 (b - 0xF0) (if b = 0xF0 then 0x90 else 0x80)
        (if b = 0xF4 then 0x8F else 0xBF) bs := by
  by_cases hF0 : b = 0xF0
  · subst hF0; rw [utf8Go]; norm_num
  by_cases hF4 : b = 0xF4
  · subst hF4; rw [utf8Go]; norm_num
  rw [if_neg hF0, if_neg hF4, utf8Go, if_neg (by omega), if_neg (by omega),
    if_neg (by omega), if_neg (by omega), if_neg (by omega),
    if_neg (by omega), if_neg hF0, if_pos ⟨by omega, by omega⟩]

theorem go_cont_mid (k a lo hi b : Nat) (bs : List Nat)
    (h1 : lo ≤ b) (h2 : b ≤ hi) :
    utf8Go (k + 2) a lo hi (b :: bs) =
      utf8Go (k + 1) (a * 64 + (b - 0x80)) 0x80 0xBF bs := by
  rw [utf8Go, if_pos ⟨h1, h2⟩]

theorem go_cont_last (a lo hi b : Nat) (bs : List Nat)
    (h1 : lo ≤ b) (h2 : b ≤ hi) :
    utf8Go 1 a lo hi (b :: bs) =
      Char.ofNat (a * 64 + (b - 0x80)) :: utf8Go 0 0 0 0 bs := by
  rw [utf8Go, if_pos ⟨h1, h2⟩]

theorem utf8_decode_encode_cons (c : Char) (bs : List Nat) :
    utf8DecodeReplace (utf8EncodeChar c ++ bs) = c :: utf8DecodeReplace bs := by
  have hv : c.toNat < 0xD800 ∨ (0xE000 ≤ c.toNat ∧ c.toNat < 0x110000) := c.valid
  simp only [utf8DecodeReplace, utf8EncodeChar]
  by_cases h1 : c.toNat < 0x80
  · rw [if_pos h1]
    simp only [List.cons_append, List.nil_append]
    rw [go_ascii _ _ h1, Char.ofNat_toNat]
  · rw [if_neg h1]
    by_cases h2 : c.toNat < 0x800
    · rw [if_pos h2]
      simp only [List.cons_append, List.nil_append]
      rw [go_lead2 _ _ (by omega) (by omega),
        go_cont_last _ _ _ _ _ (by omega) (by omega)]
      have ha : (0xC0 + c.toNat / 64 - 0xC0) * 64 + (0x80 + c.toNat % 64 - 0x80)
          = c.toNat := by omega
      rw [ha, Char.ofNat_toNat]
    · rw [if_neg h2]
      by_cases h3 : c.toNat < 0x10000
      · rw [if_pos h3]
        simp only [List.cons_append, List.nil_append]
        rw [go_lead3 _ _ (by omega) (by omega)]
        have hlo : (if 0xE0 + c.toNat / 4096 = 0xE0 then 0xA0 else 0x80) ≤
            0x80 + c.toNat / 64 % 64 := by
          split <;> omega
        have hhi : 0x80 + c.toNat / 64 % 64 ≤
            (if 0xE0 + c.toNat / 4096 = 0xED then 0x9F else 0xBF) := by
          rcases hv with h | ⟨h, h'⟩ <;> split <;> omega
        rw [go_cont_mid 0 _ _ _ _ _ hlo hhi,
          go_cont_last _ _ _ _ _ (by omega) (by omega)]
        have ha : ((0xE0 + c.toNat / 4096 - 0xE0) * 64 +
            (0x80 + c.toNat / 64 % 64 - 0x80)) * 64 +
            (0x80 + c.toNat % 64 - 0x80) = c.toNat := by omega
        rw [ha, Char.ofNat_toNat]
      · rw [if_neg h3]
        have h4 : c.toNat < 0x110000 := by
          rcases hv with h | ⟨h, h'⟩ <;> omega
        simp only [List.cons_append, List.nil_append]
        rw [go_lead4 _ _ (by omega) (by omega)]
        have hlo : (if 0xF0 + c.toNat / 262144 = 0xF0 then 0x90 else 0x80) ≤
            0x80 + c.toNat / 4096 % 64 := by
          split <;> omega
        have hhi : 0x80 + c.toNat / 4096 % 64 ≤
            (if 0xF0 + c.toNat / 262144 = 0xF4 then 0x8F else 0xBF) := by
          split <;> omega
        rw [go_cont_mid 1 _ _ _ _ _ hlo hhi,
          go_cont_mid 0 _ _ _ _ _ (by omega) (by omega),
          go_cont_last _ _ _ _ _ (by omega) (by omega)]
        have ha : (((0xF0 + c.toNat / 262144 - 0xF0) * 64 +
            (0x80 + c.toNat / 4096 % 64 - 0x80)) * 64 +
            (0x80 + c.toNat / 64 % 64 - 0x80)) * 64 +
            (0x80 + c.toNat % 64 - 0x80) = c.toNat := by omega
        rw [ha, Char.ofNat_toNat]

theorem utf8_decode_bytes (s : List Char) :
    utf8DecodeReplace (utf8Bytes s) = s := by
  induction s with
  | nil => rfl
  | cons c tl ih =>
    rw [utf8Bytes, List.flatMap_cons, utf8_decode_encode_cons]
    rw [utf8Bytes] at ih
    rw [ih]

/-! ## URL canonicalizer lemmas: quote/unquote round trip -/

theorem hexVal_hexDigitUpper (d : Nat) (hd : d < 16) :
    hexVal? (hexDigitUpper d) = some d := by
  interval_cases d <;> decide

theorem char_ne_of_toNat_ne (c d : Char) (h : c.toNat ≠ d.toNat) : c ≠ d :=
  fun he => h (he ▸ rfl)

theorem toNat_ofNat_lt (n : Nat) (h : n < 0xD800) : (Char.ofNat n).toNat = n := by
  have hv : n.isValidChar := Or.inl h
  simp [Char.ofNat, hv, Char.ofNatAux, Char.toNat, UInt32.ofNat', UInt32.toNat]

theorem utf8EncodeChar_lt_256 (c : Char) : ∀ b ∈ utf8EncodeChar c, b < 256 := by
  have hv : c.toNat < 0xD800 ∨ (0xE000 ≤ c.toNat ∧ c.toNat < 0x110000) := c.valid
  intro b hb
  have h4 : c.toNat < 0x110000 := by rcases hv with h | ⟨h, h'⟩ <;> omega
  simp only [utf8EncodeChar] at hb
  split at hb
  · simp at hb; omega
  · split at hb
    · simp at hb; rcases hb with rfl | rfl <;> omega
    · split at hb
      · simp at hb; rcases hb with rfl | rfl | rfl <;> omega
      · simp at hb; rcases hb with rfl | rfl | rfl | rfl <;> omega

theorem utf8Bytes_lt_256 (s : List Char) : ∀ b ∈ utf8Bytes s, b < 256 := by
  intro b hb
  rw [utf8Bytes, List.mem_flatMap] at hb
  obtain ⟨c, -, hc⟩ := hb
  exact utf8EncodeChar_lt_256 c b hc

theorem unquoteTokens_cons_plain (c : Char) (r : List Char) (h : ¬ c = '%') :
    unquoteTokens (c :: r) = tokChar c :: unquoteTokens r := by
  rw [unquoteTokens.eq_def]
  dsimp only
  rw [if_neg h]

theorem unquoteTokens_pct (h1 h2 : Char) (tl : List Char) (a b : Nat)
    (ha : hexVal? h1 = some a) (hb : hexVal? h2 = some b) :
    unquoteTokens ('%' :: h1 :: h2 :: tl) =
      .byte (16 * a + b) :: unquoteTokens tl := by
  rw [unquoteTokens.eq_def]
  dsimp only
  rw [if_pos rfl, ha, hb]

theorem unquoteTokens_quoted (bs : List Nat) (safe : List Char)
    (hb : ∀ b ∈ bs, b < 256)
    (hsafe : ∀ c ∈ safe, c.toNat < 0x80 ∧ c ≠ '%') :
    unquoteTokens (bs.flatMap (fun b =>
      if alwaysSafeByte b ∨ (b < 0x80 ∧ Char.ofNat b ∈ safe) then [Char.ofNat b]
      else pctEncodeByte b)) = bs.map UnqTok.byte := by
  induction bs with
  | nil => rfl
  | cons b tl ih =>
    have hb256 : b < 256 := hb b (List.mem_cons_self b tl)
    have ihtl := ih (fun x hx => hb x (List.mem_cons_of_mem b hx))
    rw [List.flatMap_cons]
    by_cases hk : alwaysSafeByte b = true ∨ (b < 0x80 ∧ Char.ofNat b ∈ safe)
    · rw [if_pos hk]
      have hb80 : b < 0x80 := by
        rcases hk with h | ⟨h, -⟩
        · simp only [alwaysSafeByte, decide_eq_true_eq] at h
          omega
        · exact h
      have hbn : (Char.ofNat b).toNat = b := toNat_ofNat_lt b (by omega)
      have hnp : ¬ Char.ofNat b = '%' := by
        intro he
        have hb25 : b = 0x25 := by
          have := congrArg Char.toNat he
          rw [hbn] at this
          simpa using this
        subst hb25
        rcases hk with h | ⟨-, h⟩
        · simp [alwaysSafeByte] at h
        · have h2 := hsafe _ h
          exact h2.2 (by rw [← he])
      rw [List.cons_append, List.nil_append,
        unquoteTokens_cons_plain _ _ hnp, ihtl]
      rw [tokChar, if_pos (by rw [hbn]; exact hb80), hbn, List.map_cons]
    · rw [if_neg hk, pctEncodeByte]
      rw [List.cons_append, List.cons_append, List.cons_append, List.nil_append,
        unquoteTokens_pct _ _ _ _ _
          (hexVal_hexDigitUpper _ (Nat.div_lt_of_lt_mul (by omega)))
          (hexVal_hexDigitUpper _ (Nat.mod_lt _ (by norm_num))), ihtl]
      have : 16 * (b / 16) + b % 16 = b := by omega
      rw [this, List.map_cons]

theorem collapse_bytes (bs acc : List Nat) :
    collapseTokens acc (bs.map UnqTok.byte) =
      utf8DecodeReplace (acc.reverse ++ bs) := by
  induction bs generalizing acc with
  | nil => rw [List.map_nil, collapseTokens, List.append_nil]
  | cons b tl ih =>
    rw [List.map_cons, collapseTokens, ih]
    congr 1
    simp

theorem pyUnquote_pyQuote (s safe : List Char)
    (hsafe : ∀ c ∈ safe, c.toNat < 0x80 ∧ c ≠ '%') :
    pyUnquote (pyQuote s safe) = s := by
  rw [pyUnquote, pyQuote, unquoteTokens_quoted _ _ (utf8Bytes_lt_256 s) hsafe,
    collapse_bytes, List.reverse_nil, List.nil_append, utf8_decode_bytes]

theorem mem_pyQuote (c : Char) (s safe : List Char)
    (hsafe : ∀ x ∈ safe, x.toNat < 0x80) (h : c ∈ pyQuote s safe) :
    c ∈ safe ∨ (0x21 ≤ c.toNat ∧ c.toNat ≤ 0x7E ∧ c.toNat ≠ 0x2B ∧
      c.toNat ≠ 0x26 ∧ c.toNat ≠ 0x3D ∧ c.toNat ≠ 0x23 ∧ c.toNat ≠ 0x3B) := by
  rw [pyQuote, List.mem_flatMap] at h
  obtain ⟨b, hbm, hc⟩ := h
  have hb256 : b < 256 := utf8Bytes_lt_256 s b hbm
  by_cases hk : alwaysSafeByte b = true ∨ (b < 0x80 ∧ Char.ofNat b ∈ safe)
  · rw [if_pos hk] at hc
    simp only [List.mem_singleton] at hc
    subst hc
    rcases hk with h | ⟨hb80, hin⟩
    · right
      have hbn : (Char.ofNat b).toNat = b := by
        simp only [alwaysSafeByte, decide_eq_true_eq] at h
        exact toNat_ofNat_lt b (by omega)
      simp only [alwaysSafeByte, decide_eq_true_eq] at h
      rw [hbn]
      omega
    · exact Or.inl hin
  · rw [if_neg hk, pctEncodeByte] at hc
    right
    have hd1 : b / 16 < 16 := Nat.div_lt_of_lt_mul (by omega)
    have hd2 : b % 16 < 16 := Nat.mod_lt _ (by norm_num)
    have hhex : ∀ n : Nat, n < 16 → 0x21 ≤ (hexDigitUpper n).toNat ∧
        (hexDigitUpper n).toNat ≤ 0x7E ∧ (hexDigitUpper n).toNat ≠ 0x2B ∧
        (hexDigitUpper n).toNat ≠ 0x26 ∧ (hexDigitUpper n).toNat ≠ 0x3D ∧
        (hexDigitUpper n).toNat ≠ 0x23 ∧ (hexDigitUpper n).toNat ≠ 0x3B := by
      intro n hn
      rw [hexDigitUpper]
      by_cases h10 : n < 10
      · rw [if_pos h10, toNat_ofNat_lt _ (by omega)]
        omega
      · rw [if_neg h10, toNat_ofNat_lt _ (by omega)]
        omega
    simp only [List.mem_cons, List.not_mem_nil, or_false] at hc
    rcases hc with rfl | rfl | rfl
    · decide
    · exact hhex _ hd1
    · exact hhex _ hd2

theorem mem_quotePlus (c : Char) (v : List Char) (h : c ∈ quotePlus v) :
    0x21 ≤ c.toNat ∧ c.toNat ≤ 0x7E ∧ c.toNat ≠ 0x26 ∧ c.toNat ≠ 0x3D ∧
      c.toNat ≠ 0x23 ∧ c.toNat ≠ 0x3B := by
  rw [quotePlus] at h
  by_cases hsp : ' ' ∈ v
  · rw [if_pos hsp, List.mem_map] at h
    obtain ⟨c0, hc0, hc⟩ := h
    rcases mem_pyQuote c0 v [' '] (by intro x hx; simp at hx; subst hx; decide)
        hc0 with hin | hfacts
    · simp only [List.mem_singleton] at hin
      subst hin
      rw [if_pos rfl] at hc
      subst hc
      decide
    · have hne : ¬ c0 = ' ' := by
        intro he; subst he; simp at hfacts
      rw [if_neg hne] at hc
      subst hc
      exact ⟨hfacts.1, hfacts.2.1, hfacts.2.2.2.1, hfacts.2.2.2.2.1,
        hfacts.2.2.2.2.2.1, hfacts.2.2.2.2.2.2⟩
  · rw [if_neg hsp] at h
    rcases mem_pyQuote c v [] (by simp) h with hin | hfacts
    · simp at hin
    · exact ⟨hfacts.1, hfacts.2.1, hfacts.2.2.2.1, hfacts.2.2.2.2.1,
      hfacts.2.2.2.2.2.1, hfacts.2.2.2.2.2.2⟩

theorem unquotePlus_quotePlus (v : List Char) :
    unquotePlus (quotePlus v) = v := by
  rw [unquotePlus, quotePlus]
  by_cases hsp : ' ' ∈ v
  · rw [if_pos hsp, List.map_map]
    have hmap : ∀ c0 ∈ pyQuote v [' '],
        ((fun c => if c = '+' then ' ' else c) ∘
          (fun c => if c = ' ' then '+' else c)) c0 = id c0 := by
      intro c0 hc0
      rcases mem_pyQuote c0 v [' '] (by intro x hx; simp at hx; subst hx; decide)
          hc0 with hin | hfacts
      · simp only [List.mem_singleton] at hin
        subst hin
        simp
      · have h1 : ¬ c0 = ' ' := by intro he; subst he; simp at hfacts
        have h2 : ¬ c0 = '+' := by
          intro he; subst he
          exact hfacts.2.2.1 rfl
        simp [Function.comp, if_neg h1, if_neg h2]
    rw [List.map_congr_left hmap, List.map_id]
    exact pyUnquote_pyQuote v [' ']
      (by intro x hx; simp at hx; subst hx; exact ⟨by decide, by decide⟩)
  · rw [if_neg hsp]
    have hmap : ∀ c0 ∈ pyQuote v [],
        (fun c => if c = '+' then ' ' else c) c0 = id c0 := by
      intro c0 hc0
      rcases mem_pyQuote c0 v [] (by simp) hc0 with hin | hfacts
      · simp at hin
      · have h2 : ¬ c0 = '+' := by
          intro he; subst he
          exact hfacts.2.2.1 rfl
        simp [if_neg h2]
    rw [List.map_congr_left hmap, List.map_id]
    exact pyUnquote_pyQuote v [] (by simp)

/-! ## URL canonicalizer lemmas: plain keys and non-emptiness -/

theorem pyQuote_all_safe (k : List Char)
    (h : ∀ c ∈ k, alwaysSafeByte c.toNat = true) : pyQuote k [] = k := by
  induction k with
  | nil => rfl
  | cons c tl ih =>
    have hc := h c (List.mem_cons_self c tl)
    have hc80 : c.toNat < 0x80 := by
      simp only [alwaysSafeByte, decide_eq_true_eq] at hc
      omega
    have he : utf8EncodeChar c = [c.toNat] := by
      rw [utf8EncodeChar, if_pos hc80]
    have ih2 := ih (fun x hx => h x (List.mem_cons_of_mem c hx))
    rw [pyQuote, utf8Bytes] at ih2 ⊢
    rw [List.flatMap_cons, he, List.flatMap_append, ih2]
    rw [List.flatMap_cons, List.flatMap_nil, List.append_nil,
      if_pos (Or.inl hc), Char.ofNat_toNat, List.cons_append, List.nil_append]

theorem quotePlus_plainKey (k : List Char) (h : plainKey k = true) :
    quotePlus k = k := by
  have h2 : k ≠ [] ∧ ∀ c ∈ k, alwaysSafeByte c.toNat = true := by
    simpa [plainKey, List.all_eq_true] using h
  have hsp : ' ' ∉ k := fun hm => by
    have := h2.2 ' ' hm
    simp [alwaysSafeByte] at this
  rw [quotePlus, if_neg hsp, pyQuote_all_safe k h2.2]

theorem unquotePlus_plainKey (k : List Char) (h : plainKey k = true) :
    unquotePlus k = k := by
  have h1 := unquotePlus_quotePlus k
  rwa [quotePlus_plainKey k h] at h1

theorem utf8Go_ne_nil (l : List Nat) : ∀ (k a lo hi : Nat),
    (k ≠ 0 ∨ l ≠ []) → utf8Go k a lo hi l ≠ [] := by
  induction l with
  | nil =>
    intro k a lo hi hk
    cases k with
    | zero =>
      rcases hk with h | h
      · exact absurd rfl h
      · exact absurd rfl h
    | succ k' => rw [utf8Go]; simp
  | cons b rest ih =>
    intro k a lo hi hk
    cases k with
    | zero =>
      rw [utf8Go]
      repeat' split
      all_goals first
        | exact ih _ _ _ _ (Or.inl (by omega))
        | simp
    | succ k' =>
      cases k' with
      | zero =>
        rw [utf8Go]
        split <;> simp
      | succ k2 =>
        rw [utf8Go]
        split
        · exact ih _ _ _ _ (Or.inl (by omega))
        · simp

theorem utf8DecodeReplace_ne_nil (bs : List Nat) (h : bs ≠ []) :
    utf8DecodeReplace bs ≠ [] := utf8Go_ne_nil bs 0 0 0 0 (Or.inr h)

theorem unquoteTokens_ne_nil (c : Char) (r : List Char) :
    unquoteTokens (c :: r) ≠ [] := by
  by_cases hc : c = '%'
  · subst hc
    rw [unquoteTokens.eq_def]
    dsimp only
    rw [if_pos rfl]
    cases r with
    | nil => simp
    | cons h1 tl1 =>
      cases tl1 with
      | nil => simp
      | cons h2 tl2 =>
        cases hx1 : hexVal? h1 <;> cases hx2 : hexVal? h2 <;> simp [hx1, hx2]
  · rw [unquoteTokens_cons_plain c r hc]; simp

theorem collapseTokens_ne_nil (toks : List UnqTok) : ∀ (acc : List Nat),
    (toks ≠ [] ∨ acc ≠ []) → collapseTokens acc toks ≠ [] := by
  induction toks with
  | nil =>
    intro acc h
    rcases h with h | h
    · exact absurd rfl h
    · rw [collapseTokens]
      exact utf8DecodeReplace_ne_nil _ (by simpa using h)
  | cons t tl ih =>
    intro acc h
    cases t with
    | byte b => rw [collapseTokens]; exact ih (b :: acc) (Or.inr (by simp))
    | chr c => rw [collapseTokens]; simp

theorem pyUnquote_ne_nil (s : List Char) (h : s ≠ []) : pyUnquote s ≠ [] := by
  rw [pyUnquote]
  cases s with
  | nil => exact absurd rfl h
  | cons c r => exact collapseTokens_ne_nil _ _ (Or.inl (unquoteTokens_ne_nil c r))

theorem unquotePlus_ne_nil (s : List Char) (h : s ≠ []) :
    unquotePlus s ≠ [] := by
  rw [unquotePlus]
  apply pyUnquote_ne_nil
  cases s with
  | nil => exact absurd rfl h
  | cons c r => simp

theorem quotePlus_ne_nil (v : List Char) (h : v ≠ []) : quotePlus v ≠ [] := by
  intro hq
  have h1 := unquotePlus_quotePlus v
  rw [hq] at h1
  exact h (by rw [← h1]; rfl)

/-! ## URL canonicalizer lemmas: parse_qs/urlencode round trip -/

theorem mem_joinChar (sep : Char) (c : Char) (parts : List (List Char))
    (h : c ∈ joinChar sep parts) : c = sep ∨ ∃ p ∈ parts, c ∈ p := by
  induction parts with
  | nil => simp [joinChar] at h
  | cons x tl ih =>
    cases tl with
    | nil =>
      rw [joinChar] at h
      exact Or.inr ⟨x, by simp, h⟩
    | cons y ts =>
      rw [joinChar] at h
      rcases List.mem_append.mp h with h1 | h2
      · exact Or.inr ⟨x, by simp, h1⟩
      · rcases List.mem_cons.mp h2 with rfl | h3
        · exact Or.inl rfl
        · rcases ih h3 with h4 | ⟨p, hp, hcp⟩
          · exact Or.inl h4
          · exact Or.inr ⟨p, List.mem_cons_of_mem x hp, hcp⟩

theorem mem_plainKey_facts (c : Char) (k : List Char)
    (hk : plainKey k = true) (h : c ∈ k) :
    0x21 ≤ c.toNat ∧ c.toNat ≤ 0x7E ∧ c.toNat ≠ 0x26 ∧ c.toNat ≠ 0x3D ∧
      c.toNat ≠ 0x23 ∧ c.toNat ≠ 0x3B := by
  have h2 : k ≠ [] ∧ ∀ x ∈ k, alwaysSafeByte x.toNat = true := by
    simpa [plainKey, List.all_eq_true] using hk
  have := h2.2 c h
  simp only [alwaysSafeByte, decide_eq_true_eq] at this
  omega

theorem mem_urlencode (c : Char) (d : List (List Char × List (List Char)))
    (hk : ∀ kv ∈ d, plainKey kv.1 = true) (h : c ∈ urlencode d) :
    0x21 ≤ c.toNat ∧ c.toNat ≤ 0x7E ∧ c.toNat ≠ 0x23 := by
  rw [urlencode] at h
  rcases mem_joinChar _ _ _ h with rfl | ⟨p, hp, hcp⟩
  · refine ⟨by decide, by decide, by decide⟩
  · rw [List.mem_flatMap] at hp
    obtain ⟨kv, hkv, hpm⟩ := hp
    rw [List.mem_map] at hpm
    obtain ⟨v, -, rfl⟩ := hpm
    rcases List.mem_append.mp hcp with h1 | h2
    · obtain ⟨c1, c2, -, -, c5, -⟩ :=
        mem_plainKey_facts c kv.1 (hk kv hkv)
          (by rwa [quotePlus_plainKey kv.1 (hk kv hkv)] at h1)
      exact ⟨c1, c2, c5⟩
    · rcases List.mem_cons.mp h2 with rfl | h3
      · refine ⟨by decide, by decide, by decide⟩
      · obtain ⟨c1, c2, -, -, c5, -⟩ := mem_quotePlus c v h3
        exact ⟨c1, c2, c5⟩

theorem filterMap_pairs (k : List Char) (vs : List (List Char))
    (hk : plainKey k = true) (hv : ∀ v ∈ vs, v ≠ []) :
    ((vs.map (fun v => quotePlus k ++ '=' :: quotePlus v)).filterMap
      (fun nv =>
        if nv = [] then none
        else
          match splitFirst '=' nv with
          | none => none
          | some (n, v) =>
            if v = [] then none else some (unquotePlus n, unquotePlus v))) =
      vs.map (fun v => (k, v)) := by
  induction vs with
  | nil => rfl
  | cons v tl ih =>
    rw [List.map_cons, List.filterMap_cons]
    have hne : ¬ (quotePlus k ++ '=' :: quotePlus v) = [] := by simp
    have hsplit : splitFirst '=' (quotePlus k ++ '=' :: quotePlus v) =
        some (quotePlus k, quotePlus v) := by
      apply splitFirst_append_cons
      intro hm
      exact (mem_quotePlus _ _ hm).2.2.2.1 rfl
    rw [if_neg hne, hsplit]
    dsimp only
    rw [if_neg (quotePlus_ne_nil v (hv v (List.mem_cons_self v tl)))]
    dsimp only
    rw [unquotePlus_quotePlus k, unquotePlus_quotePlus v,
      ih (fun x hx => hv x (List.mem_cons_of_mem v hx)), List.map_cons]

theorem filterMap_parts (d : List (List Char × List (List Char)))
    (hk : ∀ kv ∈ d, plainKey kv.1 = true)
    (hv : ∀ kv ∈ d, kv.2 ≠ [] ∧ ∀ v ∈ kv.2, v ≠ []) :
    ((d.flatMap (fun kv => kv.2.map
        (fun v => quotePlus kv.1 ++ '=' :: quotePlus v))).filterMap
      (fun nv =>
        if nv = [] then none
        else
          match splitFirst '=' nv with
          | none => none
          | some (n, v) =>
            if v = [] then none else some (unquotePlus n, unquotePlus v))) =
      d.flatMap (fun kv => kv.2.map (fun v => (kv.1, v))) := by
  induction d with
  | nil => rfl
  | cons kv tl ih =>
    rw [List.flatMap_cons, List.filterMap_append,
      filterMap_pairs kv.1 kv.2 (hk kv (List.mem_cons_self kv tl))
        ((hv kv (List.mem_cons_self kv tl)).2),
      ih (fun x hx => hk x (List.mem_cons_of_mem kv hx))
        (fun x hx => hv x (List.mem_cons_of_mem kv hx)),
      List.flatMap_cons]

theorem parse_qsl_urlencode (d : List (List Char × List (List Char)))
    (hk : ∀ kv ∈ d, plainKey kv.1 = true)
    (hv : ∀ kv ∈ d, kv.2 ≠ [] ∧ ∀ v ∈ kv.2, v ≠ []) :
    parse_qsl (urlencode d) =
      d.flatMap (fun kv => kv.2.map (fun v => (kv.1, v))) := by
  cases d with
  | nil => rfl
  | cons kv0 dtl =>
    have hamp : ∀ p ∈ ((kv0 :: dtl).flatMap
        (fun p => p.2.map (fun v => quotePlus p.1 ++ '=' :: quotePlus v))),
        '&' ∉ p := by
      intro p hp hmem
      rw [List.mem_flatMap] at hp
      obtain ⟨kv, hkv, hpm⟩ := hp
      rw [List.mem_map] at hpm
      obtain ⟨v, -, rfl⟩ := hpm
      rcases List.mem_append.mp hmem with h1 | h2
      · exact (mem_plainKey_facts '&' kv.1 (hk kv hkv)
          (by rwa [quotePlus_plainKey kv.1 (hk kv hkv)] at h1)).2.2.1 (by decide)
      · rcases List.mem_cons.mp h2 with he | h3
        · exact absurd (congrArg Char.toNat he) (by decide)
        · exact (mem_quotePlus '&' v h3).2.2.1 (by decide)
    have hne : ((kv0 :: dtl).flatMap
        (fun p => p.2.map (fun v => quotePlus p.1 ++ '=' :: quotePlus v))) ≠
        [] := by
      obtain ⟨k0, vs0⟩ := kv0
      obtain ⟨hvs0, -⟩ := hv (k0, vs0) (List.mem_cons_self _ _)
      cases vs0 with
      | nil => exact absurd rfl hvs0
      | cons v0 vr => simp
    rw [parse_qsl, urlencode, splitAll_joinChar _ _ hne hamp]
    exact filterMap_parts (kv0 :: dtl) hk hv

theorem qsInsert_absent (k v : List Char)
    (acc : List (List Char × List (List Char)))
    (h : ∀ kv ∈ acc, kv.1 ≠ k) :
    qsInsert k v acc = acc ++ [(k, [v])] := by
  induction acc with
  | nil => rfl
  | cons kv tl ih =>
    obtain ⟨k0, vs0⟩ := kv
    rw [qsInsert, if_neg (h (k0, vs0) (List.mem_cons_self _ _)),
      ih (fun x hx => h x (List.mem_cons_of_mem _ hx)), List.cons_append]

theorem qsInsert_last (k v : List Char) (ws : List (List Char))
    (acc : List (List Char × List (List Char)))
    (h : ∀ kv ∈ acc, kv.1 ≠ k) :
    qsInsert k v (acc ++ [(k, ws)]) = acc ++ [(k, ws ++ [v])] := by
  induction acc with
  | nil => simp [qsInsert]
  | cons kv tl ih =>
    obtain ⟨k0, vs0⟩ := kv
    rw [List.cons_append, qsInsert,
      if_neg (h (k0, vs0) (List.mem_cons_self _ _)),
      ih (fun x hx => h x (List.mem_cons_of_mem _ hx)), List.cons_append]

theorem foldl_qsInsert_vals (k : List Char) (vs : List (List Char))
    (ws : List (List Char)) (acc : List (List Char × List (List Char)))
    (h : ∀ kv ∈ acc, kv.1 ≠ k) :
    (vs.map (fun v => (k, v))).foldl (fun a p => qsInsert p.1 p.2 a)
      (acc ++ [(k, ws)]) = acc ++ [(k, ws ++ vs)] := by
  induction vs generalizing ws with
  | nil => simp
  | cons v tl ih =>
    rw [List.map_cons, List.foldl_cons]
    have hstep : qsInsert k v (acc ++ [(k, ws)]) = acc ++ [(k, ws ++ [v])] :=
      qsInsert_last k v ws acc h
    rw [hstep, ih (ws ++ [v])]
    simp

theorem foldl_qsInsert_flat (d : List (List Char × List (List Char))) :
    ∀ (acc : List (List Char × List (List Char))),
    (∀ kv ∈ d, ∀ kv' ∈ acc, kv'.1 ≠ kv.1) →
    List.Pairwise (fun a b => a.1 ≠ b.1) d →
    (∀ kv ∈ d, kv.2 ≠ []) →
    (d.flatMap (fun kv => kv.2.map (fun v => (kv.1, v)))).foldl
      (fun a p => qsInsert p.1 p.2 a) acc = acc ++ d := by
  induction d with
  | nil => intro acc _ _ _; simp
  | cons kv tl ih =>
    intro acc hdisj hpw hvs
    obtain ⟨k, vs⟩ := kv
    rw [List.flatMap_cons, List.foldl_append]
    cases vs with
    | nil => exact absurd rfl (hvs (k, []) (List.mem_cons_self _ _))
    | cons v0 vrest =>
      rw [List.map_cons, List.foldl_cons]
      have hk : ∀ kv' ∈ acc, kv'.1 ≠ k :=
        fun kv' h' => hdisj (k, v0 :: vrest) (List.mem_cons_self _ _) kv' h'
      have hstep : qsInsert k v0 acc = acc ++ [(k, [v0])] :=
        qsInsert_absent k v0 acc hk
      rw [hstep, foldl_qsInsert_vals k vrest [v0] acc hk]
      simp only [List.singleton_append]
      rw [List.pairwise_cons] at hpw
      rw [ih (acc ++ [(k, v0 :: vrest)]) ?hd hpw.2
        (fun x hx => hvs x (List.mem_cons_of_mem _ hx))]
      · simp
      case hd =>
        intro kv2 hkv2 kv' hkv'
        rcases List.mem_append.mp hkv' with h1 | h2
        · exact hdisj kv2 (List.mem_cons_of_mem _ hkv2) kv' h1
        · simp only [List.mem_singleton] at h2
          subst h2
          exact hpw.1 kv2 hkv2

theorem parse_qs_urlencode (d : List (List Char × List (List Char)))
    (hk : ∀ kv ∈ d, plainKey kv.1 = true)
    (hnodup : List.Pairwise (fun a b => a.1 ≠ b.1) d)
    (hv : ∀ kv ∈ d, kv.2 ≠ [] ∧ ∀ v ∈ kv.2, v ≠ []) :
    parse_qs (urlencode d) = d := by
  rw [parse_qs, parse_qsl_urlencode d hk hv,
    foldl_qsInsert_flat d [] (by simp) hnodup (fun kv hkv => (hv kv hkv).1)]
  simp

theorem parse_qsl_value_ne_nil (qs : List Char) :
    ∀ kv ∈ parse_qsl qs, kv.2 ≠ [] := by
  intro kv h
  rw [parse_qsl, List.mem_filterMap] at h
  obtain ⟨nv, -, hf⟩ := h
  by_cases hnv : nv = []
  · rw [if_pos hnv] at hf
    simp at hf
  · rw [if_neg hnv] at hf
    cases hsp : splitFirst '=' nv with
    | none => rw [hsp] at hf; simp at hf
    | some p =>
      obtain ⟨n, v⟩ := p
      rw [hsp] at hf
      dsimp only at hf
      by_cases hv0 : v = []
      · rw [if_pos hv0] at hf; simp at hf
      · rw [if_neg hv0] at hf
        have h2 : (unquotePlus n, unquotePlus v) = kv := by simpa using hf
        subst h2
        exact unquotePlus_ne_nil v hv0

theorem qsInsert_values (k : List Char) (v : List Char)
    (acc : List (List Char × List (List Char)))
    (hacc : ∀ kv ∈ acc, kv.2 ≠ [] ∧ ∀ x ∈ kv.2, x ≠ []) (hvne : v ≠ []) :
    ∀ kv ∈ qsInsert k v acc, kv.2 ≠ [] ∧ ∀ x ∈ kv.2, x ≠ [] := by
  induction acc with
  | nil =>
    intro kv h
    rw [qsInsert] at h
    simp only [List.mem_singleton] at h
    subst h
    exact ⟨by simp, by simpa using hvne⟩
  | cons kv0 tl ih =>
    obtain ⟨k0, vs0⟩ := kv0
    intro kv h
    rw [qsInsert] at h
    by_cases hk0 : k0 = k
    · rw [if_pos hk0] at h
      rcases List.mem_cons.mp h with rfl | h2
      · obtain ⟨h3, h4⟩ := hacc (k0, vs0) (List.mem_cons_self _ _)
        refine ⟨by simp, ?_⟩
        intro x hx
        rcases List.mem_append.mp hx with h5 | h5
        · exact h4 x h5
        · simp only [List.mem_singleton] at h5
          subst h5
          exact hvne
      · exact hacc kv (List.mem_cons_of_mem _ h2)
    · rw [if_neg hk0] at h
      rcases List.mem_cons.mp h with rfl | h2
      · exact hacc (k0, vs0) (List.mem_cons_self _ _)
      · exact ih (fun x hx => hacc x (List.mem_cons_of_mem _ hx)) kv h2

theorem foldl_qsInsert_values (l : List (List Char × List Char)) :
    ∀ (acc : List (List Char × List (List Char))),
    (∀ p ∈ l, p.2 ≠ []) →
    (∀ kv ∈ acc, kv.2 ≠ [] ∧ ∀ x ∈ kv.2, x ≠ []) →
    ∀ kv ∈ l.foldl (fun a p => qsInsert p.1 p.2 a) acc,
      kv.2 ≠ [] ∧ ∀ x ∈ kv.2, x ≠ [] := by
  induction l with
  | nil => intro acc _ hacc kv h; exact hacc kv h
  | cons p tl ih =>
    intro acc hl hacc kv h
    rw [List.foldl_cons] at h
    exact ih (qsInsert p.1 p.2 acc)
      (fun x hx => hl x (List.mem_cons_of_mem _ hx))
      (qsInsert_values p.1 p.2 acc hacc (hl p (List.mem_cons_self _ _)))
      kv h

theorem parse_qs_values (qs : List Char) :
    ∀ kv ∈ parse_qs qs, kv.2 ≠ [] ∧ ∀ x ∈ kv.2, x ≠ [] := by
  rw [parse_qs]
  exact foldl_qsInsert_values (parse_qsl qs) []
    (parse_qsl_value_ne_nil qs) (by simp)

theorem mem_qsInsert_key (k v : List Char)
    (acc : List (List Char × List (List Char))) :
    ∀ kv ∈ qsInsert k v acc, kv.1 = k ∨ ∃ kv0 ∈ acc, kv.1 = kv0.1 := by
  induction acc with
  | nil =>
    intro kv h
    rw [qsInsert] at h
    simp only [List.mem_singleton] at h
    subst h
    exact Or.inl rfl
  | cons kv0 tl ih =>
    obtain ⟨k0, vs0⟩ := kv0
    intro kv h
    rw [qsInsert] at h
    by_cases hk0 : k0 = k
    · rw [if_pos hk0] at h
      rcases List.mem_cons.mp h with rfl | h2
      · exact Or.inr ⟨(k0, vs0), List.mem_cons_self _ _, rfl⟩
      · exact Or.inr ⟨kv, List.mem_cons_of_mem _ h2, rfl⟩
    · rw [if_neg hk0] at h
      rcases List.mem_cons.mp h with rfl | h2
      · exact Or.inr ⟨(k0, vs0), List.mem_cons_self _ _, rfl⟩
      · rcases ih kv h2 with h3 | ⟨kv1, hkv1, h4⟩
        · exact Or.inl h3
        · exact Or.inr ⟨kv1, List.mem_cons_of_mem _ hkv1, h4⟩

theorem qsInsert_pairwise (k v : List Char)
    (acc : List (List Char × List (List Char)))
    (h : List.Pairwise (fun a b => a.1 ≠ b.1) acc) :
    List.Pairwise (fun a b => a.1 ≠ b.1) (qsInsert k v acc) := by
  induction acc with
  | nil => simp [qsInsert]
  | cons kv0 tl ih =>
    obtain ⟨k0, vs0⟩ := kv0
    rw [List.pairwise_cons] at h
    rw [qsInsert]
    by_cases hk0 : k0 = k
    · rw [if_pos hk0, List.pairwise_cons]
      exact ⟨h.1, h.2⟩
    · rw [if_neg hk0, List.pairwise_cons]
      refine ⟨?_, ih h.2⟩
      intro kv2 hkv2
      rcases mem_qsInsert_key k v tl kv2 hkv2 with h3 | ⟨kv1, hkv1, h4⟩
      · rw [h3]; exact fun he => hk0 he
      · rw [h4]; exact h.1 kv1 hkv1

theorem foldl_qsInsert_pairwise (l : List (List Char × List Char)) :
    ∀ (acc : List (List Char × List (List Char))),
    List.Pairwise (fun a b => a.1 ≠ b.1) acc →
    List.Pairwise (fun a b => a.1 ≠ b.1)
      (l.foldl (fun a p => qsInsert p.1 p.2 a) acc) := by
  induction l with
  | nil => intro acc h; exact h
  | cons p tl ih =>
    intro acc h
    rw [List.foldl_cons]
    exact ih (qsInsert p.1 p.2 acc) (qsInsert_pairwise p.1 p.2 acc h)

theorem parse_qs_pairwise (qs : List Char) :
    List.Pairwise (fun a b => a.1 ≠ b.1) (parse_qs qs) := by
  rw [parse_qs]
  exact foldl_qsInsert_pairwise (parse_qsl qs) [] (by simp)

/-! ## URL canonicalizer lemmas: reparsing an assembled URL -/

theorem takeWhile_append_all (p : Char → Bool) (a b : List Char)
    (h : ∀ c ∈ a, p c = true) :
    (a ++ b).takeWhile p = a ++ b.takeWhile p := by
  induction a with
  | nil => simp
  | cons c tl ih =>
    rw [List.cons_append, List.takeWhile_cons_of_pos (h c (List.mem_cons_self c tl)),
      ih (fun x hx => h x (List.mem_cons_of_mem c hx)), List.cons_append]

theorem dropWhile_append_all (p : Char → Bool) (a b : List Char)
    (h : ∀ c ∈ a, p c = true) :
    (a ++ b).dropWhile p = b.dropWhile p := by
  induction a with
  | nil => simp
  | cons c tl ih =>
    rw [List.cons_append, List.dropWhile_cons_of_pos (h c (List.mem_cons_self c tl)),
      ih (fun x hx => h x (List.mem_cons_of_mem c hx))]

theorem isSchemeChar_facts (c : Char) (h : isSchemeChar c = true) :
    0x21 ≤ c.toNat ∧ c.toNat ≤ 0x7A ∧ c.toNat ≠ 0x3A ∧ c.toNat ≠ 0x2F ∧
      c.toNat ≠ 0x3F ∧ c.toNat ≠ 0x23 := by
  simp only [isSchemeChar, decide_eq_true_eq] at h
  rcases h with ⟨h1, h2⟩ | ⟨h1, h2⟩ | ⟨h1, h2⟩ | rfl | rfl | rfl
  · have g1 : 97 ≤ c.toNat := h1
    have g2 : c.toNat ≤ 122 := h2
    omega
  · have g1 : 65 ≤ c.toNat := h1
    have g2 : c.toNat ≤ 90 := h2
    omega
  · have g1 : 48 ≤ c.toNat := h1
    have g2 : c.toNat ≤ 57 := h2
    omega
  · decide
  · decide
  · decide

theorem removeUnsafe_of_ge (l : List Char) (h : ∀ c ∈ l, 0x21 ≤ c.toNat) :
    removeUnsafe l = l := by
  rw [removeUnsafe]
  apply List.filter_eq_self.mpr
  intro c hc
  have h1 := h c hc
  simp only [decide_eq_true_eq]
  rintro (rfl | rfl | rfl) <;> exact absurd h1 (by decide)

theorem urlsplitE_reassemble (scheme netloc path q : List Char)
    (hs : scheme = [] ∨ (isAsciiAlpha (scheme.headD ' ') = true ∧
      scheme.all isSchemeChar = true ∧ scheme.map lowerAsciiChar = scheme))
    (hnet : netloc ≠ [])
    (hnetc : ∀ c ∈ netloc, notNetlocDelim c = true ∧ 0x21 ≤ c.toNat ∧
      c.toNat ≠ 0x5B ∧ c.toNat ≠ 0x5D)
    (hpath : path = [] ∨ path.headD ' ' = '/')
    (hpathc : ∀ c ∈ path, 0x21 ≤ c.toNat ∧ c.toNat ≠ 0x3F ∧ c.toNat ≠ 0x23)
    (hq : ∀ c ∈ q, 0x21 ≤ c.toNat ∧ c.toNat ≠ 0x23) :
    urlsplitE (urlunsplit scheme netloc path q []) =
      Except.ok ⟨scheme, netloc, path, q, []⟩ := by
  have hguard : ¬(path ≠ [] ∧ path.headD ' ' ≠ '/') := by
    rcases hpath with h | h
    · exact fun hc => hc.1 h
    · exact fun hc => hc.2 h
  have hasm : urlunsplit scheme netloc path q [] =
      (if scheme = [] then [] else scheme ++ [':']) ++
        ('/' :: '/' :: (netloc ++ path) ++
          (if q = [] then [] else '?' :: q)) := by
    simp only [urlunsplit]
    rw [if_neg hguard, if_pos (Or.inl hnet), if_neg (by simp)]
    by_cases hs0 : scheme = [] <;> by_cases hq0 : q = [] <;>
      simp [hs0, hq0, List.append_assoc]
  have hQ : '#' ∉ path ++ (if q = [] then [] else '?' :: q) := by
    intro hm
    rcases List.mem_append.mp hm with h | h
    · exact (hpathc '#' h).2.2 rfl
    · by_cases hq0 : q = []
      · rw [if_pos hq0] at h; simp at h
      · rw [if_neg hq0] at h
        rcases List.mem_cons.mp h with he | h2
        · exact absurd (congrArg Char.toNat he) (by decide)
        · exact (hq '#' h2).2 rfl
  have htail0 : (path ++ (if q = [] then [] else '?' :: q)).takeWhile
      notNetlocDelim = [] := by
    cases path with
    | cons c tl =>
      have hc : c = '/' := by
        rcases hpath with h | h
        · simp at h
        · exact h
      subst hc
      rw [List.cons_append, List.takeWhile_cons_of_neg (by decide)]
    | nil =>
      rw [List.nil_append]
      by_cases hq0 : q = []
      · rw [if_pos hq0]; rfl
      · rw [if_neg hq0, List.takeWhile_cons_of_neg (by decide)]
  have htake : ((('/' :: '/' :: (netloc ++ path) ++
      (if q = [] then [] else '?' :: q)).drop 2).takeWhile
      notNetlocDelim) = netloc := by
    show ((netloc ++ path) ++ _).takeWhile _ = _
    rw [List.append_assoc, takeWhile_append_all _ _ _
      (fun c hc => (hnetc c hc).1), htail0, List.append_nil]
  have hdrop : ((('/' :: '/' :: (netloc ++ path) ++
      (if q = [] then [] else '?' :: q)).drop 2).dropWhile
      notNetlocDelim) = path ++ (if q = [] then [] else '?' :: q) := by
    show ((netloc ++ path) ++ _).dropWhile _ = _
    rw [List.append_assoc, dropWhile_append_all _ _ _
      (fun c hc => (hnetc c hc).1)]
    cases path with
    | cons c tl =>
      have hc : c = '/' := by
        rcases hpath with h | h
        · simp at h
        · exact h
      subst hc
      rw [List.cons_append, List.dropWhile_cons_of_neg (by decide)]
    | nil =>
      rw [List.nil_append]
      by_cases hq0 : q = []
      · rw [if_pos hq0]; rfl
      · rw [if_neg hq0, List.dropWhile_cons_of_neg (by decide)]
  have htakeA : (netloc ++ (path ++ (if q = [] then [] else '?' :: q))).takeWhile
      notNetlocDelim = netloc := by
    rw [takeWhile_append_all _ _ _ (fun c hc => (hnetc c hc).1), htail0,
      List.append_nil]
  have hdropA : (netloc ++ (path ++ (if q = [] then [] else '?' :: q))).dropWhile
      notNetlocDelim = path ++ (if q = [] then [] else '?' :: q) := by
    rw [dropWhile_append_all _ _ _ (fun c hc => (hnetc c hc).1)]
    cases path with
    | cons c tl =>
      have hc : c = '/' := by
        rcases hpath with h | h
        · simp at h
        · exact h
      subst hc
      rw [List.cons_append, List.dropWhile_cons_of_neg (by decide)]
    | nil =>
      rw [List.nil_append]
      by_cases hq0 : q = []
      · rw [if_pos hq0]; rfl
      · rw [if_neg hq0, List.dropWhile_cons_of_neg (by decide)]
  have hbr1 : netloc.contains '[' = false :=
    contains_eq_false_of_not_mem _ _ (fun hm => (hnetc '[' hm).2.2.1 rfl)
  have hbr2 : netloc.contains ']' = false :=
    contains_eq_false_of_not_mem _ _ (fun hm => (hnetc ']' hm).2.2.2 rfl)
  have hfrag : splitFirst '#' (path ++ (if q = [] then [] else '?' :: q)) =
      none := splitFirst_of_not_mem _ _ hQ
  have hqp : '?' ∉ path := fun hm => (hpathc '?' hm).2.1 rfl
  have htk2 : List.take 2 ('/' :: '/' :: (netloc ++ path) ++
      (if q = [] then [] else '?' :: q)) = ['/', '/'] := rfl
  have hvge : ∀ c ∈ '/' :: '/' :: (netloc ++ path) ++
      (if q = [] then [] else '?' :: q), 0x21 ≤ c.toNat := by
    intro c hc
    rcases List.mem_append.mp hc with hc | hc
    · rcases List.mem_cons.mp hc with rfl | hc
      · decide
      rcases List.mem_cons.mp hc with rfl | hc
      · decide
      rcases List.mem_append.mp hc with hc | hc
      · exact (hnetc c hc).2.1
      · exact (hpathc c hc).1
    · by_cases hq0 : q = []
      · rw [if_pos hq0] at hc; simp at hc
      · rw [if_neg hq0] at hc
        rcases List.mem_cons.mp hc with rfl | hc
        · decide
        · exact (hq c hc).1
  rcases hs with hs0 | ⟨hsh, hsall, hlow⟩
  · subst hs0
    rw [hasm, if_pos rfl, List.nil_append]
    have hrm : removeUnsafe ('/' :: '/' :: (netloc ++ path) ++
        (if q = [] then [] else '?' :: q)) = '/' :: '/' :: (netloc ++ path) ++
        (if q = [] then [] else '?' :: q) := removeUnsafe_of_ge _ hvge
    simp only [urlsplitE]
    rw [hrm]
    cases hsp : splitFirst ':' ('/' :: '/' :: (netloc ++ path) ++
        (if q = [] then [] else '?' :: q)) with
    | none =>
      dsimp only
      rw [if_pos htk2]
      dsimp only
      rw [htake, hdrop, if_neg (by rw [hbr1, hbr2]; simp), hfrag]
      dsimp only
      by_cases hq0 : q = []
      · subst hq0
        rw [if_pos rfl, List.append_nil, splitFirst_of_not_mem _ _ hqp]
      · rw [if_neg hq0, splitFirst_append_cons _ _ _ hqp]
    | some p =>
      obtain ⟨before, after⟩ := p
      obtain ⟨hdec, -⟩ := splitFirst_some _ _ _ _ hsp
      dsimp only
      rcases hbf : before with _ | ⟨c0, tl0⟩
      · rw [if_neg (show ¬(([] : List Char) ≠ [] ∧
            isAsciiAlpha (([] : List Char).headD ' ') = true ∧
            ([] : List Char).all isSchemeChar = true) from fun hc => hc.1 rfl)]
        dsimp only
        rw [if_pos htk2]
        dsimp only
        simp only [htake, hdrop, htakeA, hdropA]
        rw [if_neg (by rw [hbr1, hbr2]; simp), hfrag]
        by_cases hq0 : q = []
        · subst hq0
          rw [if_pos rfl, List.append_nil, splitFirst_of_not_mem _ _ hqp]
        · rw [if_neg hq0, splitFirst_append_cons _ _ _ hqp]
      · have hc0 : c0 = '/' := by
          rw [hbf] at hdec
          have := congrArg (fun l => l.headD ' ') hdec
          simpa using this.symm
        subst hc0
        rw [if_neg (show ¬(('/' :: tl0) ≠ [] ∧
            isAsciiAlpha (('/' :: tl0).headD ' ') = true ∧
            ('/' :: tl0).all isSchemeChar = true) from
          fun hcond => absurd hcond.2.1
            (by rw [List.headD_cons]; decide))]
        dsimp only
        rw [if_pos htk2]
        dsimp only
        simp only [htake, hdrop, htakeA, hdropA]
        rw [if_neg (by rw [hbr1, hbr2]; simp), hfrag]
        by_cases hq0 : q = []
        · subst hq0
          rw [if_pos rfl, List.append_nil, splitFirst_of_not_mem _ _ hqp]
        · rw [if_neg hq0, splitFirst_append_cons _ _ _ hqp]
  · have hsne : scheme ≠ [] := by
      intro h0
      rw [h0] at hsh
      simp [isAsciiAlpha] at hsh
    rw [hasm, if_neg hsne]
    have hschf : ∀ c ∈ scheme, 0x21 ≤ c.toNat ∧ c.toNat ≠ 0x3A :=
      fun c hc => by
        have := isSchemeChar_facts c (List.all_eq_true.mp hsall c hc)
        exact ⟨this.1, this.2.2.1⟩
    have hrm : removeUnsafe ((scheme ++ [':']) ++
        ('/' :: '/' :: (netloc ++ path) ++
          (if q = [] then [] else '?' :: q))) = (scheme ++ [':']) ++
        ('/' :: '/' :: (netloc ++ path) ++
          (if q = [] then [] else '?' :: q)) := by
      apply removeUnsafe_of_ge
      intro c hc
      rcases List.mem_append.mp hc with hc | hc
      · rcases List.mem_append.mp hc with hc | hc
        · exact (hschf c hc).1
        · simp only [List.mem_singleton] at hc
          subst hc
          decide
      · exact hvge c hc
    have hsp : splitFirst ':' ((scheme ++ [':']) ++
        ('/' :: '/' :: (netloc ++ path) ++
          (if q = [] then [] else '?' :: q))) =
        some (scheme, '/' :: '/' :: (netloc ++ path) ++
          (if q = [] then [] else '?' :: q)) := by
      rw [List.append_assoc, List.singleton_append]
      exact splitFirst_append_cons _ _ _
        (fun hm => (hschf ':' hm).2 rfl)
    simp only [urlsplitE]
    rw [hrm, hsp]
    dsimp only
    rw [if_pos (show scheme ≠ [] ∧ isAsciiAlpha (scheme.headD ' ') = true ∧
      scheme.all isSchemeChar = true from ⟨hsne, hsh, hsall⟩)]
    dsimp only
    rw [hlow]
    rw [if_pos htk2]
    dsimp only
    simp only [htake, hdrop, htakeA, hdropA]
    rw [if_neg (by rw [hbr1, hbr2]; simp), hfrag]
    by_cases hq0 : q = []
    · subst hq0
      rw [if_pos rfl, List.append_nil, splitFirst_of_not_mem _ _ hqp]
    · rw [if_neg hq0, splitFirst_append_cons _ _ _ hqp]

/-! ## URL canonicalizer lemmas: evaluation of the Instagram branch -/

theorem char_eq_of_toNat_eq (c d : Char) (h : c.toNat = d.toNat) : c = d := by
  have := congrArg Char.ofNat h
  rwa [Char.ofNat_toNat, Char.ofNat_toNat] at this

theorem urlunsplit_ig (pp q : List Char) (hph : pp = [] ∨ pp.headD ' ' = '/') :
    urlunsplit "https".data "instagram.com".data pp q [] =
      "https://instagram.com".data ++ pp ++
        (if q = [] then [] else '?' :: q) := by
  have hguard : ¬(pp ≠ [] ∧ pp.headD ' ' ≠ '/') := by
    rcases hph with h | h
    · exact fun hc => hc.1 h
    · exact fun hc => hc.2 h
  simp only [urlunsplit]
  rw [if_neg hguard,
    if_pos (show "instagram.com".data ≠ [] ∨ pp.take 2 = ['/', '/'] from
      Or.inl (by decide)),
    if_neg (show ¬(([] : List Char) ≠ []) from by simp),
    if_pos (show "https".data ≠ [] from by decide)]
  by_cases hq0 : q = []
  · subst hq0
    rw [if_neg (show ¬(([] : List Char) ≠ []) from by simp), if_pos rfl,
      List.append_nil]
    rfl
  · rw [if_pos (show q ≠ [] from hq0), if_neg hq0]
    show ("https".data ++ ':' :: ('/' :: '/' ::
      ("instagram.com".data ++ pp))) ++ '?' :: q = _
    simp [List.append_assoc]

theorem cleanPathChar_facts (c : Char) (h : cleanPathChar c = true) :
    0x21 ≤ c.toNat ∧ c.toNat ≠ 0x3F ∧ c.toNat ≠ 0x23 := by
  have h2 : cleanUrlChar c = true ∧ c ≠ '?' ∧ c ≠ '#' := by
    simpa [cleanPathChar] using h
  obtain ⟨g1, -⟩ := cleanUrlChar_spec c h2.1
  refine ⟨g1, ?_, ?_⟩
  · exact fun he => h2.2.1 (char_eq_of_toNat_eq c '?' (by rw [he]; rfl))
  · exact fun he => h2.2.2 (char_eq_of_toNat_eq c '#' (by rw [he]; rfl))

theorem cleanQueryChar_facts (c : Char) (h : cleanQueryChar c = true) :
    0x21 ≤ c.toNat ∧ c.toNat ≠ 0x23 := by
  have h2 : cleanUrlChar c = true ∧ c ≠ '#' := by
    simpa [cleanQueryChar] using h
  obtain ⟨g1, -⟩ := cleanUrlChar_spec c h2.1
  exact ⟨g1, fun he => h2.2 (char_eq_of_toNat_eq c '#' (by rw [he]; rfl))⟩

theorem urlsplitE_ig (p q : List Char)
    (hph : p = [] ∨ p.headD ' ' = '/')
    (hp : ∀ c ∈ p, cleanPathChar c = true)
    (hq : ∀ c ∈ q, cleanQueryChar c = true) :
    urlsplitE ("https://instagram.com".data ++ p ++
        (if q = [] then [] else '?' :: q)) =
      Except.ok ⟨"https".data, "instagram.com".data, p, q, []⟩ := by
  rw [show "https://instagram.com".data ++ p ++
      (if q = [] then [] else '?' :: q) =
      urlunsplit "https".data "instagram.com".data p q [] from
    (urlunsplit_ig p q hph).symm]
  exact urlsplitE_reassemble _ _ _ _
    (Or.inr ⟨by decide, by decide, by decide⟩)
    (by decide)
    (by decide)
    hph
    (fun c hc => cleanPathChar_facts c (hp c hc))
    (fun c hc => cleanQueryChar_facts c (hq c hc))

theorem urlparseE_of_split (u : List Char) (r : SplitResult)
    (h : urlsplitE u = .ok r) (hnos : r.path.contains ';' = false) :
    urlparseE u = .ok ⟨r.scheme, r.netloc, r.path, [], r.query, r.fragment⟩ := by
  simp only [urlparseE]
  rw [h]
  dsimp only
  rw [if_neg (fun hc => absurd hc.2 (by rw [hnos]; simp))]

theorem no_semicolon_of_clean (l : List Char)
    (h : ∀ c ∈ l, cleanUrlChar c = true) : l.contains ';' = false :=
  contains_eq_false_of_not_mem _ _
    (fun hm => (cleanUrlChar_spec ';' (h ';' hm)).2.2.1 rfl)

theorem normalize_ig_core (u p q : List Char)
    (hne : u ≠ [])
    (hstrip : pyStripL u = u)
    (hparse : urlparseE u =
      .ok ⟨"https".data, "instagram.com".data, p, [], q, []⟩)
    (hfind : (parse_qs q).find? (fun kv => kv.1 = "img_index".data) = none)
    (hph' : rstripSlashL p = [] ∨ (rstripSlashL p).headD ' ' = '/') :
    normalize_url_list u = "https://instagram.com".data ++ rstripSlashL p := by
  simp only [normalize_url_list]
  rw [if_neg hne, hstrip, hparse]
  dsimp only
  rw [if_pos (Or.inl (show containsSub "instagram.com".data
    "instagram.com".data = true from by decide))]
  rw [hfind]
  dsimp only
  rw [show urlencode [] = ([] : List Char) from rfl, urlunparse,
    if_neg (show ¬(([] : List Char) ≠ []) from by simp)]
  rw [urlunsplit_ig (rstripSlashL p) [] hph', if_pos rfl, List.append_nil]

theorem rstripSlashL_shape (p : List Char) (hph : p = [] ∨ p.headD ' ' = '/') :
    rstripSlashL p = [] ∨ (rstripSlashL p).headD ' ' = '/' := by
  rcases hph with h | h
  · subst h
    exact Or.inl rfl
  · cases p with
    | nil => exact Or.inl rfl
    | cons c tl =>
      have hc : c = '/' := h
      subst hc
      exact rstripSlashL_head '/' tl

/-! ## URL canonicalizer lemmas: the scheme-less fall-through -/

theorem urlsplitE_no_scheme (u : List Char)
    (hc : ':' ∉ u) (h2 : ¬ u.take 2 = ['/', '/'])
    (hge : ∀ c ∈ u, 0x21 ≤ c.toNat) :
    ∃ pp qq ff, urlsplitE u = .ok ⟨[], [], pp, qq, ff⟩ ∧ ∀ c ∈ pp, c ∈ u := by
  simp only [urlsplitE]
  rw [removeUnsafe_of_ge u hge, splitFirst_of_not_mem ':' u hc]
  dsimp only
  rw [if_neg h2]
  dsimp only
  rw [if_neg (show ¬(([] : List Char).contains '[' = true ∨
    ([] : List Char).contains ']' = true) from by simp)]
  cases hfg : splitFirst '#' u with
  | none =>
    dsimp only
    cases hqr : splitFirst '?' u with
    | none =>
      dsimp only
      exact ⟨u, [], [], rfl, fun c hcm => hcm⟩
    | some p2 =>
      obtain ⟨n2, v2⟩ := p2
      obtain ⟨hd2, -⟩ := splitFirst_some _ _ _ _ hqr
      dsimp only
      refine ⟨n2, v2, [], rfl, fun c hcm => ?_⟩
      rw [hd2]
      exact List.mem_append.mpr (Or.inl hcm)
  | some p1 =>
    obtain ⟨a1, b1⟩ := p1
    obtain ⟨hd1, -⟩ := splitFirst_some _ _ _ _ hfg
    dsimp only
    cases hqr : splitFirst '?' a1 with
    | none =>
      dsimp only
      refine ⟨a1, [], b1, rfl, fun c hcm => ?_⟩
      rw [hd1]
      exact List.mem_append.mpr (Or.inl hcm)
    | some p2 =>
      obtain ⟨n2, v2⟩ := p2
      obtain ⟨hd2, -⟩ := splitFirst_some _ _ _ _ hqr
      dsimp only
      refine ⟨n2, v2, b1, rfl, fun c hcm => ?_⟩
      rw [hd1, hd2]
      exact List.mem_append.mpr (Or.inl (List.mem_append.mpr (Or.inl hcm)))

theorem normalize_no_scheme (u : List Char)
    (hcl : ∀ c ∈ u, cleanUrlChar c = true)
    (hc : ':' ∉ u) (h2 : ¬ u.take 2 = ['/', '/']) :
    normalize_url_list u = u := by
  by_cases hnil : u = []
  · rw [hnil]; rfl
  have hws : ∀ c ∈ u, isPyWs c = false :=
    fun c hcm => cleanUrlChar_not_ws c (hcl c hcm)
  obtain ⟨pp, qq, ff, hsp, hmem⟩ := urlsplitE_no_scheme u hc h2
    (fun c hcm => (cleanUrlChar_spec c (hcl c hcm)).1)
  have hpe : urlparseE u = .ok ⟨[], [], pp, [], qq, ff⟩ :=
    urlparseE_of_split u _ hsp
      (no_semicolon_of_clean pp (fun c hcm => hcl c (hmem c hcm)))
  simp only [normalize_url_list]
  rw [if_neg hnil, pyStripL_eq_self u hws, hpe]
  dsimp only
  rw [if_neg (show ¬(containsSub "instagram.com".data [] = true ∨
      containsSub "facebook.com".data [] = true) from by decide),
    if_neg (show ¬ containsSub "tiktok.com".data [] = true from by decide),
    if_neg (show ¬(containsSub "youtube.com".data [] = true ∨
      containsSub "youtu.be".data [] = true) from by decide),
    if_neg (show ¬ containsSub "soundcloud.com".data [] = true from by decide)]
  exact pyRStripL_eq_self u hws

/-! ## URL canonicalizer lemmas: inversion of urlsplit on clean input -/

theorem isAsciiAlpha_lower (c : Char) (h : isAsciiAlpha c = true) :
    isAsciiAlpha (lowerAsciiChar c) = true := by
  simp only [isAsciiAlpha, decide_eq_true_eq] at h ⊢
  rcases h with ⟨h1, h2⟩ | ⟨h1, h2⟩
  · have g1 : 97 ≤ c.toNat := h1
    have g2 : c.toNat ≤ 122 := h2
    have he : lowerAsciiChar c = c := by
      rw [lowerAsciiChar, if_neg (fun hc => by
        have g3 : 65 ≤ c.toNat := hc.1
        have g4 : c.toNat ≤ 90 := hc.2
        omega)]
    rw [he]
    exact Or.inl ⟨h1, h2⟩
  · have g1 : 65 ≤ c.toNat := h1
    have g2 : c.toNat ≤ 90 := h2
    have he : lowerAsciiChar c = Char.ofNat (c.toNat + 32) := by
      rw [lowerAsciiChar, if_pos ⟨h1, h2⟩]
    rw [he]
    left
    constructor
    · show 97 ≤ (Char.ofNat (c.toNat + 32)).toNat
      rw [toNat_ofNat_lt _ (by omega)]
      omega
    · show (Char.ofNat (c.toNat + 32)).toNat ≤ 122
      rw [toNat_ofNat_lt _ (by omega)]
      omega

theorem isSchemeChar_lower (c : Char) (h : isSchemeChar c = true) :
    isSchemeChar (lowerAsciiChar c) = true := by
  simp only [isSchemeChar, decide_eq_true_eq] at h ⊢
  rcases h with ⟨h1, h2⟩ | ⟨h1, h2⟩ | ⟨h1, h2⟩ | rfl | rfl | rfl
  · have g1 : 97 ≤ c.toNat := h1
    have g2 : c.toNat ≤ 122 := h2
    have he : lowerAsciiChar c = c := by
      rw [lowerAsciiChar, if_neg (fun hc => by
        have g3 : 65 ≤ c.toNat := hc.1
        have g4 : c.toNat ≤ 90 := hc.2
        omega)]
    rw [he]
    exact Or.inl ⟨h1, h2⟩
  · have g1 : 65 ≤ c.toNat := h1
    have g2 : c.toNat ≤ 90 := h2
    have he : lowerAsciiChar c = Char.ofNat (c.toNat + 32) := by
      rw [lowerAsciiChar, if_pos ⟨h1, h2⟩]
    rw [he]
    left
    constructor
    · show 97 ≤ (Char.ofNat (c.toNat + 32)).toNat
      rw [toNat_ofNat_lt _ (by omega)]
      omega
    · show (Char.ofNat (c.toNat + 32)).toNat ≤ 122
      rw [toNat_ofNat_lt _ (by omega)]
      omega
  · have g1 : 48 ≤ c.toNat := h1
    have g2 : c.toNat ≤ 57 := h2
    have he : lowerAsciiChar c = c := by
      rw [lowerAsciiChar, if_neg (fun hc => by
        have g3 : 65 ≤ c.toNat := hc.1
        omega)]
    rw [he]
    exact Or.inr (Or.inr (Or.inl ⟨h1, h2⟩))
  · decide
  · decide
  · decide

theorem lower_idem (c : Char) :
    lowerAsciiChar (lowerAsciiChar c) = lowerAsciiChar c := by
  by_cases h : 'A' ≤ c ∧ c ≤ 'Z'
  · have g1 : 65 ≤ c.toNat := h.1
    have g2 : c.toNat ≤ 90 := h.2
    have hin : lowerAsciiChar c = Char.ofNat (c.toNat + 32) := by
      rw [lowerAsciiChar, if_pos h]
    have ht : (Char.ofNat (c.toNat + 32)).toNat = c.toNat + 32 :=
      toNat_ofNat_lt _ (by omega)
    rw [hin, lowerAsciiChar, if_neg (fun hc => by
      have g3 : 65 ≤ (Char.ofNat (c.toNat + 32)).toNat := hc.1
      have g4 : (Char.ofNat (c.toNat + 32)).toNat ≤ 90 := hc.2
      rw [ht] at g3 g4
      omega)]
  · have hin : lowerAsciiChar c = c := by rw [lowerAsciiChar, if_neg h]
    rw [hin, hin]

theorem dropWhile_headD_false (p : Char → Bool) (l : List Char)
    (h : l.dropWhile p ≠ []) : p ((l.dropWhile p).headD ' ') = false := by
  cases hdw : l.dropWhile p with
  | nil => exact absurd hdw h
  | cons c tl =>
    have h2 := List.head?_dropWhile_not p l
    rw [hdw] at h2
    simpa using h2

theorem urlsplit_inv_concl (u sch netv pathv qv rest2v : List Char)
    (hcl : ∀ c ∈ u, cleanUrlChar c = true)
    (hschf : sch = [] ∨ (isAsciiAlpha (sch.headD ' ') = true ∧
      sch.all isSchemeChar = true ∧ sch.map lowerAsciiChar = sch))
    (hnetf : ∀ c ∈ netv, notNetlocDelim c = true ∧ cleanUrlChar c = true)
    (hnethead : netv ≠ [] →
      rest2v = [] ∨ notNetlocDelim (rest2v.headD ' ') = false)
    (hpref : ∃ s, rest2v = pathv ++ s)
    (hpnq : '?' ∉ pathv) (hpnh : '#' ∉ pathv) (hpm : ∀ c ∈ pathv, c ∈ u)
    (hqnh : '#' ∉ qv) (hqm : ∀ c ∈ qv, c ∈ u) :
    (sch = [] ∨ (isAsciiAlpha (sch.headD ' ') = true ∧
      sch.all isSchemeChar = true ∧ sch.map lowerAsciiChar = sch)) ∧
    (∀ c ∈ netv, notNetlocDelim c = true ∧ cleanUrlChar c = true) ∧
    (netv ≠ [] → (pathv = [] ∨ pathv.headD ' ' = '/')) ∧
    (∀ c ∈ pathv, c ≠ '?' ∧ c ≠ '#' ∧ cleanUrlChar c = true) ∧
    (∀ c ∈ qv, c ≠ '#' ∧ cleanUrlChar c = true) := by
  refine ⟨hschf, hnetf, ?_, ?_, ?_⟩
  · intro hnn
    cases hpv : pathv with
    | nil => exact Or.inl rfl
    | cons c0 tl0 =>
      right
      obtain ⟨s, hs⟩ := hpref
      rw [hpv] at hs
      have hr2ne : rest2v ≠ [] := by rw [hs]; simp
      have hhead : rest2v.headD ' ' = c0 := by rw [hs]; rfl
      rcases hnethead hnn with h0 | h0
      · exact absurd h0 hr2ne
      · rw [hhead] at h0
        have hc0 : c0 = '/' ∨ c0 = '?' ∨ c0 = '#' := by
          simp only [notNetlocDelim, decide_eq_false_iff_not, not_not] at h0
          exact h0
        have hc0m : c0 ∈ pathv := by rw [hpv]; exact List.mem_cons_self _ _
        rcases hc0 with h1 | h1 | h1
        · rw [List.headD_cons, h1]
        · exact absurd (h1 ▸ hc0m) hpnq
        · exact absurd (h1 ▸ hc0m) hpnh
  · intro c hc
    refine ⟨fun he => hpnq (he ▸ hc), fun he => hpnh (he ▸ hc),
      hcl c (hpm c hc)⟩
  · intro c hc
    exact ⟨fun he => hqnh (he ▸ hc), hcl c (hqm c hc)⟩

theorem splitFirst_none_not_mem (sep : Char) (l : List Char)
    (h : splitFirst sep l = none) : sep ∉ l := by
  induction l with
  | nil => simp
  | cons c tl ih =>
    rw [splitFirst] at h
    by_cases hc : c = sep
    · rw [if_pos hc] at h; simp at h
    · rw [if_neg hc] at h
      intro hm
      rcases List.mem_cons.mp hm with he | hm2
      · exact hc he.symm
      · cases hsf : splitFirst sep tl with
        | none => exact ih hsf hm2
        | some p => rw [hsf] at h; simp at h

theorem urlsplitE_ok_clean (u : List Char) (r : SplitResult)
    (hcl : ∀ c ∈ u, cleanUrlChar c = true)
    (h : urlsplitE u = .ok r) :
    (r.scheme = [] ∨ (isAsciiAlpha (r.scheme.headD ' ') = true ∧
      r.scheme.all isSchemeChar = true ∧
      r.scheme.map lowerAsciiChar = r.scheme)) ∧
    (∀ c ∈ r.netloc, notNetlocDelim c = true ∧ cleanUrlChar c = true) ∧
    (r.netloc ≠ [] → (r.path = [] ∨ r.path.headD ' ' = '/')) ∧
    (∀ c ∈ r.path, c ≠ '?' ∧ c ≠ '#' ∧ cleanUrlChar c = true) ∧
    (∀ c ∈ r.query, c ≠ '#' ∧ cleanUrlChar c = true) := by
  have hge : ∀ c ∈ u, 0x21 ≤ c.toNat :=
    fun c hc => (cleanUrlChar_spec c (hcl c hc)).1
  have hmemu : ∀ c ∈ u, c ∈ u := fun c hc => hc
  have hnilsch : ([] : List Char) = [] ∨
      (isAsciiAlpha (([] : List Char).headD ' ') = true ∧
       ([] : List Char).all isSchemeChar = true ∧
       ([] : List Char).map lowerAsciiChar = []) := Or.inl rfl
  simp only [urlsplitE] at h
  rw [removeUnsafe_of_ge u hge] at h
  cases hsp : splitFirst ':' u with
  | none =>
    rw [hsp] at h
    dsimp only at h
    by_cases hsl : List.take 2 (u) = ['/', '/']
    · rw [if_pos hsl] at h
      dsimp only at h
      have hnetf : ∀ c ∈ (List.drop 2 (u)).takeWhile notNetlocDelim,
          notNetlocDelim c = true ∧ cleanUrlChar c = true :=
        fun c hc => ⟨List.mem_takeWhile_imp hc,
          hcl c (hmemu c ((List.drop_sublist 2 (u)).subset
            ((List.takeWhile_sublist _).subset hc)))⟩
      have hr2m : ∀ c ∈ (List.drop 2 (u)).dropWhile notNetlocDelim,
          c ∈ u :=
        fun c hc => hmemu c ((List.drop_sublist 2 (u)).subset
          ((List.dropWhile_sublist _).subset hc))
      have hr2h : (List.drop 2 (u)).takeWhile notNetlocDelim ≠ [] →
          (List.drop 2 (u)).dropWhile notNetlocDelim = [] ∨
          notNetlocDelim (((List.drop 2 (u)).dropWhile
            notNetlocDelim).headD ' ') = false := by
        intro hne2
        by_cases hdw : (List.drop 2 (u)).dropWhile notNetlocDelim = []
        · exact Or.inl hdw
        · exact Or.inr (dropWhile_headD_false _ _ hdw)
      by_cases hbrk : ((List.drop 2 (u)).takeWhile notNetlocDelim).contains '[' = true ∨
          ((List.drop 2 (u)).takeWhile notNetlocDelim).contains ']' = true
      · rw [if_pos hbrk] at h
        exact absurd h (by simp)
      · rw [if_neg hbrk] at h
        cases hfg : splitFirst '#' ((List.drop 2 (u)).dropWhile notNetlocDelim) with
        | none =>
          have hnf : '#' ∉ ((List.drop 2 (u)).dropWhile notNetlocDelim) := splitFirst_none_not_mem _ _ hfg
          rw [hfg] at h
          dsimp only at h
          cases hqr : splitFirst '?' ((List.drop 2 (u)).dropWhile notNetlocDelim) with
          | none =>
            have hnq : '?' ∉ ((List.drop 2 (u)).dropWhile notNetlocDelim) := splitFirst_none_not_mem _ _ hqr
            rw [hqr] at h
            dsimp only at h
            rw [Except.ok.injEq] at h
            subst h
            exact urlsplit_inv_concl u ([] : List Char) ((List.drop 2 (u)).takeWhile notNetlocDelim) ((List.drop 2 (u)).dropWhile notNetlocDelim) []
              ((List.drop 2 (u)).dropWhile notNetlocDelim) hcl hnilsch hnetf hr2h ⟨[], by simp⟩ hnq hnf
              hr2m (by simp) (by simp)
          | some qp2 =>
            obtain ⟨pv, qv⟩ := qp2
            obtain ⟨hd2, hn2⟩ := splitFirst_some _ _ _ _ hqr
            rw [hqr] at h
            dsimp only at h
            rw [Except.ok.injEq] at h
            subst h
            exact urlsplit_inv_concl u ([] : List Char) ((List.drop 2 (u)).takeWhile notNetlocDelim) pv qv
              ((List.drop 2 (u)).dropWhile notNetlocDelim) hcl hnilsch hnetf hr2h ⟨'?' :: qv, hd2⟩ hn2
              (fun hm => hnf (by
                rw [hd2]; exact List.mem_append.mpr (Or.inl hm)))
              (fun c hc => hr2m c (by
                rw [hd2]; exact List.mem_append.mpr (Or.inl hc)))
              (fun hm => hnf (by
                rw [hd2]
                exact List.mem_append.mpr (Or.inr (List.mem_cons_of_mem _ hm))))
              (fun c hc => hr2m c (by
                rw [hd2]
                exact List.mem_append.mpr (Or.inr (List.mem_cons_of_mem _ hc))))
        | some fp2 =>
          obtain ⟨av, bv⟩ := fp2
          obtain ⟨hd1, hn1⟩ := splitFirst_some _ _ _ _ hfg
          rw [hfg] at h
          dsimp only at h
          have havm : ∀ c ∈ av, c ∈ u := fun c hc => hr2m c (by
            rw [hd1]; exact List.mem_append.mpr (Or.inl hc))
          have hpref1 : ∃ s, ((List.drop 2 (u)).dropWhile notNetlocDelim) = av ++ s := ⟨'#' :: bv, hd1⟩
          cases hqr : splitFirst '?' av with
          | none =>
            have hnq : '?' ∉ av := splitFirst_none_not_mem _ _ hqr
            rw [hqr] at h
            dsimp only at h
            rw [Except.ok.injEq] at h
            subst h
            exact urlsplit_inv_concl u ([] : List Char) ((List.drop 2 (u)).takeWhile notNetlocDelim) av [] ((List.drop 2 (u)).dropWhile notNetlocDelim)
              hcl hnilsch hnetf hr2h hpref1 hnq
              (fun hm => hn1 hm) havm (by simp) (by simp)
          | some qp2 =>
            obtain ⟨pv, qv⟩ := qp2
            obtain ⟨hd2, hn2⟩ := splitFirst_some _ _ _ _ hqr
            rw [hqr] at h
            dsimp only at h
            rw [Except.ok.injEq] at h
            subst h
            exact urlsplit_inv_concl u ([] : List Char) ((List.drop 2 (u)).takeWhile notNetlocDelim) pv qv ((List.drop 2 (u)).dropWhile notNetlocDelim)
              hcl hnilsch hnetf hr2h
              ⟨'?' :: (qv ++ '#' :: bv), by rw [hd1, hd2, List.append_assoc]; rfl⟩
              hn2
              (fun hm => hn1 (by
                rw [hd2]; exact List.mem_append.mpr (Or.inl hm)))
              (fun c hc => havm c (by
                rw [hd2]; exact List.mem_append.mpr (Or.inl hc)))
              (fun hm => hn1 (by
                rw [hd2]
                exact List.mem_append.mpr (Or.inr (List.mem_cons_of_mem _ hm))))
              (fun c hc => havm c (by
                rw [hd2]
                exact List.mem_append.mpr (Or.inr (List.mem_cons_of_mem _ hc))))
    · rw [if_neg hsl] at h
      dsimp only at h
      have hnetf : ∀ c ∈ ([] : List Char),
          notNetlocDelim c = true ∧ cleanUrlChar c = true := by simp
      have hr2h : ([] : List Char) ≠ [] → ((u) = [] ∨
          notNetlocDelim ((u).headD ' ') = false) :=
        fun hn => absurd rfl hn
      by_cases hbrk : (([] : List Char)).contains '[' = true ∨
          (([] : List Char)).contains ']' = true
      · rw [if_pos hbrk] at h
        exact absurd h (by simp)
      · rw [if_neg hbrk] at h
        cases hfg : splitFirst '#' (u) with
        | none =>
          have hnf : '#' ∉ (u) := splitFirst_none_not_mem _ _ hfg
          rw [hfg] at h
          dsimp only at h
          cases hqr : splitFirst '?' (u) with
          | none =>
            have hnq : '?' ∉ (u) := splitFirst_none_not_mem _ _ hqr
            rw [hqr] at h
            dsimp only at h
            rw [Except.ok.injEq] at h
            subst h
            exact urlsplit_inv_concl u ([] : List Char) (([] : List Char)) (u) []
              (u) hcl hnilsch hnetf hr2h ⟨[], by simp⟩ hnq hnf
              hmemu (by simp) (by simp)
          | some qp2 =>
            obtain ⟨pv, qv⟩ := qp2
            obtain ⟨hd2, hn2⟩ := splitFirst_some _ _ _ _ hqr
            rw [hqr] at h
            dsimp only at h
            rw [Except.ok.injEq] at h
            subst h
            exact urlsplit_inv_concl u ([] : List Char) (([] : List Char)) pv qv
              (u) hcl hnilsch hnetf hr2h ⟨'?' :: qv, hd2⟩ hn2
              (fun hm => hnf (by
                rw [hd2]; exact List.mem_append.mpr (Or.inl hm)))
              (fun c hc => hmemu c (by
                rw [hd2]; exact List.mem_append.mpr (Or.inl hc)))
              (fun hm => hnf (by
                rw [hd2]
                exact List.mem_append.mpr (Or.inr (List.mem_cons_of_mem _ hm))))
              (fun c hc => hmemu c (by
                rw [hd2]
                exact List.mem_append.mpr (Or.inr (List.mem_cons_of_mem _ hc))))
        | some fp2 =>
          obtain ⟨av, bv⟩ := fp2
          obtain ⟨hd1, hn1⟩ := splitFirst_some _ _ _ _ hfg
          rw [hfg] at h
          dsimp only at h
          have havm : ∀ c ∈ av, c ∈ u := fun c hc => hmemu c (by
            rw [hd1]; exact List.mem_append.mpr (Or.inl hc))
          have hpref1 : ∃ s, (u) = av ++ s := ⟨'#' :: bv, hd1⟩
          cases hqr : splitFirst '?' av with
          | none =>
            have hnq : '?' ∉ av := splitFirst_none_not_mem _ _ hqr
            rw [hqr] at h
            dsimp only at h
            rw [Except.ok.injEq] at h
            subst h
            exact urlsplit_inv_concl u ([] : List Char) (([] : List Char)) av [] (u)
              hcl hnilsch hnetf hr2h hpref1 hnq
              (fun hm => hn1 hm) havm (by simp) (by simp)
          | some qp2 =>
            obtain ⟨pv, qv⟩ := qp2
            obtain ⟨hd2, hn2⟩ := splitFirst_some _ _ _ _ hqr
            rw [hqr] at h
            dsimp only at h
            rw [Except.ok.injEq] at h
            subst h
            exact urlsplit_inv_concl u ([] : List Char) (([] : List Char)) pv qv (u)
              hcl hnilsch hnetf hr2h
              ⟨'?' :: (qv ++ '#' :: bv), by rw [hd1, hd2, List.append_assoc]; rfl⟩
              hn2
              (fun hm => hn1 (by
                rw [hd2]; exact List.mem_append.mpr (Or.inl hm)))
              (fun c hc => havm c (by
                rw [hd2]; exact List.mem_append.mpr (Or.inl hc)))
              (fun hm => hn1 (by
                rw [hd2]
                exact List.mem_append.mpr (Or.inr (List.mem_cons_of_mem _ hm))))
              (fun c hc => havm c (by
                rw [hd2]
                exact List.mem_append.mpr (Or.inr (List.mem_cons_of_mem _ hc))))
  | some bp =>
    obtain ⟨bf, af⟩ := bp
    obtain ⟨hdec, -⟩ := splitFirst_some _ _ _ _ hsp
    rw [hsp] at h
    dsimp only at h
    by_cases hv : bf ≠ [] ∧ isAsciiAlpha (bf.headD ' ') = true ∧
        bf.all isSchemeChar = true
    · rw [if_pos hv] at h
      dsimp only at h
      obtain ⟨hbne, hbh, hball⟩ := hv
      have hrestaf : ∀ c ∈ af, c ∈ u := fun c hc => by
        rw [hdec]
        exact List.mem_append.mpr (Or.inr (List.mem_cons_of_mem _ hc))
      have hschmap : (bf.map lowerAsciiChar) = [] ∨
          (isAsciiAlpha ((bf.map lowerAsciiChar).headD ' ') = true ∧
           (bf.map lowerAsciiChar).all isSchemeChar = true ∧
           (bf.map lowerAsciiChar).map lowerAsciiChar =
             bf.map lowerAsciiChar) := by
        right
        refine ⟨?_, ?_, ?_⟩
        · cases bf with
          | nil => exact absurd rfl hbne
          | cons b0 tb =>
            rw [List.map_cons, List.headD_cons]
            exact isAsciiAlpha_lower b0 (by
              rwa [List.headD_cons] at hbh)
        · rw [List.all_eq_true]
          intro c hc
          rw [List.mem_map] at hc
          obtain ⟨c0, hc0, rfl⟩ := hc
          exact isSchemeChar_lower c0 (List.all_eq_true.mp hball c0 hc0)
        · rw [List.map_map]
          apply List.map_congr_left
          intro c0 hc0
          exact lower_idem c0
      by_cases hsl : List.take 2 (af) = ['/', '/']
      · rw [if_pos hsl] at h
        dsimp only at h
        have hnetf : ∀ c ∈ (List.drop 2 (af)).takeWhile notNetlocDelim,
            notNetlocDelim c = true ∧ cleanUrlChar c = true :=
          fun c hc => ⟨List.mem_takeWhile_imp hc,
            hcl c (hrestaf c ((List.drop_sublist 2 (af)).subset
              ((List.takeWhile_sublist _).subset hc)))⟩
        have hr2m : ∀ c ∈ (List.drop 2 (af)).dropWhile notNetlocDelim,
            c ∈ u :=
          fun c hc => hrestaf c ((List.drop_sublist 2 (af)).subset
            ((List.dropWhile_sublist _).subset hc))
        have hr2h : (List.drop 2 (af)).takeWhile notNetlocDelim ≠ [] →
            (List.drop 2 (af)).dropWhile notNetlocDelim = [] ∨
            notNetlocDelim (((List.drop 2 (af)).dropWhile
              notNetlocDelim).headD ' ') = false := by
          intro hne2
          by_cases hdw : (List.drop 2 (af)).dropWhile notNetlocDelim = []
          · exact Or.inl hdw
          · exact Or.inr (dropWhile_headD_false _ _ hdw)
        by_cases hbrk : ((List.drop 2 (af)).takeWhile notNetlocDelim).contains '[' = true ∨
            ((List.drop 2 (af)).takeWhile notNetlocDelim).contains ']' = true
        · rw [if_pos hbrk] at h
          exact absurd h (by simp)
        · rw [if_neg hbrk] at h
          cases hfg : splitFirst '#' ((List.drop 2 (af)).dropWhile notNetlocDelim) with
          | none =>
            have hnf : '#' ∉ ((List.drop 2 (af)).dropWhile notNetlocDelim) := splitFirst_none_not_mem _ _ hfg
            rw [hfg] at h
            dsimp only at h
            cases hqr : splitFirst '?' ((List.drop 2 (af)).dropWhile notNetlocDelim) with
            | none =>
              have hnq : '?' ∉ ((List.drop 2 (af)).dropWhile notNetlocDelim) := splitFirst_none_not_mem _ _ hqr
              rw [hqr] at h
              dsimp only at h
              rw [Except.ok.injEq] at h
              subst h
              exact urlsplit_inv_concl u (bf.map lowerAsciiChar) ((List.drop 2 (af)).takeWhile notNetlocDelim) ((List.drop 2 (af)).dropWhile notNetlocDelim) []
                ((List.drop 2 (af)).dropWhile notNetlocDelim) hcl hschmap hnetf hr2h ⟨[], by simp⟩ hnq hnf
                hr2m (by simp) (by simp)
            | some qp2 =>
              obtain ⟨pv, qv⟩ := qp2
              obtain ⟨hd2, hn2⟩ := splitFirst_some _ _ _ _ hqr
              rw [hqr] at h
              dsimp only at h
              rw [Except.ok.injEq] at h
              subst h
              exact urlsplit_inv_concl u (bf.map lowerAsciiChar) ((List.drop 2 (af)).takeWhile notNetlocDelim) pv qv
                ((List.drop 2 (af)).dropWhile notNetlocDelim) hcl hschmap hnetf hr2h ⟨'?' :: qv, hd2⟩ hn2
                (fun hm => hnf (by
                  rw [hd2]; exact List.mem_append.mpr (Or.inl hm)))
                (fun c hc => hr2m c (by
                  rw [hd2]; exact List.mem_append.mpr (Or.inl hc)))
                (fun hm => hnf (by
                  rw [hd2]
                  exact List.mem_append.mpr (Or.inr (List.mem_cons_of_mem _ hm))))
                (fun c hc => hr2m c (by
                  rw [hd2]
                  exact List.mem_append.mpr (Or.inr (List.mem_cons_of_mem _ hc))))
          | some fp2 =>
            obtain ⟨av, bv⟩ := fp2
            obtain ⟨hd1, hn1⟩ := splitFirst_some _ _ _ _ hfg
            rw [hfg] at h
            dsimp only at h
            have havm : ∀ c ∈ av, c ∈ u := fun c hc => hr2m c (by
              rw [hd1]; exact List.mem_append.mpr (Or.inl hc))
            have hpref1 : ∃ s, ((List.drop 2 (af)).dropWhile notNetlocDelim) = av ++ s := ⟨'#' :: bv, hd1⟩
            cases hqr : splitFirst '?' av with
            | none =>
              have hnq : '?' ∉ av := splitFirst_none_not_mem _ _ hqr
              rw [hqr] at h
              dsimp only at h
              rw [Except.ok.injEq] at h
              subst h
              exact urlsplit_inv_concl u (bf.map lowerAsciiChar) ((List.drop 2 (af)).takeWhile notNetlocDelim) av [] ((List.drop 2 (af)).dropWhile notNetlocDelim)
                hcl hschmap hnetf hr2h hpref1 hnq
                (fun hm => hn1 hm) havm (by simp) (by simp)
            | some qp2 =>
              obtain ⟨pv, qv⟩ := qp2
              obtain ⟨hd2, hn2⟩ := splitFirst_some _ _ _ _ hqr
              rw [hqr] at h
              dsimp only at h
              rw [Except.ok.injEq] at h
              subst h
              exact urlsplit_inv_concl u (bf.map lowerAsciiChar) ((List.drop 2 (af)).takeWhile notNetlocDelim) pv qv ((List.drop 2 (af)).dropWhile notNetlocDelim)
                hcl hschmap hnetf hr2h
                ⟨'?' :: (qv ++ '#' :: bv), by rw [hd1, hd2, List.append_assoc]; rfl⟩
                hn2
                (fun hm => hn1 (by
                  rw [hd2]; exact List.mem_append.mpr (Or.inl hm)))
                (fun c hc => havm c (by
                  rw [hd2]; exact List.mem_append.mpr (Or.inl hc)))
                (fun hm => hn1 (by
                  rw [hd2]
                  exact List.mem_append.mpr (Or.inr (List.mem_cons_of_mem _ hm))))
                (fun c hc => havm c (by
                  rw [hd2]
                  exact List.mem_append.mpr (Or.inr (List.mem_cons_of_mem _ hc))))
      · rw [if_neg hsl] at h
        dsimp only at h
        have hnetf : ∀ c ∈ ([] : List Char),
            notNetlocDelim c = true ∧ cleanUrlChar c = true := by simp
        have hr2h : ([] : List Char) ≠ [] → ((af) = [] ∨
            notNetlocDelim ((af).headD ' ') = false) :=
          fun hn => absurd rfl hn
        by_cases hbrk : (([] : List Char)).contains '[' = true ∨
            (([] : List Char)).contains ']' = true
        · rw [if_pos hbrk] at h
          exact absurd h (by simp)
        · rw [if_neg hbrk] at h
          cases hfg : splitFirst '#' (af) with
          | none =>
            have hnf : '#' ∉ (af) := splitFirst_none_not_mem _ _ hfg
            rw [hfg] at h
            dsimp only at h
            cases hqr : splitFirst '?' (af) with
            | none =>
              have hnq : '?' ∉ (af) := splitFirst_none_not_mem _ _ hqr
              rw [hqr] at h
              dsimp only at h
              rw [Except.ok.injEq] at h
              subst h
              exact urlsplit_inv_concl u (bf.map lowerAsciiChar) (([] : List Char)) (af) []
                (af) hcl hschmap hnetf hr2h ⟨[], by simp⟩ hnq hnf
                hrestaf (by simp) (by simp)
            | some qp2 =>
              obtain ⟨pv, qv⟩ := qp2
              obtain ⟨hd2, hn2⟩ := splitFirst_some _ _ _ _ hqr
              rw [hqr] at h
              dsimp only at h
              rw [Except.ok.injEq] at h
              subst h
              exact urlsplit_inv_concl u (bf.map lowerAsciiChar) (([] : List Char)) pv qv
                (af) hcl hschmap hnetf hr2h ⟨'?' :: qv, hd2⟩ hn2
                (fun hm => hnf (by
                  rw [hd2]; exact List.mem_append.mpr (Or.inl hm)))
                (fun c hc => hrestaf c (by
                  rw [hd2]; exact List.mem_append.mpr (Or.inl hc)))
                (fun hm => hnf (by
                  rw [hd2]
                  exact List.mem_append.mpr (Or.inr (List.mem_cons_of_mem _ hm))))
                (fun c hc => hrestaf c (by
                  rw [hd2]
                  exact List.mem_append.mpr (Or.inr (List.mem_cons_of_mem _ hc))))
          | some fp2 =>
            obtain ⟨av, bv⟩ := fp2
            obtain ⟨hd1, hn1⟩ := splitFirst_some _ _ _ _ hfg
            rw [hfg] at h
            dsimp only at h
            have havm : ∀ c ∈ av, c ∈ u := fun c hc => hrestaf c (by
              rw [hd1]; exact List.mem_append.mpr (Or.inl hc))
            have hpref1 : ∃ s, (af) = av ++ s := ⟨'#' :: bv, hd1⟩
            cases hqr : splitFirst '?' av with
            | none =>
              have hnq : '?' ∉ av := splitFirst_none_not_mem _ _ hqr
              rw [hqr] at h
              dsimp only at h
              rw [Except.ok.injEq] at h
              subst h
              exact urlsplit_inv_concl u (bf.map lowerAsciiChar) (([] : List Char)) av [] (af)
                hcl hschmap hnetf hr2h hpref1 hnq
                (fun hm => hn1 hm) havm (by simp) (by simp)
            | some qp2 =>
              obtain ⟨pv, qv⟩ := qp2
              obtain ⟨hd2, hn2⟩ := splitFirst_some _ _ _ _ hqr
              rw [hqr] at h
              dsimp only at h
              rw [Except.ok.injEq] at h
              subst h
              exact urlsplit_inv_concl u (bf.map lowerAsciiChar) (([] : List Char)) pv qv (af)
                hcl hschmap hnetf hr2h
                ⟨'?' :: (qv ++ '#' :: bv), by rw [hd1, hd2, List.append_assoc]; rfl⟩
                hn2
                (fun hm => hn1 (by
                  rw [hd2]; exact List.mem_append.mpr (Or.inl hm)))
                (fun c hc => havm c (by
                  rw [hd2]; exact List.mem_append.mpr (Or.inl hc)))
                (fun hm => hn1 (by
                  rw [hd2]
                  exact List.mem_append.mpr (Or.inr (List.mem_cons_of_mem _ hm))))
                (fun c hc => havm c (by
                  rw [hd2]
                  exact List.mem_append.mpr (Or.inr (List.mem_cons_of_mem _ hc))))
    · rw [if_neg hv] at h
      dsimp only at h
      by_cases hsl : List.take 2 (u) = ['/', '/']
      · rw [if_pos hsl] at h
        dsimp only at h
        have hnetf : ∀ c ∈ (List.drop 2 (u)).takeWhile notNetlocDelim,
            notNetlocDelim c = true ∧ cleanUrlChar c = true :=
          fun c hc => ⟨List.mem_takeWhile_imp hc,
            hcl c (hmemu c ((List.drop_sublist 2 (u)).subset
              ((List.takeWhile_sublist _).subset hc)))⟩
        have hr2m : ∀ c ∈ (List.drop 2 (u)).dropWhile notNetlocDelim,
            c ∈ u :=
          fun c hc => hmemu c ((List.drop_sublist 2 (u)).subset
            ((List.dropWhile_sublist _).subset hc))
        have hr2h : (List.drop 2 (u)).takeWhile notNetlocDelim ≠ [] →
            (List.drop 2 (u)).dropWhile notNetlocDelim = [] ∨
            notNetlocDelim (((List.drop 2 (u)).dropWhile
              notNetlocDelim).headD ' ') = false := by
          intro hne2
          by_cases hdw : (List.drop 2 (u)).dropWhile notNetlocDelim = []
          · exact Or.inl hdw
          · exact Or.inr (dropWhile_headD_false _ _ hdw)
        by_cases hbrk : ((List.drop 2 (u)).takeWhile notNetlocDelim).contains '[' = true ∨
            ((List.drop 2 (u)).takeWhile notNetlocDelim).contains ']' = true
        · rw [if_pos hbrk] at h
          exact absurd h (by simp)
        · rw [if_neg hbrk] at h
          cases hfg : splitFirst '#' ((List.drop 2 (u)).dropWhile notNetlocDelim) with
          | none =>
            have hnf : '#' ∉ ((List.drop 2 (u)).dropWhile notNetlocDelim) := splitFirst_none_not_mem _ _ hfg
            rw [hfg] at h
            dsimp only at h
            cases hqr : splitFirst '?' ((List.drop 2 (u)).dropWhile notNetlocDelim) with
            | none =>
              have hnq : '?' ∉ ((List.drop 2 (u)).dropWhile notNetlocDelim) := splitFirst_none_not_mem _ _ hqr
              rw [hqr] at h
              dsimp only at h
              rw [Except.ok.injEq] at h
              subst h
              exact urlsplit_inv_concl u ([] : List Char) ((List.drop 2 (u)).takeWhile notNetlocDelim) ((List.drop 2 (u)).dropWhile notNetlocDelim) []
                ((List.drop 2 (u)).dropWhile notNetlocDelim) hcl hnilsch hnetf hr2h ⟨[], by simp⟩ hnq hnf
                hr2m (by simp) (by simp)
            | some qp2 =>
              obtain ⟨pv, qv⟩ := qp2
              obtain ⟨hd2, hn2⟩ := splitFirst_some _ _ _ _ hqr
              rw [hqr] at h
              dsimp only at h
              rw [Except.ok.injEq] at h
              subst h
              exact urlsplit_inv_concl u ([] : List Char) ((List.drop 2 (u)).takeWhile notNetlocDelim) pv qv
                ((List.drop 2 (u)).dropWhile notNetlocDelim) hcl hnilsch hnetf hr2h ⟨'?' :: qv, hd2⟩ hn2
                (fun hm => hnf (by
                  rw [hd2]; exact List.mem_append.mpr (Or.inl hm)))
                (fun c hc => hr2m c (by
                  rw [hd2]; exact List.mem_append.mpr (Or.inl hc)))
                (fun hm => hnf (by
                  rw [hd2]
                  exact List.mem_append.mpr (Or.inr (List.mem_cons_of_mem _ hm))))
                (fun c hc => hr2m c (by
                  rw [hd2]
                  exact List.mem_append.mpr (Or.inr (List.mem_cons_of_mem _ hc))))
          | some fp2 =>
            obtain ⟨av, bv⟩ := fp2
            obtain ⟨hd1, hn1⟩ := splitFirst_some _ _ _ _ hfg
            rw [hfg] at h
            dsimp only at h
            have havm : ∀ c ∈ av, c ∈ u := fun c hc => hr2m c (by
              rw [hd1]; exact List.mem_append.mpr (Or.inl hc))
            have hpref1 : ∃ s, ((List.drop 2 (u)).dropWhile notNetlocDelim) = av ++ s := ⟨'#' :: bv, hd1⟩
            cases hqr : splitFirst '?' av with
            | none =>
              have hnq : '?' ∉ av := splitFirst_none_not_mem _ _ hqr
              rw [hqr] at h
              dsimp only at h
              rw [Except.ok.injEq] at h
              subst h
              exact urlsplit_inv_concl u ([] : List Char) ((List.drop 2 (u)).takeWhile notNetlocDelim) av [] ((List.drop 2 (u)).dropWhile notNetlocDelim)
                hcl hnilsch hnetf hr2h hpref1 hnq
                (fun hm => hn1 hm) havm (by simp) (by simp)
            | some qp2 =>
              obtain ⟨pv, qv⟩ := qp2
              obtain ⟨hd2, hn2⟩ := splitFirst_some _ _ _ _ hqr
              rw [hqr] at h
              dsimp only at h
              rw [Except.ok.injEq] at h
              subst h
              exact urlsplit_inv_concl u ([] : List Char) ((List.drop 2 (u)).takeWhile notNetlocDelim) pv qv ((List.drop 2 (u)).dropWhile notNetlocDelim)
                hcl hnilsch hnetf hr2h
                ⟨'?' :: (qv ++ '#' :: bv), by rw [hd1, hd2, List.append_assoc]; rfl⟩
                hn2
                (fun hm => hn1 (by
                  rw [hd2]; exact List.mem_append.mpr (Or.inl hm)))
                (fun c hc => havm c (by
                  rw [hd2]; exact List.mem_append.mpr (Or.inl hc)))
                (fun hm => hn1 (by
                  rw [hd2]
                  exact List.mem_append.mpr (Or.inr (List.mem_cons_of_mem _ hm))))
                (fun c hc => havm c (by
                  rw [hd2]
                  exact List.mem_append.mpr (Or.inr (List.mem_cons_of_mem _ hc))))
      · rw [if_neg hsl] at h
        dsimp only at h
        have hnetf : ∀ c ∈ ([] : List Char),
            notNetlocDelim c = true ∧ cleanUrlChar c = true := by simp
        have hr2h : ([] : List Char) ≠ [] → ((u) = [] ∨
            notNetlocDelim ((u).headD ' ') = false) :=
          fun hn => absurd rfl hn
        by_cases hbrk : (([] : List Char)).contains '[' = true ∨
            (([] : List Char)).contains ']' = true
        · rw [if_pos hbrk] at h
          exact absurd h (by simp)
        · rw [if_neg hbrk] at h
          cases hfg : splitFirst '#' (u) with
          | none =>
            have hnf : '#' ∉ (u) := splitFirst_none_not_mem _ _ hfg
            rw [hfg] at h
            dsimp only at h
            cases hqr : splitFirst '?' (u) with
            | none =>
              have hnq : '?' ∉ (u) := splitFirst_none_not_mem _ _ hqr
              rw [hqr] at h
              dsimp only at h
              rw [Except.ok.injEq] at h
              subst h
              exact urlsplit_inv_concl u ([] : List Char) (([] : List Char)) (u) []
                (u) hcl hnilsch hnetf hr2h ⟨[], by simp⟩ hnq hnf
                hmemu (by simp) (by simp)
            | some qp2 =>
              obtain ⟨pv, qv⟩ := qp2
              obtain ⟨hd2, hn2⟩ := splitFirst_some _ _ _ _ hqr
              rw [hqr] at h
              dsimp only at h
              rw [Except.ok.injEq] at h
              subst h
              exact urlsplit_inv_concl u ([] : List Char) (([] : List Char)) pv qv
                (u) hcl hnilsch hnetf hr2h ⟨'?' :: qv, hd2⟩ hn2
                (fun hm => hnf (by
                  rw [hd2]; exact List.mem_append.mpr (Or.inl hm)))
                (fun c hc => hmemu c (by
                  rw [hd2]; exact List.mem_append.mpr (Or.inl hc)))
                (fun hm => hnf (by
                  rw [hd2]
                  exact List.mem_append.mpr (Or.inr (List.mem_cons_of_mem _ hm))))
                (fun c hc => hmemu c (by
                  rw [hd2]
                  exact List.mem_append.mpr (Or.inr (List.mem_cons_of_mem _ hc))))
          | some fp2 =>
            obtain ⟨av, bv⟩ := fp2
            obtain ⟨hd1, hn1⟩ := splitFirst_some _ _ _ _ hfg
            rw [hfg] at h
            dsimp only at h
            have havm : ∀ c ∈ av, c ∈ u := fun c hc => hmemu c (by
              rw [hd1]; exact List.mem_append.mpr (Or.inl hc))
            have hpref1 : ∃ s, (u) = av ++ s := ⟨'#' :: bv, hd1⟩
            cases hqr : splitFirst '?' av with
            | none =>
              have hnq : '?' ∉ av := splitFirst_none_not_mem _ _ hqr
              rw [hqr] at h
              dsimp only at h
              rw [Except.ok.injEq] at h
              subst h
              exact urlsplit_inv_concl u ([] : List Char) (([] : List Char)) av [] (u)
                hcl hnilsch hnetf hr2h hpref1 hnq
                (fun hm => hn1 hm) havm (by simp) (by simp)
            | some qp2 =>
              obtain ⟨pv, qv⟩ := qp2
              obtain ⟨hd2, hn2⟩ := splitFirst_some _ _ _ _ hqr
              rw [hqr] at h
              dsimp only at h
              rw [Except.ok.injEq] at h
              subst h
              exact urlsplit_inv_concl u ([] : List Char) (([] : List Char)) pv qv (u)
                hcl hnilsch hnetf hr2h
                ⟨'?' :: (qv ++ '#' :: bv), by rw [hd1, hd2, List.append_assoc]; rfl⟩
                hn2
                (fun hm => hn1 (by
                  rw [hd2]; exact List.mem_append.mpr (Or.inl hm)))
                (fun c hc => havm c (by
                  rw [hd2]; exact List.mem_append.mpr (Or.inl hc)))
                (fun hm => hn1 (by
                  rw [hd2]
                  exact List.mem_append.mpr (Or.inr (List.mem_cons_of_mem _ hm))))
                (fun c hc => havm c (by
                  rw [hd2]
                  exact List.mem_append.mpr (Or.inr (List.mem_cons_of_mem _ hc))))

/-! ## URL canonicalizer lemmas: the reassembled output is a fixed point -/

theorem ws_false_of_ge (c : Char) (h : 0x21 ≤ c.toNat) : isPyWs c = false := by
  simp only [isPyWs, decide_eq_false_iff_not]
  rintro (rfl | rfl | rfl | rfl | rfl | rfl) <;> exact absurd h (by decide)

theorem reassembled_core (scheme netloc path' q' : List Char)
    (hs : scheme = [] ∨ (isAsciiAlpha (scheme.headD ' ') = true ∧
      scheme.all isSchemeChar = true ∧ scheme.map lowerAsciiChar = scheme))
    (hnet : netloc ≠ [])
    (hnetc : ∀ c ∈ netloc, notNetlocDelim c = true ∧ cleanUrlChar c = true)
    (hpath : path' = [] ∨ path'.headD ' ' = '/')
    (hpathc : ∀ c ∈ path', c ≠ '?' ∧ c ≠ '#' ∧ cleanUrlChar c = true)
    (hqc : ∀ c ∈ q', 0x21 ≤ c.toNat ∧ c.toNat ≤ 0x7E ∧ c.toNat ≠ 0x23) :
    urlparseE (urlunsplit scheme netloc path' q' []) =
      .ok ⟨scheme, netloc, path', [], q', []⟩ ∧
    pyStripL (urlunsplit scheme netloc path' q' []) =
      urlunsplit scheme netloc path' q' [] ∧
    urlunsplit scheme netloc path' q' [] ≠ [] := by
  have hsplit := urlsplitE_reassemble scheme netloc path' q' hs hnet
    (fun c hc => by
      obtain ⟨h1, h2⟩ := hnetc c hc
      obtain ⟨g1, g2, g3, g4, g5⟩ := cleanUrlChar_spec c h2
      refine ⟨h1, g1, ?_, ?_⟩
      · exact fun he => g4 (char_eq_of_toNat_eq c '[' (by rw [he]; rfl))
      · exact fun he => g5 (char_eq_of_toNat_eq c ']' (by rw [he]; rfl)))
    hpath
    (fun c hc => by
      obtain ⟨h1, h2, h3⟩ := hpathc c hc
      obtain ⟨g1, -⟩ := cleanUrlChar_spec c h3
      refine ⟨g1, ?_, ?_⟩
      · exact fun he => h1 (char_eq_of_toNat_eq c '?' (by rw [he]; rfl))
      · exact fun he => h2 (char_eq_of_toNat_eq c '#' (by rw [he]; rfl)))
    (fun c hc => ⟨(hqc c hc).1, (hqc c hc).2.2⟩)
  have hguard : ¬(path' ≠ [] ∧ path'.headD ' ' ≠ '/') := by
    rcases hpath with h | h
    · exact fun hc => hc.1 h
    · exact fun hc => hc.2 h
  have hasm : urlunsplit scheme netloc path' q' [] =
      (if scheme = [] then [] else scheme ++ [':']) ++
        ('/' :: '/' :: (netloc ++ path') ++
          (if q' = [] then [] else '?' :: q')) := by
    simp only [urlunsplit]
    rw [if_neg hguard, if_pos (Or.inl hnet), if_neg (by simp)]
    by_cases hs0 : scheme = [] <;> by_cases hq0 : q' = [] <;>
      simp [hs0, hq0, List.append_assoc]
  have hws : ∀ c ∈ urlunsplit scheme netloc path' q' [], isPyWs c = false := by
    intro c hc
    rw [hasm] at hc
    apply ws_false_of_ge
    rcases List.mem_append.mp hc with hc | hc
    · by_cases hs0 : scheme = []
      · rw [if_pos hs0] at hc; simp at hc
      · rw [if_neg hs0] at hc
        rcases List.mem_append.mp hc with hc | hc
        · rcases hs with h | ⟨-, hall, -⟩
          · exact absurd h hs0
          · exact (isSchemeChar_facts c (List.all_eq_true.mp hall c hc)).1
        · simp only [List.mem_singleton] at hc
          subst hc
          decide
    · rcases List.mem_cons.mp hc with rfl | hc
      · decide
      rcases List.mem_cons.mp hc with rfl | hc
      · decide
      rcases List.mem_append.mp hc with hc | hc
      · rcases List.mem_append.mp hc with hc | hc
        · exact (cleanUrlChar_spec c (hnetc c hc).2).1
        · exact (cleanUrlChar_spec c (hpathc c hc).2.2).1
      · by_cases hq0 : q' = []
        · rw [if_pos hq0] at hc; simp at hc
        · rw [if_neg hq0] at hc
          rcases List.mem_cons.mp hc with rfl | hc
          · decide
          · exact (hqc c hc).1
  refine ⟨?_, pyStripL_eq_self _ hws, ?_⟩
  · apply urlparseE_of_split _ _ hsplit
    exact contains_eq_false_of_not_mem _ _
      (fun hm => (cleanUrlChar_spec ';' ((hpathc ';' hm).2.2)).2.2.1 rfl)
  · intro h0
    have h2 := (show urlsplitE [] = Except.ok ⟨[], [], [], [], []⟩ from
      rfl).symm.trans (h0 ▸ hsplit)
    rw [Except.ok.injEq] at h2
    have h3 : ([] : List Char) = netloc := congrArg SplitResult.netloc h2
    exact hnet h3.symm

theorem urlunparse_nil_params (s n pa q f : List Char) :
    urlunparse s n pa [] q f = urlunsplit s n pa q f := by
  rw [urlunparse, if_neg (by simp)]

theorem contains_ne_nil (n l : List Char) (h : containsSub n l = true)
    (hn : n.isEmpty = false) : l ≠ [] := by
  intro h0
  rw [h0, containsSub, hn] at h
  simp at h

theorem urlparseE_ok_clean_inv (u : List Char) (p : ParseResult)
    (hcl : ∀ c ∈ u, cleanUrlChar c = true)
    (h : urlparseE u = .ok p) :
    urlsplitE u = .ok ⟨p.scheme, p.netloc, p.path, p.query, p.fragment⟩ ∧
      p.params = [] := by
  simp only [urlparseE] at h
  cases hs : urlsplitE u with
  | error e => rw [hs] at h; simp at h
  | ok r =>
    rw [hs] at h
    dsimp only at h
    obtain ⟨-, -, -, fpath, -⟩ := urlsplitE_ok_clean u r hcl hs
    have hnos : r.path.contains ';' = false :=
      contains_eq_false_of_not_mem _ _
        (fun hm => (cleanUrlChar_spec ';' ((fpath ';' hm).2.2)).2.2.1 rfl)
    rw [if_neg (fun hc => absurd hc.2 (by rw [hnos]; simp))] at h
    rw [Except.ok.injEq] at h
    subst h
    exact ⟨rfl, rfl⟩

/-- the Instagram/Facebook branch output is a fixed point of
normalize_url -/
theorem branch_fixed_ig (scheme netloc path' : List Char)
    (filtered : List (List Char × List (List Char)))
    (hs : scheme = [] ∨ (isAsciiAlpha (scheme.headD ' ') = true ∧
      scheme.all isSchemeChar = true ∧ scheme.map lowerAsciiChar = scheme))
    (hnet : netloc ≠ [])
    (hnetc : ∀ c ∈ netloc, notNetlocDelim c = true ∧ cleanUrlChar c = true)
    (hpath : path' = [] ∨ path'.headD ' ' = '/')
    (hpathc : ∀ c ∈ path', c ≠ '?' ∧ c ≠ '#' ∧ cleanUrlChar c = true)
    (hrid : rstripSlashL path' = path')
    (hcond : containsSub "instagram.com".data netloc = true ∨
      containsSub "facebook.com".data netloc = true)
    (hfshape : filtered = [] ∨ ∃ vs, filtered = [("img_index".data, vs)] ∧
      vs ≠ [] ∧ ∀ v ∈ vs, v ≠ []) :
    normalize_url_list
        (urlunsplit scheme netloc path' (urlencode filtered) []) =
      urlunsplit scheme netloc path' (urlencode filtered) [] := by
  have hfk : ∀ kv ∈ filtered, plainKey kv.1 = true := by
    rcases hfshape with rfl | ⟨vs, rfl, -, -⟩
    · simp
    · intro kv hkv
      simp only [List.mem_singleton] at hkv
      subst hkv
      exact (by decide : plainKey "img_index".data = true)
  have hqc : ∀ c ∈ urlencode filtered,
      0x21 ≤ c.toNat ∧ c.toNat ≤ 0x7E ∧ c.toNat ≠ 0x23 :=
    fun c hc => mem_urlencode c filtered hfk hc
  obtain ⟨hpe, hstr, hne⟩ := reassembled_core scheme netloc path'
    (urlencode filtered) hs hnet hnetc hpath hpathc hqc
  have hroundtrip : parse_qs (urlencode filtered) = filtered := by
    rcases hfshape with rfl | ⟨vs, rfl, hvs, hv⟩
    · rfl
    · apply parse_qs_urlencode
      · intro kv hkv
        simp only [List.mem_singleton] at hkv
        subst hkv
        exact (by decide : plainKey "img_index".data = true)
      · simp
      · intro kv hkv
        simp only [List.mem_singleton] at hkv
        subst hkv
        exact ⟨hvs, hv⟩
  simp only [normalize_url_list]
  rw [if_neg hne, hstr, hpe]
  dsimp only
  rw [if_pos hcond, hroundtrip]
  rcases hfshape with rfl | ⟨vs, rfl, hvs, hv⟩
  · rw [show List.find? (fun kv => decide (kv.1 = "img_index".data))
      ([] : List (List Char × List (List Char))) = none from rfl]
    dsimp only
    rw [urlunparse_nil_params, hrid]
  · rw [show List.find? (fun kv => decide (kv.1 = "img_index".data))
      [("img_index".data, vs)] = some ("img_index".data, vs) from by
        rw [List.find?]
        simp]
    dsimp only
    rw [urlunparse_nil_params, hrid]

/-- the TikTok branch output is a fixed point of normalize_url -/
theorem branch_fixed_tiktok (scheme netloc path' : List Char)
    (hs : scheme = [] ∨ (isAsciiAlpha (scheme.headD ' ') = true ∧
      scheme.all isSchemeChar = true ∧ scheme.map lowerAsciiChar = scheme))
    (hnet : netloc ≠ [])
    (hnetc : ∀ c ∈ netloc, notNetlocDelim c = true ∧ cleanUrlChar c = true)
    (hpath : path' = [] ∨ path'.headD ' ' = '/')
    (hpathc : ∀ c ∈ path', c ≠ '?' ∧ c ≠ '#' ∧ cleanUrlChar c = true)
    (hrid : rstripSlashL path' = path')
    (hcond1 : ¬(containsSub "instagram.com".data netloc = true ∨
      containsSub "facebook.com".data netloc = true))
    (hcond2 : containsSub "tiktok.com".data netloc = true) :
    normalize_url_list (urlunsplit scheme netloc path' [] []) =
      urlunsplit scheme netloc path' [] [] := by
  obtain ⟨hpe, hstr, hne⟩ := reassembled_core scheme netloc path' [] hs hnet
    hnetc hpath hpathc (by simp)
  simp only [normalize_url_list]
  rw [if_neg hne, hstr, hpe]
  dsimp only
  rw [if_neg hcond1, if_pos hcond2, urlunparse_nil_params, hrid]

/-- the YouTube branch output is a fixed point of normalize_url -/
theorem branch_fixed_yt (scheme netloc path' : List Char)
    (filtered : List (List Char × List (List Char)))
    (hs : scheme = [] ∨ (isAsciiAlpha (scheme.headD ' ') = true ∧
      scheme.all isSchemeChar = true ∧ scheme.map lowerAsciiChar = scheme))
    (hnet : netloc ≠ [])
    (hnetc : ∀ c ∈ netloc, notNetlocDelim c = true ∧ cleanUrlChar c = true)
    (hpath : path' = [] ∨ path'.headD ' ' = '/')
    (hpathc : ∀ c ∈ path', c ≠ '?' ∧ c ≠ '#' ∧ cleanUrlChar c = true)
    (hrid : rstripSlashL path' = path')
    (hcond1 : ¬(containsSub "instagram.com".data netloc = true ∨
      containsSub "facebook.com".data netloc = true))
    (hcond2 : ¬ containsSub "tiktok.com".data netloc = true)
    (hcond3 : containsSub "youtube.com".data netloc = true ∨
      containsSub "youtu.be".data netloc = true)
    (hfkeys : ∀ kv ∈ filtered, kv.1 = "v".data ∨ kv.1 = "t".data)
    (hfpw : List.Pairwise (fun a b => a.1 ≠ b.1) filtered)
    (hfv : ∀ kv ∈ filtered, kv.2 ≠ [] ∧ ∀ v ∈ kv.2, v ≠ []) :
    normalize_url_list
        (urlunsplit scheme netloc path' (urlencode filtered) []) =
      urlunsplit scheme netloc path' (urlencode filtered) [] := by
  have hfk : ∀ kv ∈ filtered, plainKey kv.1 = true := by
    intro kv hkv
    rcases hfkeys kv hkv with h | h <;> rw [h] <;> decide
  have hqc : ∀ c ∈ urlencode filtered,
      0x21 ≤ c.toNat ∧ c.toNat ≤ 0x7E ∧ c.toNat ≠ 0x23 :=
    fun c hc => mem_urlencode c filtered hfk hc
  obtain ⟨hpe, hstr, hne⟩ := reassembled_core scheme netloc path'
    (urlencode filtered) hs hnet hnetc hpath hpathc hqc
  have hroundtrip : parse_qs (urlencode filtered) = filtered :=
    parse_qs_urlencode filtered hfk hfpw hfv
  have hrefilter : filtered.filter
      (fun kv => decide (kv.1 = "v".data ∨ kv.1 = "t".data)) =
      filtered := by
    apply List.filter_eq_self.mpr
    intro kv hkv
    rcases hfkeys kv hkv with h | h <;> simp [h]
  simp only [normalize_url_list]
  rw [if_neg hne, hstr, hpe]
  dsimp only
  rw [if_neg hcond1, if_neg hcond2, if_pos hcond3, hroundtrip, hrefilter,
    urlunparse_nil_params, hrid]

/-- the SoundCloud branch output is a fixed point of normalize_url -/
theorem branch_fixed_sc (scheme netloc path' : List Char)
    (hs : scheme = [] ∨ (isAsciiAlpha (scheme.headD ' ') = true ∧
      scheme.all isSchemeChar = true ∧ scheme.map lowerAsciiChar = scheme))
    (hnet : netloc ≠ [])
    (hnetc : ∀ c ∈ netloc, notNetlocDelim c = true ∧ cleanUrlChar c = true)
    (hpath : path' = [] ∨ path'.headD ' ' = '/')
    (hpathc : ∀ c ∈ path', c ≠ '?' ∧ c ≠ '#' ∧ cleanUrlChar c = true)
    (hrid : rstripSlashL path' = path')
    (hcond1 : ¬(containsSub "instagram.com".data netloc = true ∨
      containsSub "facebook.com".data netloc = true))
    (hcond2 : ¬ containsSub "tiktok.com".data netloc = true)
    (hcond3 : ¬(containsSub "youtube.com".data netloc = true ∨
      containsSub "youtu.be".data netloc = true))
    (hcond4 : containsSub "soundcloud.com".data netloc = true) :
    normalize_url_list (urlunsplit scheme netloc path' [] []) =
      urlunsplit scheme netloc path' [] [] := by
  obtain ⟨hpe, hstr, hne⟩ := reassembled_core scheme netloc path' [] hs hnet
    hnetc hpath hpathc (by simp)
  simp only [normalize_url_list]
  rw [if_neg hne, hstr, hpe]
  dsimp only
  rw [if_neg hcond1, if_neg hcond2, if_neg hcond3, if_pos hcond4,
    urlunparse_nil_params, hrid]

/-- idempotence of the canonicalizer on clean inputs (no whitespace, no
semicolons, no brackets, printable ASCII) -/
theorem normalize_idem_clean (u : List Char)
    (hcl : ∀ c ∈ u, cleanUrlChar c = true) :
    normalize_url_list (normalize_url_list u) = normalize_url_list u := by
  by_cases hnil : u = []
  · subst hnil; rfl
  have hws : ∀ c ∈ u, isPyWs c = false :=
    fun c hc => cleanUrlChar_not_ws c (hcl c hc)
  have hstrip : pyStripL u = u := pyStripL_eq_self u hws
  cases hpe : urlparseE u with
  | error e =>
    have h1 : normalize_url_list u = u := by
      simp only [normalize_url_list]
      rw [if_neg hnil, hstrip, hpe]
      exact pyRStripL_eq_self u hws
    rw [h1]
    exact h1
  | ok p =>
    obtain ⟨hsplit, hparams⟩ := urlparseE_ok_clean_inv u p hcl hpe
    obtain ⟨fsch, fnet, fhead, fpath, fquery⟩ :=
      urlsplitE_ok_clean u _ hcl hsplit
    by_cases hc1 : containsSub "instagram.com".data p.netloc = true ∨
        containsSub "facebook.com".data p.netloc = true
    · have hnetne : p.netloc ≠ [] := by
        rcases hc1 with h | h
        · exact contains_ne_nil _ _ h (by decide)
        · exact contains_ne_nil _ _ h (by decide)
      have hpath' := rstripSlashL_shape p.path (fhead hnetne)
      have hpathc' : ∀ c ∈ rstripSlashL p.path,
          c ≠ '?' ∧ c ≠ '#' ∧ cleanUrlChar c = true :=
        fun c hc => fpath c (mem_rstripSlashL c _ hc)
      cases hfind : (parse_qs p.query).find?
          (fun kv => kv.1 = "img_index".data) with
      | none =>
        have h1 : normalize_url_list u =
            urlunsplit p.scheme p.netloc (rstripSlashL p.path)
              (urlencode []) [] := by
          simp only [normalize_url_list]
          rw [if_neg hnil, hstrip, hpe]
          dsimp only
          rw [if_pos hc1, hfind]
          dsimp only
          rw [hparams, urlunparse_nil_params]
        rw [h1]
        exact branch_fixed_ig p.scheme p.netloc (rstripSlashL p.path) []
          fsch hnetne fnet hpath' hpathc' (rstripSlashL_idem _) hc1
          (Or.inl rfl)
      | some kv =>
        have hkvm := List.mem_of_find?_eq_some hfind
        obtain ⟨hkv1, hkv2⟩ := parse_qs_values p.query kv hkvm
        have h1 : normalize_url_list u =
            urlunsplit p.scheme p.netloc (rstripSlashL p.path)
              (urlencode [("img_index".data, kv.2)]) [] := by
          simp only [normalize_url_list]
          rw [if_neg hnil, hstrip, hpe]
          dsimp only
          rw [if_pos hc1, hfind]
          dsimp only
          rw [hparams, urlunparse_nil_params]
        rw [h1]
        exact branch_fixed_ig p.scheme p.netloc (rstripSlashL p.path)
          [("img_index".data, kv.2)]
          fsch hnetne fnet hpath' hpathc' (rstripSlashL_idem _) hc1
          (Or.inr ⟨kv.2, rfl, hkv1, hkv2⟩)
    · by_cases hc2 : containsSub "tiktok.com".data p.netloc = true
      · have hnetne : p.netloc ≠ [] := contains_ne_nil _ _ hc2 (by decide)
        have hpath' := rstripSlashL_shape p.path (fhead hnetne)
        have hpathc' : ∀ c ∈ rstripSlashL p.path,
            c ≠ '?' ∧ c ≠ '#' ∧ cleanUrlChar c = true :=
          fun c hc => fpath c (mem_rstripSlashL c _ hc)
        have h1 : normalize_url_list u =
            urlunsplit p.scheme p.netloc (rstripSlashL p.path) [] [] := by
          simp only [normalize_url_list]
          rw [if_neg hnil, hstrip, hpe]
          dsimp only
          rw [if_neg hc1, if_pos hc2, hparams, urlunparse_nil_params]
        rw [h1]
        exact branch_fixed_tiktok p.scheme p.netloc (rstripSlashL p.path)
          fsch hnetne fnet hpath' hpathc' (rstripSlashL_idem _) hc1 hc2
      · by_cases hc3 : containsSub "youtube.com".data p.netloc = true ∨
            containsSub "youtu.be".data p.netloc = true
        · have hnetne : p.netloc ≠ [] := by
            rcases hc3 with h | h
            · exact contains_ne_nil _ _ h (by decide)
            · exact contains_ne_nil _ _ h (by decide)
          have hpath' := rstripSlashL_shape p.path (fhead hnetne)
          have hpathc' : ∀ c ∈ rstripSlashL p.path,
              c ≠ '?' ∧ c ≠ '#' ∧ cleanUrlChar c = true :=
            fun c hc => fpath c (mem_rstripSlashL c _ hc)
          have hfkeys : ∀ kv ∈ (parse_qs p.query).filter
              (fun kv => kv.1 = "v".data ∨ kv.1 = "t".data),
              kv.1 = "v".data ∨ kv.1 = "t".data := by
            intro kv hkv
            have h2 := (List.mem_filter.mp hkv).2
            simpa using h2
          have hfpw : List.Pairwise (fun a b => a.1 ≠ b.1)
              ((parse_qs p.query).filter
                (fun kv => kv.1 = "v".data ∨ kv.1 = "t".data)) :=
            (parse_qs_pairwise p.query).filter _
          have hfv : ∀ kv ∈ (parse_qs p.query).filter
              (fun kv => kv.1 = "v".data ∨ kv.1 = "t".data),
              kv.2 ≠ [] ∧ ∀ v ∈ kv.2, v ≠ [] :=
            fun kv hkv => parse_qs_values p.query kv
              (List.mem_of_mem_filter hkv)
          have h1 : normalize_url_list u =
              urlunsplit p.scheme p.netloc (rstripSlashL p.path)
                (urlencode ((parse_qs p.query).filter
                  (fun kv => kv.1 = "v".data ∨ kv.1 = "t".data))) [] := by
            simp only [normalize_url_list]
            rw [if_neg hnil, hstrip, hpe]
            dsimp only
            rw [if_neg hc1, if_neg hc2, if_pos hc3, hparams,
              urlunparse_nil_params]
          rw [h1]
          exact branch_fixed_yt p.scheme p.netloc (rstripSlashL p.path)
            ((parse_qs p.query).filter
              (fun kv => kv.1 = "v".data ∨ kv.1 = "t".data))
            fsch hnetne fnet hpath' hpathc' (rstripSlashL_idem _)
            hc1 hc2 hc3 hfkeys hfpw hfv
        · by_cases hc4 : containsSub "soundcloud.com".data p.netloc = true
          · have hnetne : p.netloc ≠ [] :=
              contains_ne_nil _ _ hc4 (by decide)
            have hpath' := rstripSlashL_shape p.path (fhead hnetne)
            have hpathc' : ∀ c ∈ rstripSlashL p.path,
                c ≠ '?' ∧ c ≠ '#' ∧ cleanUrlChar c = true :=
              fun c hc => fpath c (mem_rstripSlashL c _ hc)
            have h1 : normalize_url_list u =
                urlunsplit p.scheme p.netloc (rstripSlashL p.path) [] [] := by
              simp only [normalize_url_list]
              rw [if_neg hnil, hstrip, hpe]
              dsimp only
              rw [if_neg hc1, if_neg hc2, if_neg hc3, if_pos hc4, hparams,
                urlunparse_nil_params]
            rw [h1]
            exact branch_fixed_sc p.scheme p.netloc (rstripSlashL p.path)
              fsch hnetne fnet hpath' hpathc' (rstripSlashL_idem _)
              hc1 hc2 hc3 hc4
          · have h1 : normalize_url_list u = u := by
              simp only [normalize_url_list]
              rw [if_neg hnil, hstrip, hpe]
              dsimp only
              rw [if_neg hc1, if_neg hc2, if_neg hc3, if_neg hc4]
              exact pyRStripL_eq_self u hws
            rw [h1]
            exact h1

/-! ## C1 and C2: URL canonicalizer counterexamples -/

/-- C1 counterexample: the canonicalizer in src/bot.py does NOT prepend
"https://" to scheme-less input (it returns the trimmed input unchanged,
because with no scheme the parsed netloc is empty and no platform branch
fires), so a scheme-less variant does not canonicalize to the same string
as its https form; and host matching is case-sensitive, so a mixed-case
host variant keeps its tracking query and differs from the lowercase
form. -/
theorem C1_normalize_counterexample :
    normalize_url "instagram.com/p/ABC" = "instagram.com/p/ABC" ∧
    normalize_url "instagram.com/p/ABC" ≠ "https://instagram.com/p/ABC" ∧
    normalize_url "instagram.com/p/ABC" ≠
      normalize_url "https://instagram.com/p/ABC" ∧
    normalize_url "https://INSTAGRAM.com/p/A?igsh=x" =
      "https://INSTAGRAM.com/p/A?igsh=x" ∧
    normalize_url "https://INSTAGRAM.com/p/A?igsh=x" ≠
      normalize_url "https://instagram.com/p/A?igsh=x" := by
  refine ⟨rfl, by decide, by decide, rfl, by decide⟩

theorem cleanPathChar_clean (c : Char) (h : cleanPathChar c = true) :
    cleanUrlChar c = true := by
  have h2 : cleanUrlChar c = true ∧ c ≠ '?' ∧ c ≠ '#' := by
    simpa [cleanPathChar] using h
  exact h2.1

theorem cleanQueryChar_clean (c : Char) (h : cleanQueryChar c = true) :
    cleanUrlChar c = true := by
  have h2 : cleanUrlChar c = true ∧ c ≠ '#' := by
    simpa [cleanQueryChar] using h
  exact h2.1

/-- C1 amended: what the canonicalizer actually guarantees.  For a clean
Instagram path `p` (printable ASCII without `;?#[]`, empty or starting
with `/`) and a clean non-empty tracking query `q` whose parsed form has
no `img_index` key, the trailing-slash variant and the query variant
canonicalize to the same string `https://instagram.com` ++ p with the
trailing path slash removed and the query dropped.  But a scheme-less
input is NOT completed with `https://`: any clean input with no `:` and
not starting with `//` is returned unchanged (the parsed netloc is empty,
no platform branch fires, and the fall-through returns the stripped
input).  The whitelisted `img_index` query parameter is retained, shown
on a concrete carousel URL. -/
theorem C1_normalize_amended :
    (∀ p q : List Char, (∀ c ∈ p, cleanPathChar c = true) →
      (p = [] ∨ p.headD ' ' = '/') →
      (∀ c ∈ q, cleanQueryChar c = true) → q ≠ [] →
      (parse_qs q).find? (fun kv => kv.1 = "img_index".data) = none →
      normalize_url_list ("https://instagram.com".data ++ p) =
        "https://instagram.com".data ++ rstripSlashL p ∧
      normalize_url_list ("https://instagram.com".data ++ p ++ ['/']) =
        "https://instagram.com".data ++ rstripSlashL p ∧
      normalize_url_list ("https://instagram.com".data ++ p ++ '?' :: q) =
        "https://instagram.com".data ++ rstripSlashL p) ∧
    (∀ u : List Char, (∀ c ∈ u, cleanUrlChar c = true) → ':' ∉ u →
      ¬ u.take 2 = ['/', '/'] → normalize_url_list u = u) ∧
    normalize_url "https://instagram.com/p/AbC/?igsh=tracker&img_index=2" =
      "https://instagram.com/p/AbC?img_index=2" := by
  refine ⟨?_, fun u hcl hc h2 => normalize_no_scheme u hcl hc h2, by rfl⟩
  intro p q hp hph hq hqne hfind
  have hbase_ws : ∀ c ∈ "https://instagram.com".data, isPyWs c = false := by
    decide
  have hp_ws : ∀ c ∈ p, isPyWs c = false :=
    fun c hc => cleanUrlChar_not_ws c (cleanPathChar_clean c (hp c hc))
  have hpsemi : p.contains ';' = false :=
    no_semicolon_of_clean p (fun c hc => cleanPathChar_clean c (hp c hc))
  have hph' := rstripSlashL_shape p hph
  refine ⟨?_, ?_, ?_⟩
  · -- no trailing slash, no query
    have hsp := urlsplitE_ig p [] hph hp (by simp)
    rw [if_pos rfl, List.append_nil] at hsp
    refine normalize_ig_core _ p [] (by simp) ?_ ?_ rfl hph'
    · apply pyStripL_eq_self
      intro c hc
      rcases List.mem_append.mp hc with hc | hc
      · exact hbase_ws c hc
      · exact hp_ws c hc
    · exact urlparseE_of_split _ _ hsp hpsemi
  · -- trailing slash variant
    have hp2 : ∀ c ∈ p ++ ['/'], cleanPathChar c = true := by
      intro c hc
      rcases List.mem_append.mp hc with hc | hc
      · exact hp c hc
      · simp only [List.mem_singleton] at hc
        subst hc
        decide
    have hph2 : p ++ ['/'] = [] ∨ (p ++ ['/']).headD ' ' = '/' := by
      cases p with
      | nil => exact Or.inr rfl
      | cons c tl =>
        right
        have hc : c = '/' := by
          rcases hph with h | h
          · simp at h
          · exact h
        subst hc
        rfl
    have hsp := urlsplitE_ig (p ++ ['/']) [] hph2 hp2 (by simp)
    rw [if_pos rfl, List.append_nil] at hsp
    have hcore := normalize_ig_core
      ("https://instagram.com".data ++ (p ++ ['/'])) (p ++ ['/']) []
      (by simp) ?_ ?_ rfl (rstripSlashL_shape _ hph2)
    · rw [← List.append_assoc] at hcore
      rw [hcore, rstripSlashL_append_slash]
    · apply pyStripL_eq_self
      intro c hc
      rcases List.mem_append.mp hc with hc | hc
      · exact hbase_ws c hc
      · rcases List.mem_append.mp hc with hc2 | hc2
        · exact hp_ws c hc2
        · simp only [List.mem_singleton] at hc2
          subst hc2
          decide
    · refine urlparseE_of_split _ _ hsp ?_
      apply no_semicolon_of_clean
      intro c hc
      exact cleanPathChar_clean c (hp2 c hc)
  · -- tracking query variant
    have hsp := urlsplitE_ig p q hph hp hq
    rw [if_neg hqne] at hsp
    refine normalize_ig_core _ p q (by simp) ?_ ?_ hfind hph'
    · apply pyStripL_eq_self
      intro c hc
      rcases List.mem_append.mp hc with hc | hc
      · rcases List.mem_append.mp hc with hc | hc
        · exact hbase_ws c hc
        · exact hp_ws c hc
      · rcases List.mem_cons.mp hc with rfl | hc
        · decide
        · exact cleanUrlChar_not_ws c (cleanQueryChar_clean c (hq c hc))
    · exact urlparseE_of_split _ _ hsp hpsemi

/-- witness for C1: a concrete clean path and tracking query, and a
concrete scheme-less URL left unchanged -/
theorem C1_normalize_amended_witness :
    normalize_url_list ("https://instagram.com".data ++ "/p/AbC".data) =
      "https://instagram.com".data ++ rstripSlashL "/p/AbC".data ∧
    normalize_url_list "instagram.com/p/AbC".data =
      "instagram.com/p/AbC".data := by
  refine ⟨(C1_normalize_amended.1 "/p/AbC".data "igsh=zz".data
      (by decide) (by decide) (by decide) (by decide) (by decide)).1,
    C1_normalize_amended.2.1 "instagram.com/p/AbC".data
      (by decide) (by decide) (by decide)⟩

/-- C2 counterexample: normalize_url is not idempotent on every input:
stripping the trailing path slash of "https://instagram.com/p/x /"
exposes a trailing space, which the second pass's str.strip() removes. -/
theorem C2_idempotence_counterexample :
    normalize_url "https://instagram.com/p/x /" = "https://instagram.com/p/x " ∧
    normalize_url (normalize_url "https://instagram.com/p/x /") ≠
      normalize_url "https://instagram.com/p/x /" := by
  refine ⟨rfl, by decide⟩

/-- C2 (amended): normalize_url is idempotent on every input made only of
printable ASCII characters other than space, `;`, `[` and `]` — in
particular on every URL free of whitespace and semicolons.  (Full
idempotence fails: see the counterexample, where stripping a trailing
path slash exposes trailing whitespace for the second pass to remove.) -/
theorem C2_idempotent_amended (s : String)
    (h : ∀ c ∈ s.data, cleanUrlChar c = true) :
    normalize_url (normalize_url s) = normalize_url s :=
  congrArg String.mk (normalize_idem_clean s.data h)

/-- witness for C2: a concrete clean instagram URL with a tracking query -/
theorem C2_idempotent_amended_witness :
    normalize_url (normalize_url "https://instagram.com/p/AbC?igsh=xyz&img_index=2") =
      normalize_url "https://instagram.com/p/AbC?igsh=xyz&img_index=2" :=
  C2_idempotent_amended "https://instagram.com/p/AbC?igsh=xyz&img_index=2"
    (by decide)

end DreamDownloader
